import Mathlib

/-!
# go-useragent-utils: version catalog and generation engine

A shallow embedding of the `generator` package (`types.go`, `options.go`,
`data.go`, `generator.go`, `headers.go`) together with theorems about it.

Conventions of the embedding:

* a Go `string` is a `List Char` (written `"...".toList` for literals); all the
  separators and markers the package looks for are ASCII, so splitting and
  replacing by characters agrees with Go's byte-wise behaviour on UTF-8 text;
* a Go `int` is an `Int`; its width matters in two places, and both are
  modelled: `strconv.Atoi` rejects literals outside the 64-bit range, and the
  arithmetic of `selectVersion` wraps around (`wrapInt`), for which the width is
  a parameter (`Generate` runs it with the 64 bits of `intSize`);
* a Go `map` is an association list in iteration order (Go leaves the order
  unspecified, so statements about maps are made for every order);
* a run-time panic and a returned `error` are both values of `GenError`.
-/

namespace UserAgent

/-! ## types.go -/

/-- Version represents a semantic version with variable number of components. -/
structure Version where
  Components : List Int
deriving DecidableEq, Repr

/-- The body of the `for i := 0; i < maxLen; i++` loop of `Version.Compare`:
`remaining` is the number of iterations left (`maxLen - i`). A position past the
end of a component slice reads as `0`. -/
def compareLoop (c1 c2 : List Int) : Nat → Nat → Int
  | 0, _ => 0
  | remaining + 1, i =>
    let v1 : Int := if i < c1.length then c1.getD i 0 else 0
    let v2 : Int := if i < c2.length then c2.getD i 0 else 0
    if v1 < v2 then -1
    else if v1 > v2 then 1
    else compareLoop c1 c2 remaining (i + 1)

/-- Compare returns -1 if v < other, 1 if v > other, 0 if equal. -/
def Version.Compare (v other : Version) : Int :=
  let len1 := v.Components.length
  let len2 := other.Components.length
  let maxLen := if len2 > len1 then len2 else len1
  compareLoop v.Components other.Components maxLen 0

/-- The decimal digits of a natural number, most significant first. -/
def formatNat (n : Nat) : List Char := Nat.toDigits 10 n

/-- The rendering `fmt.Sprintf("%d", c)` of an `int`. -/
def formatInt : Int → List Char
  | Int.ofNat n => formatNat n
  | Int.negSucc n => '-' :: formatNat (n + 1)

/-- The library routine `strings.Join(parts, sep)`. -/
def Join (sep : List Char) : List (List Char) → List Char
  | [] => []
  | [p] => p
  | p :: q :: rest => p ++ sep ++ Join sep (q :: rest)

/-- The method `Version.String`: every component printed with `%d`, joined by a dot. -/
def Version.String (v : Version) : List Char :=
  let parts := v.Components.map formatInt
  Join ".".toList parts

/-- BrowserName represents the browser name (e.g., "chrome", "firefox"). -/
abbrev BrowserName := String

/-- OSName represents the operating system name (e.g., "windows", "linux"). -/
abbrev OSName := String

/-! The browser and operating system names the package declares. -/

def Chrome : BrowserName := "chrome"
def Firefox : BrowserName := "firefox"
def Safari : BrowserName := "safari"
def Edge : BrowserName := "edge"
def Windows : OSName := "windows"
def Linux : OSName := "linux"
def MacOS : OSName := "macos"
def Android : OSName := "android"
def IOS : OSName := "ios"

/-- A dynamically typed scalar as it can sit in an `interface{}` key or list
item. `toInt` accepts `int`, `int64` and `float64`; every other dynamic type is
`other`. A `float64` is represented by the integer that the Go conversion
`int(v)` yields for it, which is all that the package ever does with it. -/
inductive Scalar where
  | int (v : Int)
  | int64 (v : Int)
  | float64 (truncated : Int)
  | other
deriving DecidableEq, Repr

/-- The dynamically typed value `current interface{}` that `parseVersions`
switches on: `map[int]interface{}`, `map[interface{}]interface{}`,
`[]interface{}`, `[]int`, `nil`, and any other dynamic type. Maps are given as
their (key, value) pairs in iteration order. -/
inductive Node where
  | mapInt (kvs : List (Int × Node))
  | mapAny (kvs : List (Scalar × Node))
  | sliceAny (items : List Scalar)
  | sliceInt (items : List Int)
  | null
  | other

/-- PlatformConfig holds the template and version data for a specific OS. -/
structure PlatformConfig where
  UATemplate : List Char
  Versions : List (Int × Node)

/-- Config represents the top-level structure of the YAML file. -/
structure Config where
  Browsers : List (String × List (String × PlatformConfig))

/-! ## Errors and the random sources -/

/-- Everything that can go wrong in the package: the three errors `Generate`
returns, the error of `loadData`, and a run-time panic (an index out of range or
`Intn` called with a non-positive bound). -/
inductive GenError where
  | browserNotFound (browser : BrowserName)
  | osNotFound (os : OSName) (browser : BrowserName)
  | noMatch
  | unmarshal (msg : String)
  | panic
deriving DecidableEq, Repr

/-- A `*rand.Rand`: the sequence of raw values the source will deliver and the
number already consumed. Quantifying over every `Rand` is quantifying over every
outcome of the draws. -/
structure Rand where
  src : Nat → Nat
  pos : Nat

/-- The method `Intn(n)` with its `int` argument: a value in `[0, n)` and the
advanced source; it panics when `n <= 0`. -/
def Rand.Intn (r : Rand) (n : Int) : Except GenError (Nat × Rand) :=
  if n ≤ 0 then .error .panic
  else .ok (r.src r.pos % n.toNat, { r with pos := r.pos + 1 })

/-- The value an `int` of `bits` bits holds when the exact result of an
arithmetic operation is `x`: Go's signed integers wrap around in two's
complement. -/
def wrapInt (bits : Nat) (x : Int) : Int :=
  (x + 2 ^ (bits - 1)) % 2 ^ bits - 2 ^ (bits - 1)

/-- The width of `int` on a 64-bit platform. -/
def intSize : Nat := 64

/-! ## options.go -/

/-- The configuration of one `Generate` call: the target, the version bounds
(a `Version` without components stands for no bound), the weighting flag and one
flag per Client-Hint header. -/
structure generateOptions where
  browser : BrowserName
  os : OSName
  minVersion : Version
  maxVersion : Version
  withWeight : Bool
  withSecCHUA : Bool
  withSecCHUAFullVersion : Bool
  withSecCHUAPlatform : Bool
  withSecCHUAPlatformVer : Bool
  withSecCHUAMobile : Bool
  withSecCHUABitness : Bool
  withSecCHUAArch : Bool
  withSecCHUAFormFactors : Bool
  withSecCHUAModel : Bool
  withSecCHUAWow64 : Bool

/-- Option defines a function to configure the generation process. -/
abbrev GenOption := generateOptions → generateOptions

/-- defaultOptions returns the default configuration. -/
def defaultOptions : generateOptions :=
  { browser := Chrome
    os := Windows
    minVersion := ⟨[]⟩
    maxVersion := ⟨[]⟩
    withWeight := true
    withSecCHUA := false
    withSecCHUAFullVersion := false
    withSecCHUAPlatform := false
    withSecCHUAPlatformVer := false
    withSecCHUAMobile := false
    withSecCHUABitness := false
    withSecCHUAArch := false
    withSecCHUAFormFactors := false
    withSecCHUAModel := false
    withSecCHUAWow64 := false }

/-- The library routine `strings.Split(s, ".")`: the pieces of `s` between
dots; a string without a dot (the empty one too) is its own single piece. -/
def splitDots : List Char → List (List Char)
  | [] => [[]]
  | c :: cs =>
    if c = '.' then [] :: splitDots cs
    else
      match splitDots cs with
      | [] => [[c]]
      | tok :: toks => (c :: tok) :: toks

/-- The digit loop of `strconv.Atoi`: the value of a run of decimal digits,
or nothing when a character is not a digit. -/
def parseDigits : List Char → Nat → Option Nat
  | [], acc => some acc
  | ch :: rest, acc =>
    if 48 ≤ ch.toNat ∧ ch.toNat ≤ 57 then parseDigits rest (acc * 10 + (ch.toNat - 48))
    else none

/-- The library routine `strconv.Atoi` on a 64-bit platform: an optional sign,
then at least one decimal digit and nothing else, the value within the range of
`int`; `none` stands for a returned error (syntax or range). -/
def Atoi (s : List Char) : Option Int :=
  match s with
  | [] => none
  | c :: rest =>
    let body := if c = '-' ∨ c = '+' then rest else s
    if body.length < 1 then none
    else
      match parseDigits body 0 with
      | none => none
      | some n =>
        let v : Int := if c = '-' then -(n : Int) else (n : Int)
        if -((2 : Int) ^ 63) ≤ v ∧ v < (2 : Int) ^ 63 then some v else none

/-- The loop of `parseVersionString` over the split parts: append while `Atoi`
succeeds, break at the first part for which it fails. -/
def parseParts : List (List Char) → List Int
  | [] => []
  | p :: rest =>
    match Atoi p with
    | some i => i :: parseParts rest
    | none => []

/-- The function `parseVersionString`: split on dots, then the loop `parseParts`. -/
def parseVersionString (s : List Char) : Version :=
  let parts := splitDots s
  { Components := parseParts parts }

/-- WithBrowser sets the target browser. -/
def WithBrowser (b : BrowserName) : GenOption := fun o => { o with browser := b }

/-- WithOS sets the target operating system. -/
def WithOS (os : OSName) : GenOption := fun o => { o with os := os }

/-- WithMinVersion sets the minimum allowed version. -/
def WithMinVersion (v : List Char) : GenOption :=
  fun o => { o with minVersion := parseVersionString v }

/-- WithMaxVersion sets the maximum allowed version. -/
def WithMaxVersion (v : List Char) : GenOption :=
  fun o => { o with maxVersion := parseVersionString v }

/-- WithMinVersionStruct sets the minimum allowed version using a Version struct. -/
def WithMinVersionStruct (v : Version) : GenOption := fun o => { o with minVersion := v }

/-- WithMaxVersionStruct sets the maximum allowed version using a Version struct. -/
def WithMaxVersionStruct (v : Version) : GenOption := fun o => { o with maxVersion := v }

/-- WithWeightedSelection enables or disables weighted random selection. -/
def WithWeightedSelection (enable : Bool) : GenOption := fun o => { o with withWeight := enable }

/-- WithClientHints enables generation of standard Client Hints headers. -/
def WithClientHints : GenOption :=
  fun o => { o with withSecCHUA := true, withSecCHUAMobile := true, withSecCHUAPlatform := true }

/-- WithAllClientHints enables generation of all available Client Hints headers. -/
def WithAllClientHints : GenOption :=
  fun o => { o with
    withSecCHUA := true
    withSecCHUAFullVersion := true
    withSecCHUAPlatform := true
    withSecCHUAPlatformVer := true
    withSecCHUAMobile := true
    withSecCHUABitness := true
    withSecCHUAArch := true
    withSecCHUAFormFactors := true
    withSecCHUAModel := true
    withSecCHUAWow64 := true }

/-! ## data.go -/

/-- browserData holds the flattened data for internal use. -/
structure browserData where
  versions : List Version
  uaTemplate : List Char

/-- dataStore holds all loaded browser data. -/
structure dataStore where
  data : List (BrowserName × List (OSName × browserData))

/-- The function `toInt`: the integer of an `int`, `int64` or `float64`, with
`none` for the `false` flag of every other dynamic type. -/
def toInt : Scalar → Option Int
  | .int v => some v
  | .int64 v => some v
  | .float64 truncated => some truncated
  | .other => none

/-- The helper `makePrefix` of `parseVersions`: a fresh copy of `p` with `next`
appended. -/
def makePrefix (p : List Int) (next : Int) : List Int := p ++ [next]

/-- The `[]interface{}` case of `parseVersions`: one version per item that
`toInt` accepts. -/
def parseItemsAny (pre : List Int) : List Scalar → List Version
  | [] => []
  | item :: rest =>
    match toInt item with
    | some itemInt => { Components := makePrefix pre itemInt } :: parseItemsAny pre rest
    | none => parseItemsAny pre rest

/-- The `[]int` case of `parseVersions`: one version per item. -/
def parseItemsInt (pre : List Int) : List Int → List Version
  | [] => []
  | item :: rest => { Components := makePrefix pre item } :: parseItemsInt pre rest

mutual
/-- The recursive decoder: `parseVersions pre current` is the list `results` the
Go function returns for the prefix `pre` and the node `current`. -/
def parseVersions (pre : List Int) : Node → List Version
  | .mapInt kvs => parseMapInt pre kvs
  | .mapAny kvs => parseMapAny pre kvs
  | .sliceAny items => parseItemsAny pre items
  | .sliceInt items => parseItemsInt pre items
  | .null => if pre.length > 0 then [{ Components := pre }] else []
  | .other => []
/-- The `range` loop of the `map[int]interface{}` case. -/
def parseMapInt (pre : List Int) : List (Int × Node) → List Version
  | [] => []
  | (key, val) :: rest => parseVersions (makePrefix pre key) val ++ parseMapInt pre rest
/-- The `range` loop of the `map[interface{}]interface{}` case. -/
def parseMapAny (pre : List Int) : List (Scalar × Node) → List Version
  | [] => []
  | (key, val) :: rest =>
    match toInt key with
    | some keyInt => parseVersions (makePrefix pre keyInt) val ++ parseMapAny pre rest
    | none => parseMapAny pre rest
end

/-- One step of the sort: `x` is put in front of the first element of the
already sorted list that it is less than. -/
def insertLess {α : Type} (less : α → α → Bool) (x : α) : List α → List α
  | [] => [x]
  | y :: ys => if less x y then x :: y :: ys else y :: insertLess less x ys

/-- The library routine `sort.Slice(xs, less)`, as an insertion sort: the
elements of `xs`, rearranged so that no element is `less` than one before it.
(The library does not promise the order of elements neither of which is `less`
than the other; nothing below depends on it.) -/
def sortSlice {α : Type} (less : α → α → Bool) (xs : List α) : List α :=
  xs.foldl (fun sorted x => insertLess less x sorted) []

/-- The body of the inner loop of `loadData`: decode the version tree of one
(browser, os) pair and sort the versions descending (newest first). -/
def loadEntry (pConfig : PlatformConfig) : browserData :=
  let versions := parseVersions [] (.mapInt pConfig.Versions)
  { uaTemplate := pConfig.UATemplate
    versions := sortSlice (fun vi vj => decide (vi.Compare vj > 0)) versions }

/-- The function `loadData`, given the outcome of `yaml.Unmarshal` on the
embedded file: an error is passed on, a decoded `Config` is turned into the store
entry by entry. -/
def loadData (unmarshal : Except String Config) : Except GenError dataStore :=
  match unmarshal with
  | .error msg => .error (.unmarshal msg)
  | .ok config =>
    .ok { data := config.Browsers.map fun (browser, platforms) =>
            (browser, platforms.map fun (osName, pConfig) => (osName, loadEntry pConfig)) }

/-! ## headers.go -/

/-- A `map[string]string` of HTTP headers, as (name, value) pairs with
distinct names. -/
abbrev Headers := List (List Char × List Char)

/-- The assignment `headers[key] = value`. -/
def Headers.set (h : Headers) (key value : List Char) : Headers :=
  if h.any (fun kv => kv.1 == key) then
    h.map (fun kv => if kv.1 == key then (key, value) else kv)
  else h ++ [(key, value)]

/-- The lookup `headers[key]` with its `ok` flag. -/
def Headers.get? (h : Headers) (key : List Char) : Option (List Char) :=
  (h.find? (fun kv => kv.1 == key)).map (fun kv => kv.2)

/-- The fixed list `brands` of `getGreaseBrand`. -/
def greaseBrands : List (List Char) :=
  ["Not(A:Brand".toList, "Not?A_Brand".toList, "Not A;Brand".toList]

/-- The function `getGreaseBrand`: it draws from the package-level source of
`math/rand` (`rand.Intn`), not from the generator's own `rng`. -/
def getGreaseBrand (global : Rand) : Except GenError (List Char × Rand) :=
  match global.Intn (greaseBrands.length : Int) with
  | .error e => .error e
  | .ok (r, global1) =>
    match greaseBrands[r]? with
    | some b => .ok (b, global1)
    | none => .error .panic

/-- The function `formatSecCHUA`: the brand list with the major version, the
first component of `v` or 0 when there is none. -/
def formatSecCHUA (global : Rand) (v : Version) : Except GenError (List Char × Rand) :=
  match getGreaseBrand global with
  | .error e => .error e
  | .ok (grease, global1) =>
    let major : Int := if v.Components.length > 0 then v.Components.getD 0 0 else 0
    .ok ("\"".toList ++ grease ++ "\";v=\"99\", \"Not(A:Brand\";v=\"99\", \"Google Chrome\";v=\"".toList
          ++ formatInt major ++ "\", \"Chromium\";v=\"".toList ++ formatInt major ++ "\"".toList,
         global1)

/-- The function `formatSecCHUAFullVersion`: the brand list with the full
version string `v.String()`. -/
def formatSecCHUAFullVersion (global : Rand) (v : Version) :
    Except GenError (List Char × Rand) :=
  match getGreaseBrand global with
  | .error e => .error e
  | .ok (grease, global1) =>
    let fullVer := v.String
    .ok ("\"".toList ++ grease
          ++ "\";v=\"99.0.0.0\", \"Not(A:Brand\";v=\"99.0.0.0\", \"Google Chrome\";v=\"".toList
          ++ fullVer ++ "\", \"Chromium\";v=\"".toList ++ fullVer ++ "\"".toList,
         global1)

/-- One `if flag then headers[key] = value` statement with a fixed value. -/
def setIf (flag : Bool) (key value : String) (h : Headers) : Headers :=
  if flag then h.set key.toList value.toList else h

/-- The function `generateHeaders` creates the map of HTTP headers based on
options and selected version. -/
def generateHeaders (global : Rand) (v : Version) (opts : generateOptions) :
    Except GenError (Headers × Rand) :=
  let headers : Headers := []
  match (if opts.withSecCHUA then
            match formatSecCHUA global v with
            | .error e => Except.error e
            | .ok (s, global1) => Except.ok (headers.set "Sec-CH-UA".toList s, global1)
          else Except.ok (headers, global)) with
  | .error e => .error e
  | .ok (headers, global) =>
    let headers := setIf opts.withSecCHUAMobile "Sec-CH-UA-Mobile" "?0" headers
    let headers := setIf opts.withSecCHUAPlatform "Sec-CH-UA-Platform" "\"Windows\"" headers
    match (if opts.withSecCHUAFullVersion then
              match formatSecCHUAFullVersion global v with
              | .error e => Except.error e
              | .ok (s, global1) =>
                Except.ok (headers.set "Sec-CH-UA-Full-Version-List".toList s, global1)
            else Except.ok (headers, global)) with
    | .error e => .error e
    | .ok (headers, global) =>
      let headers := setIf opts.withSecCHUAPlatformVer "Sec-CH-UA-Platform-Version" "\"10.0.0\"" headers
      let headers := setIf opts.withSecCHUABitness "Sec-CH-UA-Bitness" "\"64\"" headers
      let headers := setIf opts.withSecCHUAArch "Sec-CH-UA-Arch" "\"x86\"" headers
      let headers := setIf opts.withSecCHUAModel "Sec-CH-UA-Model" "\"\"" headers
      let headers := setIf opts.withSecCHUAWow64 "Sec-CH-UA-Wow64" "?0" headers
      let headers := setIf opts.withSecCHUAFormFactors "Sec-CH-UA-Form-Factors" "\"Desktop\"" headers
      .ok (headers, global)

/-! ## generator.go -/

/-- Generator is the main entry point for generating user agents. -/
structure Generator where
  store : dataStore
  rng : Rand

/-- Result contains the generated User-Agent string and headers. -/
structure Result where
  UserAgent : List Char
  Headers : Headers

/-- The loop body of `filterVersions`: `continue` on a failed bound check,
otherwise append. -/
def filterStep (opts : generateOptions) (filtered : List Version) (v : Version) : List Version :=
  if opts.minVersion.Components.length > 0 ∧ v.Compare opts.minVersion < 0 then filtered
  else if opts.maxVersion.Components.length > 0 ∧ v.Compare opts.maxVersion > 0 then filtered
  else filtered ++ [v]

/-- The function `filterVersions`: the loop over `versions`, starting from the
empty slice `filtered`. -/
def filterVersions (versions : List Version) (opts : generateOptions) : List Version :=
  versions.foldl (filterStep opts) []

/-- The `for i, v := range versions` loop of the weighted branch of
`selectVersion`, from index `i` with `currentWeight` accumulated so far, in the
arithmetic of an `int` of `bits` bits (the range index `i` stays below
`len(versions)` and is not subject to wrap-around); `none` when the loop ends
without returning. -/
def weightedLoop (bits : Nat) (n r : Int) : List Version → Int → Int → Option Version
  | [], _, _ => none
  | v :: rest, i, currentWeight =>
    let weight := wrapInt bits (n - i)
    let currentWeight := wrapInt bits (currentWeight + weight)
    if r < currentWeight then some v else weightedLoop bits n r rest (i + 1) currentWeight

/-- The expression `(n * (n + 1)) / 2` of `selectVersion` as an `int` of `bits`
bits computes it: the sum and the product wrap around, the division truncates
towards zero. -/
def totalWeight (bits : Nat) (n : Int) : Int :=
  Int.tdiv (wrapInt bits (n * wrapInt bits (n + 1))) 2

/-- The function `selectVersion` on a platform whose `int` has `bits` bits,
drawing from the generator's own source `rng`: the zero `Version` for an empty
list, a uniform draw when unweighted or for a single candidate, otherwise a draw
below `totalWeight` mapped through the loop, with `versions[0]` as the fallback
after the loop. -/
def selectVersion (bits : Nat) (rng : Rand) (versions : List Version) (weighted : Bool) :
    Except GenError (Version × Rand) :=
  if versions.length = 0 then .ok ({ Components := [] }, rng)
  else if !weighted || versions.length = 1 then
    match rng.Intn (versions.length : Int) with
    | .error e => .error e
    | .ok (r, rng1) =>
      match versions[r]? with
      | some v => .ok (v, rng1)
      | none => .error .panic
  else
    let n : Int := versions.length
    match rng.Intn (totalWeight bits n) with
    | .error e => .error e
    | .ok (r, rng1) =>
      match weightedLoop bits n r versions 0 0 with
      | some v => .ok (v, rng1)
      | none =>
        match versions[0]? with
        | some v => .ok (v, rng1)
        | none => .error .panic

/-- The version marker of a user agent template. -/
def versionMarker : List Char := "\x7b\x7bversion\x7d\x7d".toList

/-- The scan of `strings.ReplaceAll(s, old, new)` for a non-empty `old`: `skip`
counts the characters of a match that are still to be passed over. -/
def replaceFrom (old new : List Char) : Nat → List Char → List Char
  | _, [] => []
  | skip + 1, _ :: cs => replaceFrom old new skip cs
  | 0, c :: cs =>
    if old.isPrefixOf (c :: cs) then new ++ replaceFrom old new (old.length - 1) cs
    else c :: replaceFrom old new 0 cs

/-- The library routine `strings.ReplaceAll(s, old, new)` for a non-empty `old`:
every non-overlapping occurrence of `old`, found from the left, becomes `new`. -/
def ReplaceAll (s old new : List Char) : List Char := replaceFrom old new 0 s

/-- The configuration the options of a call produce: the defaults, overridden
by the options in order (the first loop of `Generate`). -/
def applyOptions (opts : List GenOption) : generateOptions :=
  opts.foldl (fun o opt => opt o) defaultOptions

/-- Generate creates a new User-Agent and optional headers based on the
provided options. It returns the result or the error, together with the
generator (its `rng` advanced) and the package-level random source. -/
def Generate (g : Generator) (global : Rand) (opts : List GenOption) :
    Except GenError Result × Generator × Rand :=
  let options := applyOptions opts
  match g.store.data.lookup options.browser with
  | none => (.error (.browserNotFound options.browser), g, global)
  | some platforms =>
    match platforms.lookup options.os with
    | none => (.error (.osNotFound options.os options.browser), g, global)
    | some bd =>
      let candidates := filterVersions bd.versions options
      if candidates.length = 0 then (.error .noMatch, g, global)
      else
        match selectVersion intSize g.rng candidates options.withWeight with
        | .error e => (.error e, g, global)
        | .ok (selectedVer, rng1) =>
          let ua := ReplaceAll bd.uaTemplate versionMarker selectedVer.String
          match generateHeaders global selectedVer options with
          | .error e => (.error e, { g with rng := rng1 }, global)
          | .ok (headers, global1) =>
            let headers := headers.set "User-Agent".toList ua
            (.ok { UserAgent := ua, Headers := headers }, { g with rng := rng1 }, global1)

/-! ## Example data -/

/-- The version tree `{133: {0: {6943: [53, 98]}}}` as the YAML decoder delivers
it below the typed top level: nested maps with dynamically typed keys and a
list of dynamically typed numbers. -/
def exampleTree : List (Int × Node) :=
  [(133, .mapAny [(.int 0, .mapAny [(.int 6943, .sliceAny [.int 53, .int 98])])])]

/-- The same tree with a leaf list that repeats a number:
`{133: {0: {6943: [53, 53]}}}`. -/
def repeatedLeafTree : List (Int × Node) :=
  [(133, .mapAny [(.int 0, .mapAny [(.int 6943, .sliceAny [.int 53, .int 53])])])]

/-- A tree of mixed depth: `{145: {2: null, 3: [1, 2]}, 146: null}`. -/
def mixedDepthTree : Node :=
  .mapInt [(145, .mapInt [(2, .null), (3, .sliceInt [1, 2])]), (146, .null)]

/-- A user agent template with one version marker. -/
def exampleTemplate : List Char :=
  "Mozilla/5.0 (Windows NT 10.0; Win64; x64) Chrome/\x7b\x7bversion\x7d\x7d Safari/537.36".toList

/-- The platform entry with `exampleTemplate` and `exampleTree`. -/
def examplePlatform : PlatformConfig :=
  { UATemplate := exampleTemplate, Versions := exampleTree }

/-- A catalog with the single entry (chrome, windows), which is `examplePlatform`. -/
def exampleConfig : Config :=
  { Browsers := [("chrome", [("windows", examplePlatform)])] }

/-- A random source all of whose draws are 0. -/
def zeroRand : Rand := { src := fun _ => 0, pos := 0 }

/-- The generator over the store of `exampleConfig`, with `zeroRand` as its own
random source. -/
def exampleGenerator : Generator :=
  { store := { data := [("chrome", [("windows", loadEntry examplePlatform)])] }
    rng := zeroRand }

/-- A random source all of whose draws are 1. -/
def oneRand : Rand := { src := fun _ => 1, pos := 0 }

/-- A generator whose chrome/windows entry lists 3037000500 versions (the same
one, repeated), with `zeroRand` as its own random source. -/
def hugeGenerator : Generator :=
  { store := { data := [("chrome", [("windows",
      { versions := List.replicate 3037000500 { Components := [133] }
        uaTemplate := exampleTemplate })])] }
    rng := zeroRand }

/-! ## cmd/update-data/main.go -/

/-- The type assertion `x.(int)` of the update tool: only a dynamic `int` passes. -/
def asInt : Scalar → Option Int
  | .int v => some v
  | _ => none

/-- The assignment `m[key] = val` on a `map[int]interface{}`. -/
def mapSet : List (Int × Node) → Int → Node → List (Int × Node)
  | [], key, val => [(key, val)]
  | (k, old) :: rest, key, val =>
    if k = key then (key, val) :: rest else (k, old) :: mapSet rest key val

/-- The conversion loop of `addToMap` for a `map[interface{}]interface{}`: a new
`map[int]interface{}` with the entries whose key is an `int`. -/
def convertKeys : List (Scalar × Node) → List (Int × Node) → List (Int × Node)
  | [], newMap => newMap
  | (k, val) :: rest, newMap =>
    match asInt k with
    | some kInt => convertKeys rest (mapSet newMap kInt val)
    | none => convertKeys rest newMap

/-- The library routine `sort.Ints`: ascending order. -/
def sortInts (xs : List Int) : List Int := sortSlice (fun a b => decide (a < b)) xs

/-- The function `addToMap` of the update tool, returning the map after the
call: it recursively adds the version components to the nested map. -/
def addToMap : List (Int × Node) → List Int → List (Int × Node)
  | m, [] => m
  | m, [_] => m
  | m, [head, leaf] =>
    let m1 := if (m.lookup head).isNone then mapSet m head (.sliceInt []) else m
    match m1.lookup head with
    | some (.sliceInt v) =>
      if v.contains leaf then m1
      else mapSet m1 head (.sliceInt (sortInts (v ++ [leaf])))
    | some (.sliceAny v) =>
      let ints := v.filterMap asInt
      if ints.contains leaf then m1
      else mapSet m1 head (.sliceInt (sortInts (ints ++ [leaf])))
    | some (.mapInt v) => mapSet m1 head (.mapInt (addToMap v [leaf]))
    | some (.mapAny v) => mapSet m1 head (.mapInt (addToMap (convertKeys v []) [leaf]))
    | some .null => mapSet m1 head (.sliceInt [leaf])
    | _ => m1
  | m, head :: t1 :: t2 :: rest =>
    let m1 := if (m.lookup head).isNone then mapSet m head (.mapInt []) else m
    match m1.lookup head with
    | some (.mapInt v) => mapSet m1 head (.mapInt (addToMap v (t1 :: t2 :: rest)))
    | some (.mapAny v) =>
      mapSet m1 head (.mapInt (addToMap (convertKeys v []) (t1 :: t2 :: rest)))
    | some (.sliceInt _) => m1
    | some .null => mapSet m1 head (.mapInt (addToMap [] (t1 :: t2 :: rest)))
    | _ => m1

/-- The merge loop of `updateYAML`: `addToMap` once per version, in order. -/
def addAll (m : List (Int × Node)) (versions : List (List Int)) : List (Int × Node) :=
  versions.foldl addToMap m

/-! ## Notions used to state the properties -/

/-- A component list extended with zeros up to length `n` (left alone when it is
already that long). -/
def padTo (n : Nat) (c : List Int) : List Int := c ++ List.replicate (n - c.length) 0

/-- The bounds of a configuration as the specification words them: a bound
without components does not constrain, otherwise `v` is at least `minVersion`
and at most `maxVersion`. -/
def withinBounds (opts : generateOptions) (v : Version) : Prop :=
  (opts.minVersion.Components.length = 0 ∨ v.Compare opts.minVersion ≥ 0) ∧
  (opts.maxVersion.Components.length = 0 ∨ v.Compare opts.maxVersion ≤ 0)

instance (opts : generateOptions) (v : Version) : Decidable (withinBounds opts v) := by
  unfold withinBounds
  infer_instance

/-- A version list sorted descending by `Compare`: no element compares below a
later one. -/
def SortedDesc (vs : List Version) : Prop :=
  vs.Pairwise (fun a b => a.Compare b ≥ 0)

instance (vs : List Version) : Decidable (SortedDesc vs) := by
  unfold SortedDesc
  infer_instance

mutual
/-- A tree without repeats: no map has two keys that denote the same integer
(a Go map has distinct keys to begin with) and no leaf list holds the same number
twice. -/
def Node.noRepeats : Node → Bool
  | .mapInt kvs => decide (kvs.map Prod.fst).Nodup && noRepeatsInt kvs
  | .mapAny kvs => decide (kvs.filterMap (fun kv => toInt kv.1)).Nodup && noRepeatsAny kvs
  | .sliceAny items => decide (items.filterMap toInt).Nodup
  | .sliceInt items => decide items.Nodup
  | .null => true
  | .other => true
/-- Every child of a `map[int]interface{}` is without repeats. -/
def noRepeatsInt : List (Int × Node) → Bool
  | [] => true
  | (_, val) :: rest => val.noRepeats && noRepeatsInt rest
/-- Every child of a `map[interface{}]interface{}` is without repeats. -/
def noRepeatsAny : List (Scalar × Node) → Bool
  | [] => true
  | (_, val) :: rest => val.noRepeats && noRepeatsAny rest
end

/-- The header names present in a header map. -/
def Headers.keys (h : Headers) : List (List Char) := h.map Prod.fst

/-- The ten Client-Hint header names, each with its configuration flag. -/
def hintFlags (opts : generateOptions) : List (List Char × Bool) :=
  [("Sec-CH-UA".toList, opts.withSecCHUA),
   ("Sec-CH-UA-Mobile".toList, opts.withSecCHUAMobile),
   ("Sec-CH-UA-Platform".toList, opts.withSecCHUAPlatform),
   ("Sec-CH-UA-Full-Version-List".toList, opts.withSecCHUAFullVersion),
   ("Sec-CH-UA-Platform-Version".toList, opts.withSecCHUAPlatformVer),
   ("Sec-CH-UA-Bitness".toList, opts.withSecCHUABitness),
   ("Sec-CH-UA-Arch".toList, opts.withSecCHUAArch),
   ("Sec-CH-UA-Model".toList, opts.withSecCHUAModel),
   ("Sec-CH-UA-Wow64".toList, opts.withSecCHUAWow64),
   ("Sec-CH-UA-Form-Factors".toList, opts.withSecCHUAFormFactors)]

/-- The random source after one draw. -/
def Rand.next (r : Rand) : Rand := { r with pos := r.pos + 1 }

/-- The grease brand that the next draw from `global` selects. -/
def drawnBrand (global : Rand) : List Char :=
  greaseBrands.getD (global.src global.pos % 3) []

/-- The major version shown in `Sec-CH-UA`: the first component, 0 for a
version without components. -/
def majorOf (v : Version) : Int :=
  match v.Components with
  | [] => 0
  | c :: _ => c

/-- The `Sec-CH-UA` brand list for a grease brand and a rendered major version,
as the specification writes it. -/
def secCHUAValue (grease major : List Char) : List Char :=
  "\"".toList ++ grease ++ "\";v=\"99\", \"Not(A:Brand\";v=\"99\", \"Google Chrome\";v=\"".toList
    ++ major ++ "\", \"Chromium\";v=\"".toList ++ major ++ "\"".toList

/-- The `Sec-CH-UA-Full-Version-List` brand list for a grease brand and a full
version string, as the specification writes it. -/
def fullVersionValue (grease fullVer : List Char) : List Char :=
  "\"".toList ++ grease
    ++ "\";v=\"99.0.0.0\", \"Not(A:Brand\";v=\"99.0.0.0\", \"Google Chrome\";v=\"".toList
    ++ fullVer ++ "\", \"Chromium\";v=\"".toList ++ fullVer ++ "\"".toList

/-- The header map `generateHeaders` builds, written without the error
plumbing: the ten conditional assignments in the order of the source, for the two
grease brands `grease` (of `Sec-CH-UA`) and `greaseFull` (of the full version
list). -/
def hintHeaders (grease greaseFull : List Char) (v : Version) (opts : generateOptions) :
    Headers :=
  let h : Headers := []
  let h := if opts.withSecCHUA = true then
      h.set "Sec-CH-UA".toList (secCHUAValue grease (formatInt (majorOf v))) else h
  let h := setIf opts.withSecCHUAMobile "Sec-CH-UA-Mobile" "?0" h
  let h := setIf opts.withSecCHUAPlatform "Sec-CH-UA-Platform" "\"Windows\"" h
  let h := if opts.withSecCHUAFullVersion = true then
      h.set "Sec-CH-UA-Full-Version-List".toList (fullVersionValue greaseFull v.String) else h
  let h := setIf opts.withSecCHUAPlatformVer "Sec-CH-UA-Platform-Version" "\"10.0.0\"" h
  let h := setIf opts.withSecCHUABitness "Sec-CH-UA-Bitness" "\"64\"" h
  let h := setIf opts.withSecCHUAArch "Sec-CH-UA-Arch" "\"x86\"" h
  let h := setIf opts.withSecCHUAModel "Sec-CH-UA-Model" "\"\"" h
  let h := setIf opts.withSecCHUAWow64 "Sec-CH-UA-Wow64" "?0" h
  setIf opts.withSecCHUAFormFactors "Sec-CH-UA-Form-Factors" "\"Desktop\"" h

/-- The package-level source after `Sec-CH-UA` has been formatted (one draw when
its flag is set). -/
def afterSecCHUA (global : Rand) (opts : generateOptions) : Rand :=
  if opts.withSecCHUA = true then global.next else global

/-- The package-level source after `generateHeaders`: one draw for each of the
two brand lists whose flag is set. -/
def afterHeaders (global : Rand) (opts : generateOptions) : Rand :=
  if opts.withSecCHUAFullVersion = true then (afterSecCHUA global opts).next
  else afterSecCHUA global opts

/-- The options a caller can pass to `Generate`: the type `generateOptions` is
not exported, so the only `Option` values are those the package's nine
constructors return. -/
inductive PackageOption where
  | withBrowser (b : BrowserName)
  | withOS (os : OSName)
  | withMinVersion (v : List Char)
  | withMaxVersion (v : List Char)
  | withMinVersionStruct (v : Version)
  | withMaxVersionStruct (v : Version)
  | withWeightedSelection (enable : Bool)
  | withClientHints
  | withAllClientHints
deriving DecidableEq

/-- The `Option` function a package option stands for. -/
def PackageOption.toOption : PackageOption → GenOption
  | .withBrowser b => WithBrowser b
  | .withOS os => WithOS os
  | .withMinVersion v => WithMinVersion v
  | .withMaxVersion v => WithMaxVersion v
  | .withMinVersionStruct v => WithMinVersionStruct v
  | .withMaxVersionStruct v => WithMaxVersionStruct v
  | .withWeightedSelection enable => WithWeightedSelection enable
  | .withClientHints => WithClientHints
  | .withAllClientHints => WithAllClientHints

/-- The ten Client-Hint header names. -/
def clientHintKeys : List (List Char) :=
  ["Sec-CH-UA".toList, "Sec-CH-UA-Mobile".toList, "Sec-CH-UA-Platform".toList,
   "Sec-CH-UA-Full-Version-List".toList, "Sec-CH-UA-Platform-Version".toList,
   "Sec-CH-UA-Bitness".toList, "Sec-CH-UA-Arch".toList, "Sec-CH-UA-Model".toList,
   "Sec-CH-UA-Wow64".toList, "Sec-CH-UA-Form-Factors".toList]

/-- The sum of the weights `n - k` of the indices `k` below `i`. -/
def weightBelow (n i : Nat) : Nat := ((List.range i).map (fun k => n - k)).sum

/-- The cumulative weight of index `i` among `n` candidates:
`n + (n - 1) + ... + (n - i)`. -/
def cumWeight (n i : Nat) : Nat := weightBelow n (i + 1)

/-- Index `i` is the least index whose cumulative weight exceeds the draw `r`. -/
def LeastExceeding (n r i : Nat) : Prop :=
  r < cumWeight n i ∧ ∀ j < i, cumWeight n j ≤ r

instance (n r i : Nat) : Decidable (LeastExceeding n r i) := by
  unfold LeastExceeding
  infer_instance

/-- The trees the update tool builds for versions of `depth + 2` components:
`depth` levels of keyed maps above a level of maps whose values are leaf lists;
every map has distinct keys and every leaf list is strictly ascending (sorted,
without duplicates). -/
def Shaped : Nat → List (Int × Node) → Prop
  | 0, m => (m.map Prod.fst).Nodup ∧
      ∀ kv ∈ m, ∃ leaves : List Int, kv.2 = .sliceInt leaves ∧ leaves.Pairwise (fun a b => a < b)
  | depth + 1, m => (m.map Prod.fst).Nodup ∧
      ∀ kv ∈ m, ∃ sub : List (Int × Node), kv.2 = .mapInt sub ∧ Shaped depth sub

/-- The value a list of package options gives to one field of the
configuration: what the last option that names the field says (`f` tells, per
option, whether and what), and the default `d` when no option names it. -/
def lastGiven {α : Type} (f : PackageOption → Option α) (d : α) (ps : List PackageOption) : α :=
  ((ps.filterMap f).getLast?).getD d

/-- The browser an option names. -/
def givenBrowser : PackageOption → Option BrowserName
  | .withBrowser b => some b
  | _ => none

/-- The operating system an option names. -/
def givenOS : PackageOption → Option OSName
  | .withOS os => some os
  | _ => none

/-- The lower bound an option names, parsed when given as a string. -/
def givenMin : PackageOption → Option Version
  | .withMinVersion s => some (parseVersionString s)
  | .withMinVersionStruct v => some v
  | _ => none

/-- The upper bound an option names, parsed when given as a string. -/
def givenMax : PackageOption → Option Version
  | .withMaxVersion s => some (parseVersionString s)
  | .withMaxVersionStruct v => some v
  | _ => none

/-- The browser a call with the options `ps` asks for: `chrome` by default. -/
def configuredBrowser (ps : List PackageOption) : BrowserName := lastGiven givenBrowser Chrome ps

/-- The operating system a call with the options `ps` asks for: `windows` by
default. -/
def configuredOS (ps : List PackageOption) : OSName := lastGiven givenOS Windows ps

/-- The lower bound a call with the options `ps` asks for: none (the version
without components) by default. -/
def configuredMin (ps : List PackageOption) : Version := lastGiven givenMin { Components := [] } ps

/-- The upper bound a call with the options `ps` asks for: none by default. -/
def configuredMax (ps : List PackageOption) : Version := lastGiven givenMax { Components := [] } ps

/-! ## Facts about `Compare` -/

theorem getD_pad (c : List Int) (i : Nat) :
    (if i < c.length then c.getD i 0 else 0) = c.getD i 0 := by
  split
  · rfl
  · rw [List.getD_eq_default]
    omega

theorem compareLoop_succ (c1 c2 : List Int) (n i : Nat) :
    compareLoop c1 c2 (n + 1) i =
      if c1.getD i 0 < c2.getD i 0 then -1
      else if c1.getD i 0 > c2.getD i 0 then 1
      else compareLoop c1 c2 n (i + 1) := by
  simp only [compareLoop, getD_pad]

theorem compareLoop_range (c1 c2 : List Int) (n i : Nat) :
    compareLoop c1 c2 n i = -1 ∨ compareLoop c1 c2 n i = 0 ∨ compareLoop c1 c2 n i = 1 := by
  induction n generalizing i with
  | zero => simp [compareLoop]
  | succ n ih =>
    rw [compareLoop_succ]
    split
    · simp
    · split
      · simp
      · exact ih (i + 1)

theorem compareLoop_swap (c1 c2 : List Int) (n i : Nat) :
    compareLoop c2 c1 n i = -compareLoop c1 c2 n i := by
  induction n generalizing i with
  | zero => simp [compareLoop]
  | succ n ih =>
    rw [compareLoop_succ, compareLoop_succ, ih (i + 1)]
    split_ifs <;> first | rfl | omega

theorem compareLoop_eq_zero_iff (c1 c2 : List Int) (n i : Nat) :
    compareLoop c1 c2 n i = 0 ↔ ∀ j, i ≤ j → j < i + n → c1.getD j 0 = c2.getD j 0 := by
  induction n generalizing i with
  | zero =>
    simp only [compareLoop, true_iff]
    intro j h1 h2
    omega
  | succ n ih =>
    rw [compareLoop_succ]
    constructor
    · intro h j h1 h2
      by_cases ha : c1.getD i 0 < c2.getD i 0
      · rw [if_pos ha] at h
        omega
      · rw [if_neg ha] at h
        by_cases hb : c1.getD i 0 > c2.getD i 0
        · rw [if_pos hb] at h
          omega
        · rw [if_neg hb] at h
          rcases Nat.eq_or_lt_of_le h1 with he | hl
          · subst he
            omega
          · exact (ih (i + 1)).mp h j hl (by omega)
    · intro h
      have h0 := h i (Nat.le_refl i) (by omega)
      rw [if_neg (by omega), if_neg (by omega)]
      exact (ih (i + 1)).mpr (fun j h1 h2 => h j (by omega) (by omega))

theorem compareLoop_past_end (c1 c2 : List Int) (k i : Nat)
    (h1 : c1.length ≤ i) (h2 : c2.length ≤ i) : compareLoop c1 c2 k i = 0 := by
  rw [compareLoop_eq_zero_iff]
  intro j hj _
  rw [List.getD_eq_default _ _ (by omega), List.getD_eq_default _ _ (by omega)]

theorem compareLoop_extend (c1 c2 : List Int) (n k i : Nat)
    (h1 : c1.length ≤ i + n) (h2 : c2.length ≤ i + n) :
    compareLoop c1 c2 (n + k) i = compareLoop c1 c2 n i := by
  induction n generalizing i with
  | zero =>
    rw [Nat.zero_add, compareLoop_past_end c1 c2 k i (by omega) (by omega)]
    rfl
  | succ n ih =>
    rw [show n + 1 + k = (n + k) + 1 by omega, compareLoop_succ, compareLoop_succ,
      ih (i + 1) (by omega) (by omega)]

/-- Compare runs the loop for any number of rounds that covers both operands. -/
theorem Compare_eq_loop (a b : Version) (N : Nat)
    (ha : a.Components.length ≤ N) (hb : b.Components.length ≤ N) :
    a.Compare b = compareLoop a.Components b.Components N 0 := by
  unfold Version.Compare
  simp only
  have hm : (if b.Components.length > a.Components.length then b.Components.length
      else a.Components.length) ≤ N := by split <;> omega
  obtain ⟨k, rfl⟩ := Nat.exists_eq_add_of_le hm
  rw [compareLoop_extend]
  · split <;> omega
  · split <;> omega

theorem compareLoop_trans_le (c1 c2 c3 : List Int) (n i : Nat)
    (h12 : compareLoop c1 c2 n i ≤ 0) (h23 : compareLoop c2 c3 n i ≤ 0) :
    compareLoop c1 c3 n i ≤ 0 ∧
      (compareLoop c1 c2 n i < 0 ∨ compareLoop c2 c3 n i < 0 → compareLoop c1 c3 n i < 0) := by
  induction n generalizing i with
  | zero => simp [compareLoop]
  | succ n ih =>
    rw [compareLoop_succ] at h12 h23 ⊢
    rw [compareLoop_succ, compareLoop_succ]
    split_ifs at h12 h23 ⊢ <;> first
      | omega
      | exact ih (i + 1) h12 h23

theorem Compare_range (a b : Version) :
    a.Compare b = -1 ∨ a.Compare b = 0 ∨ a.Compare b = 1 :=
  compareLoop_range _ _ _ _

theorem Compare_swap (a b : Version) : b.Compare a = -a.Compare b := by
  rw [Compare_eq_loop a b (max a.Components.length b.Components.length)
        (le_max_left _ _) (le_max_right _ _),
      Compare_eq_loop b a (max a.Components.length b.Components.length)
        (le_max_right _ _) (le_max_left _ _)]
  exact compareLoop_swap _ _ _ _

theorem Compare_eq_zero_iff (a b : Version) :
    a.Compare b = 0 ↔ ∀ j, a.Components.getD j 0 = b.Components.getD j 0 := by
  rw [Compare_eq_loop a b (max a.Components.length b.Components.length)
        (le_max_left _ _) (le_max_right _ _), compareLoop_eq_zero_iff]
  constructor
  · intro h j
    by_cases hj : j < 0 + max a.Components.length b.Components.length
    · exact h j (Nat.zero_le j) hj
    · have h1 := le_max_left a.Components.length b.Components.length
      have h2 := le_max_right a.Components.length b.Components.length
      rw [List.getD_eq_default _ _ (by omega), List.getD_eq_default _ _ (by omega)]
  · intro h j _ _
    exact h j

theorem Compare_self (a : Version) : a.Compare a = 0 := by
  rw [Compare_eq_zero_iff]
  intro j
  rfl

theorem Compare_trans (a b c : Version) (hab : a.Compare b ≤ 0) (hbc : b.Compare c ≤ 0) :
    a.Compare c ≤ 0 ∧ (a.Compare b < 0 ∨ b.Compare c < 0 → a.Compare c < 0) := by
  have hN : ∃ N, a.Components.length ≤ N ∧ b.Components.length ≤ N ∧ c.Components.length ≤ N :=
    ⟨a.Components.length + b.Components.length + c.Components.length,
      by omega, by omega, by omega⟩
  obtain ⟨N, h1, h2, h3⟩ := hN
  rw [Compare_eq_loop a b N h1 h2] at hab ⊢
  rw [Compare_eq_loop b c N h2 h3] at hbc ⊢
  rw [Compare_eq_loop a c N h1 h3]
  exact compareLoop_trans_le _ _ _ N 0 hab hbc

theorem padTo_length (N : Nat) (c : List Int) (h : c.length ≤ N) : (padTo N c).length = N := by
  simp [padTo]
  omega

theorem padTo_getD (N : Nat) (c : List Int) (j : Nat) : (padTo N c).getD j 0 = c.getD j 0 := by
  unfold padTo
  by_cases hj : j < c.length
  · rw [List.getD_append _ _ _ _ hj]
  · rw [List.getD_append_right _ _ _ _ (by omega), List.getD_eq_default c 0 (by omega)]
    simp [List.getD_eq_getElem?_getD, List.getElem?_replicate]
    split <;> simp

theorem padTo_eq_iff (N : Nat) (a b : List Int) (ha : a.length ≤ N) (hb : b.length ≤ N) :
    padTo N a = padTo N b ↔ ∀ j, a.getD j 0 = b.getD j 0 := by
  constructor
  · intro h j
    rw [← padTo_getD N a j, ← padTo_getD N b j, h]
  · intro h
    apply List.ext_getElem
    · rw [padTo_length N a ha, padTo_length N b hb]
    · intro j h1 h2
      have hj := h j
      rw [← padTo_getD N a j, ← padTo_getD N b j] at hj
      rw [List.getD_eq_getElem _ _ h1, List.getD_eq_getElem _ _ h2] at hj
      exact hj

/-! ## Facts about `filterVersions` -/

theorem filterStep_eq (opts : generateOptions) (acc : List Version) (v : Version) :
    filterStep opts acc v = if withinBounds opts v then acc ++ [v] else acc := by
  unfold filterStep withinBounds
  split_ifs <;> first | rfl | omega

theorem filterVersions_foldl (opts : generateOptions) (vs acc : List Version) :
    vs.foldl (filterStep opts) acc = acc ++ vs.filter (fun v => decide (withinBounds opts v)) := by
  induction vs generalizing acc with
  | nil => simp
  | cons v vs ih =>
    rw [List.foldl_cons, ih, filterStep_eq, List.filter_cons]
    by_cases h : withinBounds opts v
    · simp [h]
    · simp [h]

theorem filterVersions_eq_filter (vs : List Version) (opts : generateOptions) :
    filterVersions vs opts = vs.filter (fun v => decide (withinBounds opts v)) := by
  unfold filterVersions
  rw [filterVersions_foldl, List.nil_append]

theorem mem_filterVersions (vs : List Version) (opts : generateOptions) (v : Version) :
    v ∈ filterVersions vs opts ↔ v ∈ vs ∧ withinBounds opts v := by
  rw [filterVersions_eq_filter, List.mem_filter, decide_eq_true_iff]

theorem Compare_ge_trans (a b c : Version) (hab : a.Compare b ≥ 0) (hbc : b.Compare c ≥ 0) :
    a.Compare c ≥ 0 := by
  have h1 := Compare_swap a b
  have h2 := Compare_swap b c
  have h3 := Compare_swap a c
  have h := (Compare_trans c b a (by omega) (by omega)).1
  omega

/-! ## Facts about the decoder -/

theorem parseItemsInt_eq (pre : List Int) (items : List Int) :
    parseItemsInt pre items = items.map (fun leaf => { Components := pre ++ [leaf] }) := by
  induction items with
  | nil => rfl
  | cons item rest ih => simp [parseItemsInt, makePrefix, ih]

theorem parseItemsAny_eq (pre : List Int) (items : List Scalar) :
    parseItemsAny pre items
      = (items.filterMap toInt).map (fun leaf => { Components := pre ++ [leaf] }) := by
  induction items with
  | nil => rfl
  | cons item rest ih =>
    cases h : toInt item <;> simp [parseItemsAny, makePrefix, h, ih]

theorem parseMapInt_eq (pre : List Int) (kvs : List (Int × Node)) :
    parseMapInt pre kvs = kvs.flatMap (fun kv => parseVersions (pre ++ [kv.1]) kv.2) := by
  induction kvs with
  | nil => simp [parseMapInt]
  | cons kv rest ih =>
    obtain ⟨key, val⟩ := kv
    simp [parseMapInt, makePrefix, ih]

theorem parseMapAny_eq (pre : List Int) (kvs : List (Scalar × Node)) :
    parseMapAny pre kvs = kvs.flatMap (fun kv =>
      match toInt kv.1 with
      | some keyInt => parseVersions (pre ++ [keyInt]) kv.2
      | none => []) := by
  induction kvs with
  | nil => simp [parseMapAny]
  | cons kv rest ih =>
    obtain ⟨key, val⟩ := kv
    cases h : toInt key <;> simp [parseMapAny, makePrefix, h, ih]

/-! ## Facts about the sort -/

theorem insertLess_perm {α : Type} (less : α → α → Bool) (x : α) (l : List α) :
    (insertLess less x l).Perm (x :: l) := by
  induction l with
  | nil => exact List.Perm.refl _
  | cons y ys ih =>
    unfold insertLess
    split
    · exact List.Perm.refl _
    · exact (List.Perm.cons y ih).trans (List.Perm.swap x y ys)

theorem sortSlice_foldl_perm {α : Type} (less : α → α → Bool) (xs acc : List α) :
    (xs.foldl (fun sorted x => insertLess less x sorted) acc).Perm (acc ++ xs) := by
  induction xs generalizing acc with
  | nil => simp
  | cons x xs ih =>
    rw [List.foldl_cons]
    refine (ih (insertLess less x acc)).trans ?_
    refine ((insertLess_perm less x acc).append_right xs).trans ?_
    exact List.perm_middle.symm

theorem sortSlice_perm {α : Type} (less : α → α → Bool) (xs : List α) :
    (sortSlice less xs).Perm xs := by
  have h := sortSlice_foldl_perm less xs []
  simpa [sortSlice] using h

theorem insertLess_sortedDesc (x : Version) (l : List Version) (h : SortedDesc l) :
    SortedDesc (insertLess (fun vi vj => decide (vi.Compare vj > 0)) x l) := by
  unfold SortedDesc at h ⊢
  induction l with
  | nil => simp [insertLess]
  | cons y ys ih =>
    rw [List.pairwise_cons] at h
    unfold insertLess
    split
    · rename_i hlt
      have hxy : x.Compare y > 0 := of_decide_eq_true hlt
      rw [List.pairwise_cons]
      refine ⟨?_, List.pairwise_cons.mpr h⟩
      intro z hz
      rcases List.mem_cons.mp hz with rfl | hz
      · omega
      · exact Compare_ge_trans x y z (by omega) (h.1 z hz)
    · rename_i hlt
      have hxy : ¬ x.Compare y > 0 := fun hc => hlt (decide_eq_true hc)
      rw [List.pairwise_cons]
      refine ⟨?_, ih h.2⟩
      intro z hz
      have hz2 := (insertLess_perm _ x ys).subset hz
      rcases List.mem_cons.mp hz2 with rfl | hz3
      · have hs := Compare_swap z y
        omega
      · exact h.1 z hz3

theorem sortSlice_foldl_sortedDesc (xs acc : List Version) (h : SortedDesc acc) :
    SortedDesc (xs.foldl
      (fun sorted x => insertLess (fun vi vj => decide (vi.Compare vj > 0)) x sorted) acc) := by
  induction xs generalizing acc with
  | nil => exact h
  | cons x xs ih =>
    rw [List.foldl_cons]
    exact ih _ (insertLess_sortedDesc x acc h)

theorem sortSlice_sortedDesc (xs : List Version) :
    SortedDesc (sortSlice (fun vi vj => decide (vi.Compare vj > 0)) xs) :=
  sortSlice_foldl_sortedDesc xs [] List.Pairwise.nil

mutual
theorem parseVersions_extends (pre : List Int) :
    ∀ (n : Node) (v : Version), v ∈ parseVersions pre n → pre <+: v.Components
  | .mapInt kvs, v, h => parseMapInt_extends pre kvs v (by rw [parseVersions] at h; exact h)
  | .mapAny kvs, v, h => parseMapAny_extends pre kvs v (by rw [parseVersions] at h; exact h)
  | .sliceAny items, v, h => by
    rw [parseVersions, parseItemsAny_eq, List.mem_map] at h
    obtain ⟨leaf, _, rfl⟩ := h
    exact List.prefix_append _ _
  | .sliceInt items, v, h => by
    rw [parseVersions, parseItemsInt_eq, List.mem_map] at h
    obtain ⟨leaf, _, rfl⟩ := h
    exact List.prefix_append _ _
  | .null, v, h => by
    rw [parseVersions] at h
    split at h
    · rw [List.mem_singleton] at h
      subst h
      exact List.prefix_refl _
    · simp at h
  | .other, v, h => by
    rw [parseVersions] at h
    simp at h
theorem parseMapInt_extends (pre : List Int) :
    ∀ (kvs : List (Int × Node)) (v : Version), v ∈ parseMapInt pre kvs → pre <+: v.Components
  | [], v, h => by
    rw [parseMapInt] at h
    simp at h
  | (key, val) :: rest, v, h => by
    rw [parseMapInt, List.mem_append] at h
    rcases h with h | h
    · exact (List.prefix_append pre [key]).trans (parseVersions_extends (makePrefix pre key) val v h)
    · exact parseMapInt_extends pre rest v h
theorem parseMapAny_extends (pre : List Int) :
    ∀ (kvs : List (Scalar × Node)) (v : Version), v ∈ parseMapAny pre kvs → pre <+: v.Components
  | [], v, h => by
    rw [parseMapAny] at h
    simp at h
  | (key, val) :: rest, v, h => by
    rw [parseMapAny] at h
    split at h
    · rw [List.mem_append] at h
      rcases h with h | h
      · rename_i keyInt _
        exact (List.prefix_append pre [keyInt]).trans
          (parseVersions_extends (makePrefix pre keyInt) val v h)
      · exact parseMapAny_extends pre rest v h
    · exact parseMapAny_extends pre rest v h
end

/-- Two one-step extensions of a prefix that both start the same list extend it
by the same key. -/
theorem key_eq_of_extends (pre l : List Int) (k1 k2 : Int)
    (h1 : pre ++ [k1] <+: l) (h2 : pre ++ [k2] <+: l) : k1 = k2 := by
  have hp : pre ++ [k1] <+: pre ++ [k2] := List.prefix_of_prefix_length_le h1 h2 (by simp)
  have he : pre ++ [k1] = pre ++ [k2] := hp.eq_of_length (by simp)
  simpa using he

theorem mem_parseMapInt_key (pre : List Int) (kvs : List (Int × Node)) (v : Version)
    (h : v ∈ parseMapInt pre kvs) :
    ∃ k ∈ kvs.map Prod.fst, pre ++ [k] <+: v.Components := by
  rw [parseMapInt_eq, List.mem_flatMap] at h
  obtain ⟨kv, hkv, hv⟩ := h
  exact ⟨kv.1, List.mem_map_of_mem Prod.fst hkv, parseVersions_extends _ _ _ hv⟩

theorem mem_parseMapAny_key (pre : List Int) (kvs : List (Scalar × Node)) (v : Version)
    (h : v ∈ parseMapAny pre kvs) :
    ∃ k ∈ kvs.filterMap (fun kv => toInt kv.1), pre ++ [k] <+: v.Components := by
  rw [parseMapAny_eq, List.mem_flatMap] at h
  obtain ⟨kv, hkv, hv⟩ := h
  cases hk : toInt kv.1 with
  | none => simp [hk] at hv
  | some keyInt =>
    simp only [hk] at hv
    exact ⟨keyInt, List.mem_filterMap.mpr ⟨kv, hkv, hk⟩, parseVersions_extends _ _ _ hv⟩

theorem extend_injective (pre : List Int) :
    Function.Injective (fun leaf : Int => ({ Components := pre ++ [leaf] } : Version)) := by
  intro a b h
  simpa using h

mutual
theorem parseVersions_nodup (pre : List Int) :
    ∀ n : Node, n.noRepeats = true → (parseVersions pre n).Nodup
  | .mapInt kvs, h => by
    rw [Node.noRepeats, Bool.and_eq_true, decide_eq_true_iff] at h
    rw [parseVersions]
    exact parseMapInt_nodup pre kvs h.1 h.2
  | .mapAny kvs, h => by
    rw [Node.noRepeats, Bool.and_eq_true, decide_eq_true_iff] at h
    rw [parseVersions]
    exact parseMapAny_nodup pre kvs h.1 h.2
  | .sliceAny items, h => by
    rw [Node.noRepeats, decide_eq_true_iff] at h
    rw [parseVersions, parseItemsAny_eq]
    exact h.map (extend_injective pre)
  | .sliceInt items, h => by
    rw [Node.noRepeats, decide_eq_true_iff] at h
    rw [parseVersions, parseItemsInt_eq]
    exact h.map (extend_injective pre)
  | .null, _ => by
    rw [parseVersions]
    split <;> simp
  | .other, _ => by
    rw [parseVersions]
    exact List.nodup_nil
theorem parseMapInt_nodup (pre : List Int) :
    ∀ kvs : List (Int × Node), (kvs.map Prod.fst).Nodup → noRepeatsInt kvs = true →
      (parseMapInt pre kvs).Nodup
  | [], _, _ => by
    rw [parseMapInt]
    exact List.nodup_nil
  | (key, val) :: rest, hk, hn => by
    rw [noRepeatsInt, Bool.and_eq_true] at hn
    rw [List.map_cons, List.nodup_cons] at hk
    rw [parseMapInt, List.nodup_append]
    refine ⟨parseVersions_nodup (makePrefix pre key) val hn.1,
      parseMapInt_nodup pre rest hk.2 hn.2, ?_⟩
    intro v h1 h2
    have p1 := parseVersions_extends _ val v h1
    obtain ⟨k, hkmem, p2⟩ := mem_parseMapInt_key pre rest v h2
    have hkk : key = k := key_eq_of_extends pre v.Components key k p1 p2
    exact hk.1 (hkk ▸ hkmem)
theorem parseMapAny_nodup (pre : List Int) :
    ∀ kvs : List (Scalar × Node), (kvs.filterMap (fun kv => toInt kv.1)).Nodup →
      noRepeatsAny kvs = true → (parseMapAny pre kvs).Nodup
  | [], _, _ => by
    rw [parseMapAny]
    exact List.nodup_nil
  | (key, val) :: rest, hk, hn => by
    rw [noRepeatsAny, Bool.and_eq_true] at hn
    rw [parseMapAny]
    cases hkey : toInt key with
    | none =>
      simp only [List.filterMap_cons, hkey] at hk
      exact parseMapAny_nodup pre rest hk hn.2
    | some keyInt =>
      simp only [List.filterMap_cons, hkey, List.nodup_cons] at hk
      simp only
      rw [List.nodup_append]
      refine ⟨parseVersions_nodup (makePrefix pre keyInt) val hn.1,
        parseMapAny_nodup pre rest hk.2 hn.2, ?_⟩
      intro v h1 h2
      have p1 := parseVersions_extends _ val v h1
      obtain ⟨k, hkmem, p2⟩ := mem_parseMapAny_key pre rest v h2
      have hkk : keyInt = k := key_eq_of_extends pre v.Components keyInt k p1 p2
      exact hk.1 (hkk ▸ hkmem)
end

/-! ## Facts about `ReplaceAll` -/

theorem replaceFrom_of_not_infix (old new s : List Char) (h : ¬ old <:+: s) :
    replaceFrom old new 0 s = s := by
  induction s with
  | nil => rfl
  | cons c cs ih =>
    have hp : old.isPrefixOf (c :: cs) = false := by
      cases hb : old.isPrefixOf (c :: cs) with
      | false => rfl
      | true => exact absurd (List.isPrefixOf_iff_prefix.mp hb).isInfix h
    have ht : ¬ old <:+: cs := fun hc => h (hc.trans (List.suffix_cons c cs).isInfix)
    rw [replaceFrom, if_neg (by simp [hp]), ih ht]

theorem replaceFrom_skip (old new xs post : List Char) :
    replaceFrom old new xs.length (xs ++ post) = replaceFrom old new 0 post := by
  induction xs with
  | nil => rfl
  | cons x xs ih =>
    rw [List.length_cons, List.cons_append, replaceFrom, ih]

/-- If the first occurrence of `old` in `pre ++ old ++ post` is the one after
`pre`, the scan copies `pre`, writes `new` and goes on after the occurrence. -/
theorem replaceFrom_first (old new pre post : List Char) (hne : old ≠ [])
    (h : ¬ old <:+: pre ++ old.dropLast) :
    replaceFrom old new 0 (pre ++ old ++ post) = pre ++ new ++ replaceFrom old new 0 post := by
  induction pre with
  | nil =>
    obtain ⟨c, cs, rfl⟩ := List.exists_cons_of_ne_nil hne
    have hp : (c :: cs).isPrefixOf (c :: (cs ++ post)) = true :=
      List.isPrefixOf_iff_prefix.mpr (List.prefix_append (c :: cs) post)
    rw [List.nil_append, List.nil_append, List.cons_append, replaceFrom, if_pos hp]
    have hl : (c :: cs).length - 1 = cs.length := by simp
    rw [hl, replaceFrom_skip]
  | cons p pre ih =>
    have hp : old.isPrefixOf (p :: pre ++ old ++ post) = false := by
      cases hb : old.isPrefixOf (p :: pre ++ old ++ post) with
      | false => rfl
      | true =>
        exfalso
        apply h
        have h1 : old <+: (p :: pre ++ old.dropLast) ++ (old.drop (old.length - 1) ++ post) := by
          have h0 := List.isPrefixOf_iff_prefix.mp hb
          have hsplit : old = old.dropLast ++ old.drop (old.length - 1) := by
            rw [List.dropLast_eq_take]
            exact (List.take_append_drop _ _).symm
          have he : p :: pre ++ old ++ post
              = (p :: pre ++ old.dropLast) ++ (old.drop (old.length - 1) ++ post) := by
            conv_lhs => rw [hsplit]
            simp
          rw [he] at h0
          exact h0
        have h2 : p :: pre ++ old.dropLast
            <+: (p :: pre ++ old.dropLast) ++ (old.drop (old.length - 1) ++ post) :=
          List.prefix_append _ _
        have hlen : old.length ≤ (p :: pre ++ old.dropLast).length := by
          simp
          omega
        exact (List.prefix_of_prefix_length_le h1 h2 hlen).isInfix
    have ht : ¬ old <:+: pre ++ old.dropLast :=
      fun hc => h (hc.trans (List.suffix_cons p _).isInfix)
    rw [List.cons_append, List.cons_append] at hp
    rw [List.cons_append, List.cons_append, replaceFrom,
      if_neg (by rw [hp]; exact Bool.false_ne_true), ih ht]
    simp

/-! ## Facts about selection and `Generate` -/

theorem weightedLoop_mem (bits : Nat) (n r : Int) (vs : List Version) (i cw : Int)
    (v : Version) (h : weightedLoop bits n r vs i cw = some v) : v ∈ vs := by
  induction vs generalizing i cw with
  | nil => simp [weightedLoop] at h
  | cons x xs ih =>
    simp only [weightedLoop] at h
    split at h
    · simp only [Option.some.injEq] at h
      subst h
      exact List.mem_cons_self _ _
    · exact List.mem_cons_of_mem _ (ih _ _ h)

theorem Intn_ok (r : Rand) (n : Nat) (hn : 0 < n) :
    r.Intn (n : Int) = .ok (r.src r.pos % n, { r with pos := r.pos + 1 }) ∧
      r.src r.pos % n < n := by
  unfold Rand.Intn
  rw [if_neg (by omega), Int.toNat_ofNat]
  exact ⟨rfl, Nat.mod_lt _ hn⟩

theorem Intn_panic (r : Rand) (n : Int) (hn : n ≤ 0) : r.Intn n = .error .panic := by
  unfold Rand.Intn
  rw [if_pos hn]

theorem triangular_pos (n : Nat) (hn : 0 < n) : 0 < (n * (n + 1)) / 2 := by
  have h : 2 ≤ n * (n + 1) := by nlinarith
  omega

/-- An exact result within the range of the `int` is not changed by wrapping. -/
theorem wrapInt_of_fits (bits : Nat) (hb : 1 ≤ bits) (x : Int)
    (h1 : -(2 ^ (bits - 1)) ≤ x) (h2 : x < 2 ^ (bits - 1)) : wrapInt bits x = x := by
  unfold wrapInt
  have hp : (2 : Int) ^ bits = 2 * 2 ^ (bits - 1) := by
    obtain ⟨k, rfl⟩ : ∃ k, bits = k + 1 := ⟨bits - 1, by omega⟩
    simp [pow_succ]
    ring
  rw [Int.emod_eq_of_lt (by omega) (by omega)]
  omega

theorem wrapInt_natCast (bits : Nat) (hb : 1 ≤ bits) (x : Nat) (h : x < 2 ^ (bits - 1)) :
    wrapInt bits (x : Int) = (x : Int) := by
  have h2 : (x : Int) < 2 ^ (bits - 1) := by exact_mod_cast h
  have h3 : (0 : Int) < 2 ^ (bits - 1) := by positivity
  exact wrapInt_of_fits bits hb _ (by omega) h2

/-- When `n * (n + 1)` is within the range of the `int`, the bound
`selectVersion` computes is the sum `1 + ... + n`. -/
theorem totalWeight_exact (bits n : Nat) (hn : 1 ≤ n) (hfit : n * (n + 1) < 2 ^ (bits - 1)) :
    totalWeight bits (n : Int) = (((n * (n + 1)) / 2 : Nat) : Int) := by
  have h2 : 2 ≤ n * (n + 1) := by nlinarith
  have hb : 1 ≤ bits := by
    rcases Nat.eq_zero_or_pos bits with h0 | h0
    · subst h0
      simp at hfit
      omega
    · exact h0
  have hle : n + 1 ≤ n * (n + 1) := by nlinarith
  unfold totalWeight
  have e1 : wrapInt bits ((n : Int) + 1) = ((n + 1 : Nat) : Int) := by
    rw [← wrapInt_natCast bits hb (n + 1) (by omega)]
    push_cast
    rfl
  rw [e1]
  have e2 : wrapInt bits ((n : Int) * ((n + 1 : Nat) : Int)) = ((n * (n + 1) : Nat) : Int) := by
    rw [← wrapInt_natCast bits hb (n * (n + 1)) hfit]
    push_cast
    rfl
  rw [e2]
  exact (Int.ofNat_tdiv _ _).symm

/-- On a non-empty candidate list `selectVersion` either panics or returns one of
the candidates, having consumed one draw. -/
theorem selectVersion_cases (bits : Nat) (rng : Rand) (versions : List Version)
    (weighted : Bool) (hne : versions ≠ []) :
    selectVersion bits rng versions weighted = .error .panic ∨
    ∃ v, selectVersion bits rng versions weighted = .ok (v, rng.next) ∧ v ∈ versions := by
  have hlen : 0 < versions.length := List.length_pos.mpr hne
  unfold selectVersion
  rw [if_neg (by omega)]
  split
  · right
    obtain ⟨he, hlt⟩ := Intn_ok rng versions.length hlen
    rw [he]
    simp only
    have hsome : versions[rng.src rng.pos % versions.length]?
        = some (versions[rng.src rng.pos % versions.length]) := List.getElem?_eq_getElem hlt
    rw [hsome]
    exact ⟨_, rfl, List.getElem_mem _⟩
  · simp only
    by_cases hpos : totalWeight bits (versions.length : Int) ≤ 0
    · left
      rw [Intn_panic rng _ hpos]
    · right
      unfold Rand.Intn
      rw [if_neg hpos]
      simp only
      cases hw : weightedLoop bits (versions.length : Int)
          ((rng.src rng.pos % (totalWeight bits (versions.length : Int)).toNat : Nat) : Int)
          versions 0 0 with
      | some v => exact ⟨v, rfl, weightedLoop_mem _ _ _ _ _ _ _ hw⟩
      | none =>
        have hsome : versions[0]? = some (versions[0]) := List.getElem?_eq_getElem hlen
        simp only [hsome]
        exact ⟨_, rfl, List.getElem_mem _⟩

/-- Unweighted selection involves no arithmetic: on a non-empty list it returns
the element at the drawn index, whatever the width of `int`. -/
theorem selectVersion_unweighted (bits : Nat) (rng : Rand) (versions : List Version)
    (hlen : 0 < versions.length) :
    ∃ hlt : rng.src rng.pos % versions.length < versions.length,
      selectVersion bits rng versions false
        = .ok (versions.get ⟨rng.src rng.pos % versions.length, hlt⟩, rng.next) := by
  have hlt : rng.src rng.pos % versions.length < versions.length := Nat.mod_lt _ hlen
  refine ⟨hlt, ?_⟩
  unfold selectVersion
  rw [if_neg (by omega), if_pos (by simp), (Intn_ok rng versions.length hlen).1]
  simp only
  rw [List.getElem?_eq_getElem hlt]
  rfl

theorem getGreaseBrand_ok (global : Rand) :
    ∃ b, getGreaseBrand global = .ok (b, { global with pos := global.pos + 1 }) ∧
      b ∈ greaseBrands := by
  have hlen : greaseBrands.length = 3 := rfl
  obtain ⟨he, hlt⟩ := Intn_ok global greaseBrands.length (by rw [hlen]; omega)
  unfold getGreaseBrand
  rw [he]
  simp only
  have hsome : greaseBrands[global.src global.pos % greaseBrands.length]?
      = some (greaseBrands[global.src global.pos % greaseBrands.length]) :=
    List.getElem?_eq_getElem hlt
  rw [hsome]
  exact ⟨_, rfl, List.getElem_mem _⟩

theorem formatSecCHUA_ok (global : Rand) (v : Version) :
    ∃ s, formatSecCHUA global v = .ok (s, { global with pos := global.pos + 1 }) := by
  obtain ⟨b, hb, _⟩ := getGreaseBrand_ok global
  unfold formatSecCHUA
  rw [hb]
  exact ⟨_, rfl⟩

theorem formatSecCHUAFullVersion_ok (global : Rand) (v : Version) :
    ∃ s, formatSecCHUAFullVersion global v = .ok (s, { global with pos := global.pos + 1 }) := by
  obtain ⟨b, hb, _⟩ := getGreaseBrand_ok global
  unfold formatSecCHUAFullVersion
  rw [hb]
  exact ⟨_, rfl⟩

/-- The function `generateHeaders` always returns a header map. -/
theorem generateHeaders_ok (global : Rand) (v : Version) (opts : generateOptions) :
    ∃ headers global1, generateHeaders global v opts = .ok (headers, global1) := by
  unfold generateHeaders
  cases h1 : opts.withSecCHUA <;> cases h2 : opts.withSecCHUAFullVersion
  · exact ⟨_, _, rfl⟩
  · obtain ⟨s, hs⟩ := formatSecCHUAFullVersion_ok global v
    simp only [Bool.false_eq_true, if_false, if_true, hs]
    exact ⟨_, _, rfl⟩
  · obtain ⟨s, hs⟩ := formatSecCHUA_ok global v
    simp only [Bool.false_eq_true, if_false, if_true, hs]
    exact ⟨_, _, rfl⟩
  · obtain ⟨s, hs⟩ := formatSecCHUA_ok global v
    obtain ⟨s2, hs2⟩ := formatSecCHUAFullVersion_ok { global with pos := global.pos + 1 } v
    simp only [if_true, hs, hs2]
    exact ⟨_, _, rfl⟩

/-- What `Generate` does once the (browser, os) entry is found: the no-match
error when no candidate is left; otherwise the panic of `selectVersion`, if it
panics, or a result built from one of the candidates. -/
theorem Generate_found (g : Generator) (global : Rand) (opts : List GenOption)
    (platforms : List (OSName × browserData)) (bd : browserData)
    (hb : g.store.data.lookup (applyOptions opts).browser = some platforms)
    (ho : platforms.lookup (applyOptions opts).os = some bd) :
    (filterVersions bd.versions (applyOptions opts) = [] ∧
      Generate g global opts = (.error .noMatch, g, global)) ∨
    (filterVersions bd.versions (applyOptions opts) ≠ [] ∧
      selectVersion intSize g.rng (filterVersions bd.versions (applyOptions opts))
        (applyOptions opts).withWeight = .error .panic ∧
      Generate g global opts = (.error .panic, g, global)) ∨
    (∃ v rng1 headers global1,
      v ∈ filterVersions bd.versions (applyOptions opts) ∧
      selectVersion intSize g.rng (filterVersions bd.versions (applyOptions opts))
        (applyOptions opts).withWeight = .ok (v, rng1) ∧
      generateHeaders global v (applyOptions opts) = .ok (headers, global1) ∧
      Generate g global opts =
        (.ok { UserAgent := ReplaceAll bd.uaTemplate versionMarker v.String
               Headers := headers.set "User-Agent".toList
                 (ReplaceAll bd.uaTemplate versionMarker v.String) },
         { g with rng := rng1 }, global1)) := by
  unfold Generate
  simp only [hb, ho]
  by_cases hc : filterVersions bd.versions (applyOptions opts) = []
  · left
    refine ⟨hc, ?_⟩
    rw [if_pos (by rw [hc]; rfl)]
  · right
    rw [if_neg (by intro hl; exact hc (List.length_eq_zero.mp hl))]
    rcases selectVersion_cases intSize g.rng _ (applyOptions opts).withWeight hc with
      hpanic | ⟨v, hsel, hmem⟩
    · left
      refine ⟨hc, hpanic, ?_⟩
      rw [hpanic]
    · right
      obtain ⟨headers, global1, hh⟩ := generateHeaders_ok global v (applyOptions opts)
      refine ⟨v, _, headers, global1, hmem, hsel, hh, ?_⟩
      rw [hsel]
      simp only
      rw [hh]

/-! ## Facts about header maps -/

theorem set_present (h : Headers) (k v : List Char)
    (hp : h.any (fun kv => kv.1 == k) = true) :
    h.set k v = h.map (fun kv => if kv.1 == k then (k, v) else kv) := by
  unfold Headers.set
  rw [if_pos hp]

theorem set_absent (h : Headers) (k v : List Char)
    (hp : h.any (fun kv => kv.1 == k) = false) :
    h.set k v = h ++ [(k, v)] := by
  unfold Headers.set
  rw [if_neg (by rw [hp]; exact Bool.false_ne_true)]

theorem any_key_iff (h : Headers) (k : List Char) :
    h.any (fun kv => kv.1 == k) = true ↔ k ∈ h.keys := by
  unfold Headers.keys
  simp only [List.any_eq_true, beq_iff_eq, List.mem_map]

theorem keys_map_set (h : Headers) (k v : List Char) :
    (h.map (fun kv => if kv.1 == k then (k, v) else kv)).map Prod.fst = h.map Prod.fst := by
  induction h with
  | nil => rfl
  | cons kv rest ih =>
    rw [List.map_cons, List.map_cons, List.map_cons, ih]
    by_cases hk : kv.1 = k
    · simp [hk]
    · simp [hk]

theorem keys_set (h : Headers) (k v : List Char) :
    (h.set k v).keys = if k ∈ h.keys then h.keys else h.keys ++ [k] := by
  by_cases hk : k ∈ h.keys
  · rw [if_pos hk, set_present h k v ((any_key_iff h k).mpr hk)]
    exact keys_map_set h k v
  · have ha : h.any (fun kv => kv.1 == k) = false := by
      cases hb : h.any (fun kv => kv.1 == k) with
      | false => rfl
      | true => exact absurd ((any_key_iff h k).mp hb) hk
    rw [if_neg hk, set_absent h k v ha]
    simp [Headers.keys]

theorem mem_keys_set (h : Headers) (k v key : List Char) :
    key ∈ (h.set k v).keys ↔ key ∈ h.keys ∨ key = k := by
  rw [keys_set]
  split
  · constructor
    · exact Or.inl
    · rintro (hm | rfl)
      · exact hm
      · assumption
  · simp

theorem nodup_keys_set (h : Headers) (k v : List Char) (hn : h.keys.Nodup) :
    (h.set k v).keys.Nodup := by
  rw [keys_set]
  split
  · exact hn
  · rename_i hk
    rw [List.nodup_append]
    refine ⟨hn, List.nodup_singleton k, ?_⟩
    intro x hx hx2
    rw [List.mem_singleton] at hx2
    exact hk (hx2 ▸ hx)

theorem mem_keys_setIf (flag : Bool) (k v : String) (h : Headers) (key : List Char) :
    key ∈ (setIf flag k v h).keys ↔ key ∈ h.keys ∨ (flag = true ∧ key = k.toList) := by
  unfold setIf
  cases flag
  · simp
  · simp [mem_keys_set]

theorem nodup_keys_setIf (flag : Bool) (k v : String) (h : Headers) (hn : h.keys.Nodup) :
    (setIf flag k v h).keys.Nodup := by
  unfold setIf
  cases flag
  · exact hn
  · exact nodup_keys_set h _ _ hn

theorem get?_eq_none_of_not_mem (h : Headers) (key : List Char) (hk : key ∉ h.keys) :
    h.get? key = none := by
  unfold Headers.get?
  rw [Option.map_eq_none', List.find?_eq_none]
  intro kv hkv hb
  exact hk (List.mem_map.mpr ⟨kv, hkv, by simpa using hb⟩)

theorem get?_isSome_iff (h : Headers) (key : List Char) :
    (h.get? key).isSome = true ↔ key ∈ h.keys := by
  unfold Headers.get?
  rw [Option.isSome_map', List.find?_isSome]
  unfold Headers.keys
  simp only [beq_iff_eq, List.mem_map]

theorem get?_map_set_self (h : Headers) (k v : List Char) (hk : k ∈ h.keys) :
    Headers.get? (h.map (fun kv => if kv.1 == k then (k, v) else kv)) k = some v := by
  induction h with
  | nil => simp [Headers.keys] at hk
  | cons kv rest ih =>
    by_cases hkv : kv.1 = k
    · simp [Headers.get?, hkv]
    · have hk2 : k ∈ Headers.keys rest := by
        simp only [Headers.keys, List.map_cons, List.mem_cons] at hk
        rcases hk with rfl | hk
        · exact absurd rfl hkv
        · exact hk
      have hi := ih hk2
      simp only [Headers.get?, List.map_cons] at hi ⊢
      rw [if_neg (by simpa using hkv), List.find?_cons_of_neg _ (by simpa using hkv)]
      exact hi

theorem get?_set_self (h : Headers) (k v : List Char) : (h.set k v).get? k = some v := by
  by_cases hk : k ∈ h.keys
  · rw [set_present h k v ((any_key_iff h k).mpr hk)]
    exact get?_map_set_self h k v hk
  · have ha : h.any (fun kv => kv.1 == k) = false := by
      cases hb : h.any (fun kv => kv.1 == k) with
      | false => rfl
      | true => exact absurd ((any_key_iff h k).mp hb) hk
    rw [set_absent h k v ha]
    have hnone : h.find? (fun kv => kv.1 == k) = none := by
      rw [List.find?_eq_none]
      intro kv hkv hb
      exact hk (List.mem_map.mpr ⟨kv, hkv, by simpa using hb⟩)
    simp [Headers.get?, List.find?_append, hnone]

theorem get?_set_ne (h : Headers) (k v key : List Char) (hne : key ≠ k) :
    (h.set k v).get? key = h.get? key := by
  by_cases hk : k ∈ h.keys
  · rw [set_present h k v ((any_key_iff h k).mpr hk)]
    clear hk
    induction h with
    | nil => rfl
    | cons kv rest ih =>
      simp only [Headers.get?, List.map_cons] at ih ⊢
      by_cases hkv : kv.1 = k
      · have hkey : ¬ kv.1 = key := fun hc => hne (hc.symm.trans hkv)
        rw [if_pos (by simpa using hkv), List.find?_cons_of_neg _ (by simpa using Ne.symm hne),
          List.find?_cons_of_neg _ (by simpa using hkey)]
        exact ih
      · rw [if_neg (by simpa using hkv)]
        by_cases hkey : kv.1 = key
        · rw [List.find?_cons_of_pos _ (by simpa using hkey),
            List.find?_cons_of_pos _ (by simpa using hkey)]
        · rw [List.find?_cons_of_neg _ (by simpa using hkey),
            List.find?_cons_of_neg _ (by simpa using hkey)]
          exact ih
  · have ha : h.any (fun kv => kv.1 == k) = false := by
      cases hb : h.any (fun kv => kv.1 == k) with
      | false => rfl
      | true => exact absurd ((any_key_iff h k).mp hb) hk
    rw [set_absent h k v ha]
    simp only [Headers.get?, List.find?_append]
    cases hf : List.find? (fun kv => kv.1 == key) h with
    | some kv => simp
    | none => simp [Ne.symm hne]

theorem get?_setIf_ne (flag : Bool) (k v : String) (h : Headers) (key : List Char)
    (hne : key ≠ k.toList) : (setIf flag k v h).get? key = h.get? key := by
  unfold setIf
  cases flag
  · rfl
  · exact get?_set_ne h _ _ key hne

theorem drawnBrand_mem (global : Rand) : drawnBrand global ∈ greaseBrands := by
  unfold drawnBrand
  have hlt : global.src global.pos % 3 < 3 := Nat.mod_lt _ (by omega)
  generalize global.src global.pos % 3 = r at hlt
  interval_cases r <;> decide

theorem getGreaseBrand_eq (global : Rand) :
    getGreaseBrand global = .ok (drawnBrand global, global.next) := by
  have hlen : greaseBrands.length = 3 := rfl
  have hlt : global.src global.pos % 3 < greaseBrands.length := by
    rw [hlen]
    exact Nat.mod_lt _ (by omega)
  unfold getGreaseBrand
  rw [(Intn_ok global greaseBrands.length (by rw [hlen]; omega)).1, hlen]
  simp only
  rw [List.getElem?_eq_getElem hlt]
  simp only
  unfold drawnBrand Rand.next
  rw [List.getD_eq_getElem _ _ hlt]

theorem formatSecCHUA_eq (global : Rand) (v : Version) :
    formatSecCHUA global v
      = .ok (secCHUAValue (drawnBrand global) (formatInt (majorOf v)), global.next) := by
  unfold formatSecCHUA
  rw [getGreaseBrand_eq]
  have hm : (if v.Components.length > 0 then v.Components.getD 0 0 else 0) = majorOf v := by
    unfold majorOf
    cases v.Components <;> simp
  simp only [hm]
  rfl

theorem formatSecCHUAFullVersion_eq (global : Rand) (v : Version) :
    formatSecCHUAFullVersion global v
      = .ok (fullVersionValue (drawnBrand global) v.String, global.next) := by
  unfold formatSecCHUAFullVersion
  rw [getGreaseBrand_eq]
  rfl

/-- The function `generateHeaders` always succeeds, with the map `hintHeaders`
for the brands that the package-level source delivers. -/
theorem generateHeaders_eq (global : Rand) (v : Version) (opts : generateOptions) :
    generateHeaders global v opts = .ok
      (hintHeaders (drawnBrand global) (drawnBrand (afterSecCHUA global opts)) v opts,
       afterHeaders global opts) := by
  unfold generateHeaders hintHeaders afterHeaders afterSecCHUA
  cases h1 : opts.withSecCHUA <;> cases h2 : opts.withSecCHUAFullVersion <;>
    simp only [formatSecCHUA_eq, formatSecCHUAFullVersion_eq, Bool.false_eq_true, if_false,
      if_true]

theorem hintHeaders_keys_nodup (g1 g2 : List Char) (v : Version) (opts : generateOptions) :
    (hintHeaders g1 g2 v opts).keys.Nodup := by
  unfold hintHeaders
  simp only
  refine nodup_keys_setIf _ _ _ _ (nodup_keys_setIf _ _ _ _ (nodup_keys_setIf _ _ _ _
    (nodup_keys_setIf _ _ _ _ (nodup_keys_setIf _ _ _ _ (nodup_keys_setIf _ _ _ _ ?_)))))
  have h0 : (Headers.keys (if opts.withSecCHUA = true then
      Headers.set [] "Sec-CH-UA".toList (secCHUAValue g1 (formatInt (majorOf v)))
      else [])).Nodup := by
    split
    · exact nodup_keys_set _ _ _ List.nodup_nil
    · exact List.nodup_nil
  have h2 := nodup_keys_setIf opts.withSecCHUAPlatform "Sec-CH-UA-Platform" "\"Windows\"" _
    (nodup_keys_setIf opts.withSecCHUAMobile "Sec-CH-UA-Mobile" "?0" _ h0)
  split
  · exact nodup_keys_set _ _ _ h2
  · exact h2

theorem mem_keys_ite_set (c : Prop) [Decidable c] (h : Headers) (k v key : List Char) :
    key ∈ Headers.keys (if c then h.set k v else h) ↔ key ∈ h.keys ∨ (c ∧ key = k) := by
  split
  · rw [mem_keys_set]
    tauto
  · tauto

theorem mem_keys_hintHeaders (g1 g2 : List Char) (v : Version) (opts : generateOptions)
    (key : List Char) :
    key ∈ (hintHeaders g1 g2 v opts).keys ↔ (key, true) ∈ hintFlags opts := by
  have h0 : key ∈ Headers.keys [] ↔ False := by simp [Headers.keys]
  have e : ∀ (f : Bool) (k : List Char), (key = k ∧ true = f) ↔ (f = true ∧ key = k) := by
    intro f k
    constructor
    · rintro ⟨a, b⟩
      exact ⟨b.symm, a⟩
    · rintro ⟨a, b⟩
      exact ⟨b, a.symm⟩
  unfold hintHeaders hintFlags
  simp only [mem_keys_setIf, mem_keys_ite_set, List.mem_cons, Prod.mk.injEq, List.mem_nil_iff,
    or_false, e, h0, false_or, or_assoc]

theorem get?_hintHeaders_secCHUA (g1 g2 : List Char) (v : Version) (opts : generateOptions)
    (h : opts.withSecCHUA = true) :
    (hintHeaders g1 g2 v opts).get? "Sec-CH-UA".toList
      = some (secCHUAValue g1 (formatInt (majorOf v))) := by
  unfold hintHeaders
  simp only [h, if_true]
  rw [get?_setIf_ne _ _ _ _ _ (by decide), get?_setIf_ne _ _ _ _ _ (by decide),
    get?_setIf_ne _ _ _ _ _ (by decide), get?_setIf_ne _ _ _ _ _ (by decide),
    get?_setIf_ne _ _ _ _ _ (by decide), get?_setIf_ne _ _ _ _ _ (by decide)]
  have hbase : Headers.get?
      (setIf opts.withSecCHUAPlatform "Sec-CH-UA-Platform" "\"Windows\""
        (setIf opts.withSecCHUAMobile "Sec-CH-UA-Mobile" "?0"
          (Headers.set [] "Sec-CH-UA".toList (secCHUAValue g1 (formatInt (majorOf v))))))
      "Sec-CH-UA".toList = some (secCHUAValue g1 (formatInt (majorOf v))) := by
    rw [get?_setIf_ne _ _ _ _ _ (by decide), get?_setIf_ne _ _ _ _ _ (by decide),
      get?_set_self]
  split
  · rw [get?_set_ne _ _ _ _ (by decide)]
    exact hbase
  · exact hbase

theorem get?_hintHeaders_fullVersion (g1 g2 : List Char) (v : Version) (opts : generateOptions)
    (h : opts.withSecCHUAFullVersion = true) :
    (hintHeaders g1 g2 v opts).get? "Sec-CH-UA-Full-Version-List".toList
      = some (fullVersionValue g2 v.String) := by
  unfold hintHeaders
  simp only [h, if_true]
  rw [get?_setIf_ne _ _ _ _ _ (by decide), get?_setIf_ne _ _ _ _ _ (by decide),
    get?_setIf_ne _ _ _ _ _ (by decide), get?_setIf_ne _ _ _ _ _ (by decide),
    get?_setIf_ne _ _ _ _ _ (by decide), get?_setIf_ne _ _ _ _ _ (by decide),
    get?_set_self]

theorem hintFlags_keys (opts : generateOptions) :
    (hintFlags opts).map Prod.fst = clientHintKeys := rfl

theorem clientHintKeys_nodup : clientHintKeys.Nodup := by decide

theorem eq_of_mem_of_nodup_fst {α β : Type} (l : List (α × β)) (k : α) (a b : β)
    (hn : (l.map Prod.fst).Nodup) (h1 : (k, a) ∈ l) (h2 : (k, b) ∈ l) : a = b := by
  induction l with
  | nil => simp at h1
  | cons x xs ih =>
    rw [List.map_cons, List.nodup_cons] at hn
    rcases List.mem_cons.mp h1 with e1 | m1 <;> rcases List.mem_cons.mp h2 with e2 | m2
    · have h := e1.trans e2.symm
      exact (Prod.mk.inj h).2
    · exact absurd (List.mem_map.mpr ⟨(k, b), m2, by rw [← e1]⟩) hn.1
    · exact absurd (List.mem_map.mpr ⟨(k, a), m1, by rw [← e2]⟩) hn.1
    · exact ih hn.2 m1 m2

theorem hintFlags_flag_iff (opts : generateOptions) (kf : List Char × Bool)
    (hkf : kf ∈ hintFlags opts) : (kf.1, true) ∈ hintFlags opts ↔ kf.2 = true := by
  have hn : ((hintFlags opts).map Prod.fst).Nodup := by
    rw [hintFlags_keys]
    exact clientHintKeys_nodup
  constructor
  · intro h
    exact (eq_of_mem_of_nodup_fst _ kf.1 true kf.2 hn h hkf).symm
  · intro h
    rw [← h]
    exact hkf

/-- Every header flag is set. -/
theorem allHints_iff (o : generateOptions) :
    (hintFlags o).map Prod.snd = List.replicate 10 true ↔
      o.withSecCHUA = true ∧ o.withSecCHUAMobile = true ∧ o.withSecCHUAPlatform = true ∧
      o.withSecCHUAFullVersion = true ∧ o.withSecCHUAPlatformVer = true ∧
      o.withSecCHUABitness = true ∧ o.withSecCHUAArch = true ∧ o.withSecCHUAModel = true ∧
      o.withSecCHUAWow64 = true ∧ o.withSecCHUAFormFactors = true := by
  simp [hintFlags, List.replicate]

theorem noHints_iff (o : generateOptions) :
    (hintFlags o).map Prod.snd = List.replicate 10 false ↔
      o.withSecCHUA = false ∧ o.withSecCHUAMobile = false ∧ o.withSecCHUAPlatform = false ∧
      o.withSecCHUAFullVersion = false ∧ o.withSecCHUAPlatformVer = false ∧
      o.withSecCHUABitness = false ∧ o.withSecCHUAArch = false ∧ o.withSecCHUAModel = false ∧
      o.withSecCHUAWow64 = false ∧ o.withSecCHUAFormFactors = false := by
  simp [hintFlags, List.replicate]

theorem toOption_keeps_allHints (p : PackageOption) (o : generateOptions)
    (h : (hintFlags o).map Prod.snd = List.replicate 10 true) :
    (hintFlags (p.toOption o)).map Prod.snd = List.replicate 10 true := by
  rw [allHints_iff] at h ⊢
  obtain ⟨h1, h2, h3, h4, h5, h6, h7, h8, h9, h10⟩ := h
  cases p <;>
    simp [PackageOption.toOption, WithBrowser, WithOS, WithMinVersion, WithMaxVersion,
      WithMinVersionStruct, WithMaxVersionStruct, WithWeightedSelection, WithClientHints,
      WithAllClientHints, h1, h2, h3, h4, h5, h6, h7, h8, h9, h10]

theorem toOption_keeps_noHints (p : PackageOption) (o : generateOptions)
    (hp1 : p ≠ .withClientHints) (hp2 : p ≠ .withAllClientHints)
    (h : (hintFlags o).map Prod.snd = List.replicate 10 false) :
    (hintFlags (p.toOption o)).map Prod.snd = List.replicate 10 false := by
  rw [noHints_iff] at h ⊢
  obtain ⟨h1, h2, h3, h4, h5, h6, h7, h8, h9, h10⟩ := h
  cases p <;>
    first
    | exact absurd rfl hp1
    | exact absurd rfl hp2
    | simp [PackageOption.toOption, WithBrowser, WithOS, WithMinVersion, WithMaxVersion,
        WithMinVersionStruct, WithMaxVersionStruct, WithWeightedSelection,
        h1, h2, h3, h4, h5, h6, h7, h8, h9, h10]

theorem foldl_keeps_allHints (ps : List PackageOption) (o : generateOptions)
    (h : (hintFlags o).map Prod.snd = List.replicate 10 true) :
    (hintFlags (ps.foldl (fun o p => p.toOption o) o)).map Prod.snd = List.replicate 10 true := by
  induction ps generalizing o with
  | nil => exact h
  | cons p ps ih => exact ih _ (toOption_keeps_allHints p o h)

theorem foldl_allHints_of_mem (ps : List PackageOption) (o : generateOptions)
    (h : PackageOption.withAllClientHints ∈ ps) :
    (hintFlags (ps.foldl (fun o p => p.toOption o) o)).map Prod.snd = List.replicate 10 true := by
  induction ps generalizing o with
  | nil => simp at h
  | cons p ps ih =>
    rw [List.foldl_cons]
    rcases List.mem_cons.mp h with e | m
    · subst e
      apply foldl_keeps_allHints
      rw [allHints_iff]
      simp [PackageOption.toOption, WithAllClientHints]
    · exact ih _ m

theorem foldl_noHints (ps : List PackageOption) (o : generateOptions)
    (hp1 : PackageOption.withClientHints ∉ ps) (hp2 : PackageOption.withAllClientHints ∉ ps)
    (h : (hintFlags o).map Prod.snd = List.replicate 10 false) :
    (hintFlags (ps.foldl (fun o p => p.toOption o) o)).map Prod.snd
      = List.replicate 10 false := by
  induction ps generalizing o with
  | nil => exact h
  | cons p ps ih =>
    rw [List.foldl_cons]
    refine ih _ (fun hc => hp1 (List.mem_cons_of_mem _ hc))
      (fun hc => hp2 (List.mem_cons_of_mem _ hc)) ?_
    exact toOption_keeps_noHints p o (fun hc => hp1 (hc ▸ List.mem_cons_self _ _))
      (fun hc => hp2 (hc ▸ List.mem_cons_self _ _)) h

theorem applyOptions_package (ps : List PackageOption) :
    applyOptions (ps.map PackageOption.toOption)
      = ps.foldl (fun o p => p.toOption o) defaultOptions := by
  unfold applyOptions
  rw [List.foldl_map]

/-- What a successful `Generate` returns, in terms of the selected version. -/
theorem Generate_ok_inv (g : Generator) (global : Rand) (opts : List GenOption)
    (res : Result) (g2 : Generator) (global2 : Rand)
    (h : Generate g global opts = (.ok res, g2, global2)) :
    ∃ platforms bd v rng1,
      g.store.data.lookup (applyOptions opts).browser = some platforms ∧
      platforms.lookup (applyOptions opts).os = some bd ∧
      v ∈ filterVersions bd.versions (applyOptions opts) ∧
      selectVersion intSize g.rng (filterVersions bd.versions (applyOptions opts))
        (applyOptions opts).withWeight = .ok (v, rng1) ∧
      res.UserAgent = ReplaceAll bd.uaTemplate versionMarker v.String ∧
      res.Headers = (hintHeaders (drawnBrand global)
          (drawnBrand (afterSecCHUA global (applyOptions opts))) v (applyOptions opts)).set
        "User-Agent".toList res.UserAgent ∧
      g2 = { g with rng := rng1 } ∧
      global2 = afterHeaders global (applyOptions opts) := by
  cases hb : g.store.data.lookup (applyOptions opts).browser with
  | none =>
    exfalso
    unfold Generate at h
    simp [hb] at h
  | some platforms =>
    cases ho : platforms.lookup (applyOptions opts).os with
    | none =>
      exfalso
      unfold Generate at h
      simp [hb, ho] at h
    | some bd =>
      rcases Generate_found g global opts platforms bd hb ho with
        ⟨_, he⟩ | ⟨_, _, he⟩ | ⟨v, rng1, hd, gl, hv, hsel, hh, he⟩
      · rw [he] at h
        simp at h
      · rw [he] at h
        simp at h
      · rw [he] at h
        rw [generateHeaders_eq] at hh
        simp only [Except.ok.injEq, Prod.mk.injEq] at hh
        obtain ⟨hhd, hgl⟩ := hh
        simp only [Prod.mk.injEq, Except.ok.injEq] at h
        obtain ⟨hres, hg, hglobal⟩ := h
        subst hres hg hglobal hhd hgl
        exact ⟨platforms, bd, v, rng1, rfl, ho, hv, hsel, rfl, rfl, rfl, rfl⟩

/-! ## Facts about `String` -/

theorem digitChar_ne_dot (d : Nat) (h : d < 10) : Nat.digitChar d ≠ '.' := by
  interval_cases d <;> decide

theorem toDigitsCore_no_dot (fuel n : Nat) (ds : List Char) (h : '.' ∉ ds) :
    '.' ∉ Nat.toDigitsCore 10 fuel n ds := by
  induction fuel generalizing n ds with
  | zero => exact h
  | succ fuel ih =>
    have hd : '.' ∉ Nat.digitChar (n % 10) :: ds := by
      intro hc
      rcases List.mem_cons.mp hc with e | m
      · exact digitChar_ne_dot (n % 10) (Nat.mod_lt _ (by omega)) e.symm
      · exact h m
    simp only [Nat.toDigitsCore]
    split
    · exact hd
    · exact ih _ _ hd

theorem toDigitsCore_ne_nil (fuel n : Nat) (ds : List Char) (h : 0 < fuel ∨ ds ≠ []) :
    Nat.toDigitsCore 10 fuel n ds ≠ [] := by
  induction fuel generalizing n ds with
  | zero =>
    rcases h with h | h
    · omega
    · exact h
  | succ fuel ih =>
    simp only [Nat.toDigitsCore]
    split
    · exact List.cons_ne_nil _ _
    · exact ih _ _ (Or.inr (List.cons_ne_nil _ _))

theorem formatInt_no_dot (c : Int) : '.' ∉ formatInt c := by
  cases c with
  | ofNat n => exact toDigitsCore_no_dot _ _ _ (List.not_mem_nil _)
  | negSucc n =>
    intro hc
    rcases List.mem_cons.mp hc with e | m
    · exact absurd e (by decide)
    · exact toDigitsCore_no_dot _ _ _ (List.not_mem_nil _) m

theorem formatInt_ne_nil (c : Int) : formatInt c ≠ [] := by
  cases c with
  | ofNat n => exact toDigitsCore_ne_nil _ _ _ (Or.inl (Nat.succ_pos _))
  | negSucc n => exact List.cons_ne_nil _ _

theorem Join_eq_intercalate (sep : List Char) (parts : List (List Char)) :
    Join sep parts = List.intercalate sep parts := by
  induction parts with
  | nil => rfl
  | cons p rest ih =>
    cases rest with
    | nil => simp [Join, List.intercalate]
    | cons q rest =>
      rw [Join, ih]
      simp [List.intercalate, List.intersperse]

theorem Join_dot_count (parts : List (List Char)) (h : ∀ p ∈ parts, '.' ∉ p) :
    (Join ['.'] parts).count '.' = parts.length - 1 := by
  induction parts with
  | nil => rfl
  | cons p rest ih =>
    have hp : p.count '.' = 0 := List.count_eq_zero.mpr (h p (List.mem_cons_self _ _))
    cases rest with
    | nil =>
      rw [Join, hp]
      rfl
    | cons q rest =>
      have hi := ih (fun x hx => h x (List.mem_cons_of_mem _ hx))
      rw [Join, List.count_append, List.count_append, hp, hi]
      simp
      omega

theorem Join_head (parts : List (List Char)) (p : List Char) (rest : List (List Char))
    (hparts : parts = p :: rest) (hp : p ≠ []) :
    (Join ['.'] parts).head? = p.head? := by
  subst hparts
  cases rest with
  | nil => rw [Join]
  | cons q rest =>
    rw [Join, List.append_assoc]
    cases p with
    | nil => exact absurd rfl hp
    | cons c cs => rfl

theorem Join_getLast (parts : List (List Char)) (h : ∀ p ∈ parts, p ≠ [])
    (hne : parts ≠ []) :
    ∃ p ∈ parts, (Join ['.'] parts).getLast? = p.getLast? := by
  induction parts with
  | nil => exact absurd rfl hne
  | cons p rest ih =>
    cases rest with
    | nil => exact ⟨p, List.mem_cons_self _ _, by rw [Join]⟩
    | cons q rest =>
      obtain ⟨x, hx, hlast⟩ := ih (fun y hy => h y (List.mem_cons_of_mem _ hy))
        (List.cons_ne_nil _ _)
      refine ⟨x, List.mem_cons_of_mem _ hx, ?_⟩
      have hx_ne : x ≠ [] := h x (List.mem_cons_of_mem _ hx)
      have hj : Join ['.'] (q :: rest) ≠ [] := by
        intro hc
        rw [hc] at hlast
        cases x with
        | nil => exact hx_ne rfl
        | cons c cs =>
          rw [List.getLast?_cons] at hlast
          exact Option.noConfusion hlast
      rw [Join, List.getLast?_append_of_ne_nil _ hj]
      exact hlast

/-! ## Facts about weighted selection -/

theorem weightBelow_succ (n i : Nat) : weightBelow n (i + 1) = weightBelow n i + (n - i) := by
  unfold weightBelow
  rw [List.range_succ, List.map_append, List.sum_append]
  simp

theorem weightBelow_mono (n a b : Nat) (h : a ≤ b) : weightBelow n a ≤ weightBelow n b := by
  induction b with
  | zero =>
    have ha : a = 0 := by omega
    rw [ha]
  | succ b ih =>
    rcases Nat.eq_or_lt_of_le h with e | hl
    · rw [e]
    · have h1 := ih (by omega)
      rw [weightBelow_succ]
      omega

theorem weightBelow_closed (n i : Nat) (h : i ≤ n) :
    2 * weightBelow n i + i * i = i * (2 * n + 1) := by
  induction i with
  | zero => simp [weightBelow]
  | succ i ih =>
    have h1 := ih (by omega)
    rw [weightBelow_succ]
    obtain ⟨d, hd⟩ : ∃ d, n = i + 1 + d := ⟨n - (i + 1), by omega⟩
    have hsub : n - i = d + 1 := by omega
    rw [hsub]
    subst hd
    nlinarith

theorem weightBelow_total (n : Nat) : weightBelow n n = (n * (n + 1)) / 2 := by
  have h := weightBelow_closed n n (Nat.le_refl n)
  have h2 : 2 * weightBelow n n = n * (n + 1) := by nlinarith
  omega

theorem weightedLoop_spec (bits n r : Nat) (hb : 1 ≤ bits)
    (hfit : weightBelow n n < 2 ^ (bits - 1)) (vs : List Version) (i j : Nat)
    (hin : i + vs.length ≤ n) (hj : j < vs.length)
    (hlt : r < weightBelow n (i + j + 1))
    (hge : ∀ k < j, weightBelow n (i + k + 1) ≤ r) :
    weightedLoop bits (n : Int) (r : Int) vs (i : Int) ((weightBelow n i : Nat) : Int)
      = some (vs.get ⟨j, hj⟩) := by
  induction vs generalizing i j with
  | nil => simp at hj
  | cons v rest ih =>
    have hlen : i + (rest.length + 1) ≤ n := by simpa using hin
    have hmono := weightBelow_mono n (i + 1) n (by omega)
    have hsucc := weightBelow_succ n i
    have e1 : wrapInt bits ((n : Int) - (i : Int)) = ((n - i : Nat) : Int) := by
      rw [← wrapInt_natCast bits hb (n - i) (by omega)]
      congr 1
      omega
    have e2 : wrapInt bits (((weightBelow n i : Nat) : Int) + ((n - i : Nat) : Int))
        = ((weightBelow n (i + 1) : Nat) : Int) := by
      rw [← wrapInt_natCast bits hb (weightBelow n (i + 1)) (by omega)]
      congr 1
      omega
    simp only [weightedLoop]
    rw [e1, e2]
    cases j with
    | zero =>
      rw [if_pos (by exact_mod_cast hlt)]
      rfl
    | succ j =>
      have h0 := hge 0 (Nat.succ_pos j)
      rw [if_neg (by
        intro hc
        have hc2 : r < weightBelow n (i + 1) := by exact_mod_cast hc
        have h02 : weightBelow n (i + 1) ≤ r := h0
        omega)]
      have hj2 : j < rest.length := by simpa using hj
      have hi := ih (i + 1) j (by omega) hj2
        (by rw [show i + 1 + j + 1 = i + (j + 1) + 1 by omega]; exact hlt)
        (fun k hk => by
          rw [show i + 1 + k + 1 = i + (k + 1) + 1 by omega]
          exact hge (k + 1) (by omega))
      rw [show ((i : Int) + 1) = ((i + 1 : Nat) : Int) by push_cast; rfl, hi]
      rfl

theorem exists_leastExceeding (n r : Nat) (hr : r < (n * (n + 1)) / 2) :
    ∃ i, i < n ∧ LeastExceeding n r i := by
  have hn : 0 < n := by
    rcases Nat.eq_zero_or_pos n with h | h
    · subst h
      simp at hr
    · exact h
  have hex : ∃ i, r < cumWeight n i := by
    refine ⟨n - 1, ?_⟩
    unfold cumWeight
    rw [show n - 1 + 1 = n by omega, weightBelow_total]
    exact hr
  refine ⟨Nat.find hex, ?_, Nat.find_spec hex, ?_⟩
  · have hle : Nat.find hex ≤ n - 1 := Nat.find_min' hex (by
      unfold cumWeight
      rw [show n - 1 + 1 = n by omega, weightBelow_total]
      exact hr)
    omega
  · intro j hj
    exact Nat.not_lt.mp (Nat.find_min hex hj)

theorem leastExceeding_unique (n r i j : Nat) (hi : LeastExceeding n r i)
    (hj : LeastExceeding n r j) : i = j := by
  rcases Nat.lt_trichotomy i j with h | h | h
  · have := hj.2 i h
    have := hi.1
    omega
  · exact h
  · have := hi.2 j h
    have := hj.1
    omega

theorem leastExceeding_iff (n r i : Nat) (hi : i < n) :
    (r < (n * (n + 1)) / 2 ∧ LeastExceeding n r i) ↔
      weightBelow n i ≤ r ∧ r < weightBelow n (i + 1) := by
  unfold LeastExceeding cumWeight
  constructor
  · rintro ⟨_, hlt, hge⟩
    refine ⟨?_, hlt⟩
    cases i with
    | zero => exact Nat.zero_le _
    | succ i => exact hge i (Nat.lt_succ_self i)
  · rintro ⟨hge, hlt⟩
    refine ⟨?_, hlt, ?_⟩
    · have hm := weightBelow_mono n (i + 1) n (by omega)
      rw [weightBelow_total] at hm
      omega
    · intro j hj
      have hm := weightBelow_mono n (j + 1) i (by omega)
      omega

theorem count_leastExceeding (n i : Nat) (hi : i < n) :
    ((Finset.range ((n * (n + 1)) / 2)).filter (fun r => LeastExceeding n r i)).card = n - i := by
  have hset : (Finset.range ((n * (n + 1)) / 2)).filter (fun r => LeastExceeding n r i)
      = Finset.Ico (weightBelow n i) (weightBelow n (i + 1)) := by
    ext r
    rw [Finset.mem_filter, Finset.mem_range, Finset.mem_Ico]
    exact leastExceeding_iff n r i hi
  rw [hset, Nat.card_Ico, weightBelow_succ]
  omega

/-- While the sum `1 + ... + n` is within the range of the `int`, the weighted
loop returns the candidate at the least index whose cumulative weight exceeds
the draw. -/
theorem weightedLoop_least (bits : Nat) (versions : List Version) (r : Nat)
    (hfit : (versions.length * (versions.length + 1)) / 2 < 2 ^ (bits - 1))
    (hr : r < (versions.length * (versions.length + 1)) / 2) :
    ∃ i, ∃ hi : i < versions.length, LeastExceeding versions.length r i ∧
      weightedLoop bits (versions.length : Int) (r : Int) versions 0 0
        = some (versions.get ⟨i, hi⟩) := by
  have hb : 1 ≤ bits := by
    rcases Nat.eq_zero_or_pos bits with h0 | h0
    · subst h0
      simp at hfit
      omega
    · exact h0
  obtain ⟨i, hi, hleast⟩ := exists_leastExceeding versions.length r hr
  refine ⟨i, hi, hleast, ?_⟩
  have h := weightedLoop_spec bits versions.length r hb
    (by rw [weightBelow_total]; exact hfit) versions 0 i (by omega) hi
    (by rw [Nat.zero_add]; exact hleast.1)
    (fun k hk => by rw [Nat.zero_add]; exact hleast.2 k hk)
  have hz : weightBelow versions.length 0 = 0 := by simp [weightBelow]
  rw [hz] at h
  exact h

/-- While `n * (n + 1)` is within the range of the `int`, weighted selection
returns the candidate at the least index whose cumulative weight exceeds the
draw `src pos % (n(n+1)/2)`. -/
theorem selectVersion_weighted (bits : Nat) (rng : Rand) (versions : List Version)
    (hlen : 0 < versions.length)
    (hfit : versions.length * (versions.length + 1) < 2 ^ (bits - 1)) :
    ∃ i, ∃ hi : i < versions.length,
      LeastExceeding versions.length
        (rng.src rng.pos % ((versions.length * (versions.length + 1)) / 2)) i ∧
      selectVersion bits rng versions true = .ok (versions.get ⟨i, hi⟩, rng.next) := by
  unfold selectVersion
  rw [if_neg (by omega)]
  by_cases h1 : versions.length = 1
  · rw [if_pos (by simp [h1])]
    obtain ⟨he, hlt⟩ := Intn_ok rng versions.length hlen
    rw [he]
    simp only
    have hzero : rng.src rng.pos % versions.length = 0 := by
      rw [h1]
      exact Nat.mod_one _
    have hsome : versions[rng.src rng.pos % versions.length]?
        = some (versions.get ⟨0, hlen⟩) := by
      rw [hzero]
      exact List.getElem?_eq_getElem hlen
    rw [hsome]
    refine ⟨0, hlen, ?_, rfl⟩
    rw [h1]
    have hdraw : rng.src rng.pos % ((1 * (1 + 1)) / 2) = 0 := Nat.mod_one _
    rw [hdraw]
    exact ⟨by decide, fun j hj => absurd hj (Nat.not_lt_zero j)⟩
  · rw [if_neg (by simp [h1])]
    simp only
    have htot : 0 < (versions.length * (versions.length + 1)) / 2 := triangular_pos _ hlen
    rw [totalWeight_exact bits versions.length hlen hfit]
    obtain ⟨he, hlt⟩ := Intn_ok rng _ htot
    rw [he]
    simp only
    obtain ⟨i, hi, hleast, hloop⟩ := weightedLoop_least bits versions _
      (by omega) hlt
    rw [hloop]
    exact ⟨i, hi, hleast, rfl⟩

/-- While `n * (n + 1)` is within the range of the `int` (or the selection is
unweighted), `selectVersion` returns one of the candidates of a non-empty list,
having consumed one draw. -/
theorem selectVersion_ok (bits : Nat) (rng : Rand) (versions : List Version) (weighted : Bool)
    (hlen : 0 < versions.length)
    (hfit : weighted = true → versions.length * (versions.length + 1) < 2 ^ (bits - 1)) :
    ∃ v, selectVersion bits rng versions weighted = .ok (v, rng.next) ∧ v ∈ versions := by
  cases weighted with
  | false =>
    obtain ⟨hlt, h⟩ := selectVersion_unweighted bits rng versions hlen
    exact ⟨_, h, List.get_mem _ _ _⟩
  | true =>
    obtain ⟨i, hi, _, h⟩ := selectVersion_weighted bits rng versions hlen (hfit rfl)
    exact ⟨_, h, List.get_mem _ _ _⟩

/-- When the bound `selectVersion` computes is not positive, weighted selection
among two or more candidates panics in `Intn`. -/
theorem selectVersion_panic (bits : Nat) (rng : Rand) (versions : List Version)
    (hlen : 2 ≤ versions.length) (hneg : totalWeight bits (versions.length : Int) ≤ 0) :
    selectVersion bits rng versions true = .error .panic := by
  unfold selectVersion
  rw [if_neg (by omega), if_neg (by simp; omega)]
  simp only
  rw [Intn_panic rng _ hneg]

/-- When the bound `selectVersion` computes is positive and at most `n`, every
draw is below the weight `n` of index 0, and weighted selection returns the
first candidate. -/
theorem selectVersion_first (bits : Nat) (rng : Rand) (v : Version) (rest : List Version)
    (hlen : 1 ≤ rest.length)
    (hpos : 0 < totalWeight bits ((v :: rest).length : Int))
    (hle : totalWeight bits ((v :: rest).length : Int)
      ≤ wrapInt bits (0 + wrapInt bits (((v :: rest).length : Int) - 0))) :
    selectVersion bits rng (v :: rest) true = .ok (v, rng.next) := by
  have hne1 : ¬ ((!true || decide ((v :: rest).length = 1)) = true) := by
    have h2 : (v :: rest).length ≠ 1 := by
      rw [List.length_cons]
      omega
    rw [Bool.not_true, Bool.false_or, decide_eq_true_eq]
    exact h2
  unfold selectVersion
  rw [if_neg (by simp), if_neg hne1]
  simp only
  unfold Rand.Intn
  rw [if_neg (not_le.mpr hpos)]
  simp only [weightedLoop]
  have hlt : ((rng.src rng.pos % (totalWeight bits ((v :: rest).length : Int)).toNat : Nat) : Int)
      < totalWeight bits ((v :: rest).length : Int) := by
    have h1 : rng.src rng.pos % (totalWeight bits ((v :: rest).length : Int)).toNat
        < (totalWeight bits ((v :: rest).length : Int)).toNat :=
      Nat.mod_lt _ (by omega)
    omega
  rw [if_pos (by omega)]
  rfl

theorem hintHeaders_without_brands (a b a2 b2 : List Char) (v : Version)
    (opts : generateOptions) (h1 : opts.withSecCHUA = false)
    (h2 : opts.withSecCHUAFullVersion = false) :
    hintHeaders a b v opts = hintHeaders a2 b2 v opts := by
  unfold hintHeaders
  simp only [h1, h2, Bool.false_eq_true, if_false]

/-- The user agent and the state of the generator after the call depend on the
generator and the options only, not on the package-level source. -/
theorem Generate_userAgent_indep (g : Generator) (global global2 : Rand)
    (opts : List GenOption) :
    (Generate g global opts).1.map (fun res => res.UserAgent)
      = (Generate g global2 opts).1.map (fun res => res.UserAgent) ∧
    (Generate g global opts).2.1.rng.pos = (Generate g global2 opts).2.1.rng.pos := by
  cases hb : g.store.data.lookup (applyOptions opts).browser with
  | none =>
    unfold Generate
    simp [hb]
  | some platforms =>
    cases ho : platforms.lookup (applyOptions opts).os with
    | none =>
      unfold Generate
      simp [hb, ho]
    | some bd =>
      rcases Generate_found g global opts platforms bd hb ho with
        ⟨hnil, he⟩ | ⟨hne, hpanic, he⟩ | ⟨v, rng1, hd, gl, hv, hsel, _, he⟩
      · rcases Generate_found g global2 opts platforms bd hb ho with
          ⟨_, he2⟩ | ⟨hne2, _, _⟩ | ⟨v2, _, _, _, hv2, _, _, _⟩
        · rw [he, he2]
          exact ⟨rfl, rfl⟩
        · exact absurd hnil hne2
        · rw [hnil] at hv2
          simp at hv2
      · rcases Generate_found g global2 opts platforms bd hb ho with
          ⟨hnil, _⟩ | ⟨_, _, he2⟩ | ⟨v2, _, _, _, _, hsel2, _, _⟩
        · exact absurd hnil hne
        · rw [he, he2]
          exact ⟨rfl, rfl⟩
        · rw [hpanic] at hsel2
          simp at hsel2
      · rcases Generate_found g global2 opts platforms bd hb ho with
          ⟨hnil, _⟩ | ⟨_, hpanic2, _⟩ | ⟨v2, rng2, hd2, gl2, _, hsel2, _, he2⟩
        · rw [hnil] at hv
          simp at hv
        · rw [hsel] at hpanic2
          simp at hpanic2
        · rw [hsel] at hsel2
          simp only [Except.ok.injEq, Prod.mk.injEq] at hsel2
          obtain ⟨hv, hr⟩ := hsel2
          subst hv hr
          rw [he, he2]
          exact ⟨rfl, rfl⟩

/-- Without the two brand-list flags the whole result is independent of the
package-level source. -/
theorem Generate_result_indep (g : Generator) (global global2 : Rand) (opts : List GenOption)
    (h1 : (applyOptions opts).withSecCHUA = false)
    (h2 : (applyOptions opts).withSecCHUAFullVersion = false) :
    (Generate g global opts).1 = (Generate g global2 opts).1 := by
  cases hb : g.store.data.lookup (applyOptions opts).browser with
  | none =>
    unfold Generate
    simp only [hb]
  | some platforms =>
    cases ho : platforms.lookup (applyOptions opts).os with
    | none =>
      unfold Generate
      simp only [hb, ho]
    | some bd =>
      rcases Generate_found g global opts platforms bd hb ho with
        ⟨hnil, he⟩ | ⟨hne, hpanic, he⟩ | ⟨v, rng1, hd, gl, hv, hsel, hh, he⟩
      · rcases Generate_found g global2 opts platforms bd hb ho with
          ⟨_, he2⟩ | ⟨hne2, _, _⟩ | ⟨v2, _, _, _, hv2, _, _, _⟩
        · rw [he, he2]
        · exact absurd hnil hne2
        · rw [hnil] at hv2
          simp at hv2
      · rcases Generate_found g global2 opts platforms bd hb ho with
          ⟨hnil, _⟩ | ⟨_, _, he2⟩ | ⟨v2, _, _, _, _, hsel2, _, _⟩
        · exact absurd hnil hne
        · rw [he, he2]
        · rw [hpanic] at hsel2
          simp at hsel2
      · rcases Generate_found g global2 opts platforms bd hb ho with
          ⟨hnil, _⟩ | ⟨_, hpanic2, _⟩ | ⟨v2, rng2, hd2, gl2, _, hsel2, hh2, he2⟩
        · rw [hnil] at hv
          simp at hv
        · rw [hsel] at hpanic2
          simp at hpanic2
        · rw [hsel] at hsel2
          simp only [Except.ok.injEq, Prod.mk.injEq] at hsel2
          obtain ⟨hv, hr⟩ := hsel2
          subst hv hr
          rw [generateHeaders_eq] at hh hh2
          simp only [Except.ok.injEq, Prod.mk.injEq] at hh hh2
          rw [he, he2, ← hh.1, ← hh2.1,
            hintHeaders_without_brands _ _ (drawnBrand global2)
              (drawnBrand (afterSecCHUA global2 (applyOptions opts))) v _ h1 h2]

/-! ## Facts about the round trip through `String` and `parseVersionString` -/

theorem digitChar_toNat (d : Nat) (h : d < 10) :
    48 ≤ (Nat.digitChar d).toNat ∧ (Nat.digitChar d).toNat ≤ 57 ∧
      (Nat.digitChar d).toNat - 48 = d := by
  interval_cases d <;> decide

theorem toDigitsCore_append (fuel n : Nat) (ds : List Char) :
    Nat.toDigitsCore 10 fuel n ds = Nat.toDigitsCore 10 fuel n [] ++ ds := by
  induction fuel generalizing n ds with
  | zero => rfl
  | succ fuel ih =>
    simp only [Nat.toDigitsCore]
    split
    · rfl
    · rw [ih (n / 10) (Nat.digitChar (n % 10) :: ds), ih (n / 10) [Nat.digitChar (n % 10)]]
      simp

theorem parseDigits_append (xs ys : List Char) (acc : Nat) :
    parseDigits (xs ++ ys) acc = (parseDigits xs acc).bind (fun a => parseDigits ys a) := by
  induction xs generalizing acc with
  | nil => rfl
  | cons x xs ih =>
    simp only [List.cons_append, parseDigits]
    split
    · exact ih _
    · rfl

theorem parseDigits_digitChar (d acc : Nat) (h : d < 10) :
    parseDigits [Nat.digitChar d] acc = some (acc * 10 + d) := by
  obtain ⟨h1, h2, h3⟩ := digitChar_toNat d h
  simp only [parseDigits]
  rw [if_pos ⟨h1, h2⟩, h3]

theorem parseDigits_toDigitsCore (fuel n : Nat) (h : n < fuel) :
    parseDigits (Nat.toDigitsCore 10 fuel n []) 0 = some n := by
  induction fuel generalizing n with
  | zero => omega
  | succ fuel ih =>
    simp only [Nat.toDigitsCore]
    split
    · rename_i hz
      rw [parseDigits_digitChar _ _ (Nat.mod_lt _ (by omega))]
      have hn : n % 10 = n := Nat.mod_eq_of_lt (by omega)
      rw [hn]
      simp
    · rename_i hz
      have hlt : n / 10 < fuel := by omega
      rw [toDigitsCore_append, parseDigits_append, ih (n / 10) hlt]
      simp only [Option.some_bind]
      rw [parseDigits_digitChar _ _ (Nat.mod_lt _ (by omega))]
      congr 1
      omega

theorem parseDigits_formatNat (n : Nat) : parseDigits (formatNat n) 0 = some n :=
  parseDigits_toDigitsCore (n + 1) n (Nat.lt_succ_self n)

theorem toDigitsCore_digits (fuel n : Nat) (ds : List Char)
    (h : ∀ c ∈ ds, 48 ≤ c.toNat ∧ c.toNat ≤ 57) :
    ∀ c ∈ Nat.toDigitsCore 10 fuel n ds, 48 ≤ c.toNat ∧ c.toNat ≤ 57 := by
  induction fuel generalizing n ds with
  | zero => exact h
  | succ fuel ih =>
    have hd : ∀ c ∈ Nat.digitChar (n % 10) :: ds, 48 ≤ c.toNat ∧ c.toNat ≤ 57 := by
      intro c hc
      rcases List.mem_cons.mp hc with e | m
      · rw [e]
        obtain ⟨h1, h2, _⟩ := digitChar_toNat (n % 10) (Nat.mod_lt _ (by omega))
        exact ⟨h1, h2⟩
      · exact h c m
    simp only [Nat.toDigitsCore]
    split
    · exact hd
    · exact ih _ _ hd

theorem formatNat_cons (n : Nat) :
    ∃ c rest, formatNat n = c :: rest ∧ c ≠ '-' ∧ c ≠ '+' := by
  have hne : formatNat n ≠ [] := toDigitsCore_ne_nil _ _ _ (Or.inl (Nat.succ_pos _))
  obtain ⟨c, rest, hc⟩ := List.exists_cons_of_ne_nil hne
  have hdig := toDigitsCore_digits (n + 1) n [] (fun c hc => absurd hc (List.not_mem_nil c)) c
    (by
      have hm : c ∈ formatNat n := by rw [hc]; exact List.mem_cons_self _ _
      exact hm)
  refine ⟨c, rest, hc, ?_, ?_⟩
  · intro he
    rw [he] at hdig
    revert hdig
    decide
  · intro he
    rw [he] at hdig
    revert hdig
    decide

/-- `Atoi` reads back what `%d` prints, for every value of a 64-bit `int`. -/
theorem Atoi_formatInt (c : Int) (hlo : -((2 : Int) ^ 63) ≤ c) (hhi : c < (2 : Int) ^ 63) :
    Atoi (formatInt c) = some c := by
  cases c with
  | ofNat n =>
    obtain ⟨ch, rest, hf, h1, h2⟩ := formatNat_cons n
    have hp := parseDigits_formatNat n
    simp only [formatInt]
    rw [hf] at hp ⊢
    simp only [Atoi]
    rw [if_neg (not_or.mpr ⟨h1, h2⟩), if_neg (by simp)]
    rw [hp]
    simp only [h1, if_false]
    rw [if_pos ⟨by simpa using hlo, by simpa using hhi⟩]
    rfl
  | negSucc n =>
    obtain ⟨ch, rest, hf, _, _⟩ := formatNat_cons (n + 1)
    have hp := parseDigits_formatNat (n + 1)
    have hv : -((n + 1 : Nat) : Int) = Int.negSucc n := by
      rw [Int.negSucc_eq]
      push_cast
      ring
    simp only [formatInt, Atoi, true_or, if_true]
    rw [if_neg (by rw [hf]; simp), hp]
    simp only
    rw [hv, if_pos ⟨hlo, hhi⟩]

theorem splitDots_no_dot (p : List Char) (h : '.' ∉ p) : splitDots p = [p] := by
  induction p with
  | nil => rfl
  | cons c cs ih =>
    have hc : c ≠ '.' := fun e => h (e ▸ List.mem_cons_self _ _)
    have hcs : '.' ∉ cs := fun m => h (List.mem_cons_of_mem _ m)
    simp only [splitDots]
    rw [if_neg hc, ih hcs]

theorem splitDots_append_dot (p s : List Char) (h : '.' ∉ p) :
    splitDots (p ++ '.' :: s) = p :: splitDots s := by
  induction p with
  | nil => simp [splitDots]
  | cons c cs ih =>
    have hc : c ≠ '.' := fun e => h (e ▸ List.mem_cons_self _ _)
    have hcs : '.' ∉ cs := fun m => h (List.mem_cons_of_mem _ m)
    rw [List.cons_append, splitDots, if_neg hc, ih hcs]

theorem splitDots_Join (parts : List (List Char)) (hne : parts ≠ [])
    (h : ∀ p ∈ parts, '.' ∉ p) : splitDots (Join ['.'] parts) = parts := by
  induction parts with
  | nil => exact absurd rfl hne
  | cons p rest ih =>
    have hp : '.' ∉ p := h p (List.mem_cons_self _ _)
    cases rest with
    | nil =>
      rw [Join]
      exact splitDots_no_dot p hp
    | cons q rest =>
      rw [Join, List.append_assoc, List.singleton_append, splitDots_append_dot p _ hp,
        ih (List.cons_ne_nil _ _) (fun x hx => h x (List.mem_cons_of_mem _ hx))]

theorem parseParts_formatInt (cs : List Int)
    (h : ∀ c ∈ cs, -((2 : Int) ^ 63) ≤ c ∧ c < (2 : Int) ^ 63) :
    parseParts (cs.map formatInt) = cs := by
  induction cs with
  | nil => rfl
  | cons c cs ih =>
    obtain ⟨hlo, hhi⟩ := h c (List.mem_cons_self _ _)
    rw [List.map_cons, parseParts, Atoi_formatInt c hlo hhi]
    simp only
    rw [ih (fun x hx => h x (List.mem_cons_of_mem _ hx))]

/-- Parsing the printed form of a version gives the version back, when its
components are values of a 64-bit `int`. -/
theorem parseVersionString_String (v : Version)
    (h : ∀ c ∈ v.Components, -((2 : Int) ^ 63) ≤ c ∧ c < (2 : Int) ^ 63) :
    parseVersionString v.String = v := by
  obtain ⟨cs⟩ := v
  unfold parseVersionString Version.String
  simp only
  cases cs with
  | nil => rfl
  | cons c cs =>
    have hsplit : splitDots (Join ".".toList ((c :: cs).map formatInt))
        = (c :: cs).map formatInt :=
      splitDots_Join _ (by simp) (fun p hp => by
        obtain ⟨x, _, rfl⟩ := List.mem_map.mp hp
        exact formatInt_no_dot x)
    rw [hsplit, parseParts_formatInt _ h]

/-! ## Facts about the update tool -/

theorem lookup_cons_eq (key : Int) (val : Node) (rest : List (Int × Node)) :
    List.lookup key ((key, val) :: rest) = some val := by
  simp [List.lookup]

theorem lookup_cons_ne (k key : Int) (val : Node) (rest : List (Int × Node)) (h : k ≠ key) :
    List.lookup key ((k, val) :: rest) = List.lookup key rest := by
  have hb : (key == k) = false := by simpa using Ne.symm h
  simp [List.lookup, hb]

theorem lookup_mapSet_self (m : List (Int × Node)) (key : Int) (val : Node) :
    (mapSet m key val).lookup key = some val := by
  induction m with
  | nil => exact lookup_cons_eq key val []
  | cons kv rest ih =>
    obtain ⟨k, old⟩ := kv
    unfold mapSet
    by_cases hk : k = key
    · rw [if_pos hk]
      exact lookup_cons_eq key val rest
    · rw [if_neg hk, lookup_cons_ne k key old _ hk]
      exact ih

theorem mapSet_mapSet (m : List (Int × Node)) (key : Int) (x y : Node) :
    mapSet (mapSet m key x) key y = mapSet m key y := by
  induction m with
  | nil => simp [mapSet]
  | cons kv rest ih =>
    obtain ⟨k, old⟩ := kv
    by_cases hk : k = key
    · simp [mapSet, hk]
    · simp [mapSet, hk, ih]

theorem lookup_some_mem (m : List (Int × Node)) (key : Int) (val : Node)
    (h : m.lookup key = some val) : (key, val) ∈ m := by
  induction m with
  | nil => simp [List.lookup] at h
  | cons kv rest ih =>
    obtain ⟨k, old⟩ := kv
    by_cases hk : k = key
    · subst hk
      rw [lookup_cons_eq] at h
      simp only [Option.some.injEq] at h
      subst h
      exact List.mem_cons_self _ _
    · rw [lookup_cons_ne k key old _ hk] at h
      exact List.mem_cons_of_mem _ (ih h)

theorem lookup_none_not_mem (m : List (Int × Node)) (key : Int)
    (h : m.lookup key = none) : key ∉ m.map Prod.fst := by
  induction m with
  | nil => simp
  | cons kv rest ih =>
    obtain ⟨k, old⟩ := kv
    by_cases hk : k = key
    · subst hk
      rw [lookup_cons_eq] at h
      exact absurd h (by simp)
    · rw [lookup_cons_ne k key old _ hk] at h
      intro hc
      rcases List.mem_cons.mp hc with e | m2
      · exact hk e.symm
      · exact ih h m2

theorem lookup_of_mem_nodup (m : List (Int × Node)) (key : Int) (val : Node)
    (hn : (m.map Prod.fst).Nodup) (h : (key, val) ∈ m) : m.lookup key = some val := by
  cases hl : m.lookup key with
  | none => exact absurd (List.mem_map.mpr ⟨(key, val), h, rfl⟩) (lookup_none_not_mem m key hl)
  | some old =>
    have hm := lookup_some_mem m key old hl
    rw [eq_of_mem_of_nodup_fst m key old val hn hm h]

theorem mapSet_lookup_self (m : List (Int × Node)) (key : Int) (val : Node)
    (h : m.lookup key = some val) : mapSet m key val = m := by
  induction m with
  | nil => simp [List.lookup] at h
  | cons kv rest ih =>
    obtain ⟨k, old⟩ := kv
    by_cases hk : k = key
    · subst hk
      rw [lookup_cons_eq] at h
      simp only [Option.some.injEq] at h
      subst h
      simp [mapSet]
    · rw [lookup_cons_ne k key old _ hk] at h
      simp [mapSet, hk, ih h]

theorem keys_mapSet (m : List (Int × Node)) (key : Int) (val : Node) :
    (mapSet m key val).map Prod.fst
      = if key ∈ m.map Prod.fst then m.map Prod.fst else m.map Prod.fst ++ [key] := by
  induction m with
  | nil => simp [mapSet]
  | cons kv rest ih =>
    obtain ⟨k, old⟩ := kv
    by_cases hk : k = key
    · subst hk
      simp [mapSet]
    · have hne : ¬ key = k := fun e => hk e.symm
      simp only [mapSet, if_neg hk, List.map_cons, ih, List.mem_cons, hne, false_or]
      split <;> simp

theorem keys_mapSet_nodup (m : List (Int × Node)) (key : Int) (val : Node)
    (hn : (m.map Prod.fst).Nodup) : ((mapSet m key val).map Prod.fst).Nodup := by
  rw [keys_mapSet]
  split
  · exact hn
  · rename_i hk
    rw [List.nodup_append]
    refine ⟨hn, List.nodup_singleton key, ?_⟩
    intro x hx hx2
    rw [List.mem_singleton] at hx2
    exact hk (hx2 ▸ hx)

theorem mem_mapSet (m : List (Int × Node)) (key : Int) (val : Node) (kv : Int × Node)
    (h : kv ∈ mapSet m key val) : kv = (key, val) ∨ kv ∈ m := by
  induction m with
  | nil =>
    simp only [mapSet, List.mem_singleton] at h
    exact Or.inl h
  | cons kv2 rest ih =>
    obtain ⟨k, old⟩ := kv2
    unfold mapSet at h
    by_cases hk : k = key
    · rw [if_pos hk] at h
      rcases List.mem_cons.mp h with e | m2
      · exact Or.inl e
      · exact Or.inr (List.mem_cons_of_mem _ m2)
    · rw [if_neg hk] at h
      rcases List.mem_cons.mp h with e | m2
      · exact Or.inr (e ▸ List.mem_cons_self _ _)
      · rcases ih m2 with e | m3
        · exact Or.inl e
        · exact Or.inr (List.mem_cons_of_mem _ m3)

/-- Decoding after `m[key] = val` for a key that was absent: the old versions
and those of the new entry. -/
theorem mem_parse_mapSet_new (pre : List Int) (m : List (Int × Node)) (key : Int) (val : Node)
    (h : m.lookup key = none) (v : Version) :
    v ∈ parseMapInt pre (mapSet m key val) ↔
      v ∈ parseMapInt pre m ∨ v ∈ parseVersions (pre ++ [key]) val := by
  induction m with
  | nil => simp [mapSet, parseMapInt, makePrefix]
  | cons kv rest ih =>
    obtain ⟨k, old⟩ := kv
    by_cases hk : k = key
    · subst hk
      rw [lookup_cons_eq] at h
      exact absurd h (by simp)
    · rw [lookup_cons_ne k key old _ hk] at h
      simp only [mapSet, if_neg hk, parseMapInt, List.mem_append, ih h]
      exact or_assoc.symm

/-- Decoding after `m[key] = val` for a key that was present, when the new entry
decodes to what the old one did and one more version. -/
theorem mem_parse_mapSet_replace (pre : List Int) (m : List (Int × Node)) (key : Int)
    (old val : Node) (target : Version) (h : m.lookup key = some old)
    (hval : ∀ v, v ∈ parseVersions (pre ++ [key]) val ↔
      v ∈ parseVersions (pre ++ [key]) old ∨ v = target) (v : Version) :
    v ∈ parseMapInt pre (mapSet m key val) ↔ v ∈ parseMapInt pre m ∨ v = target := by
  induction m with
  | nil => simp [List.lookup] at h
  | cons kv rest ih =>
    obtain ⟨k, y⟩ := kv
    by_cases hk : k = key
    · subst hk
      rw [lookup_cons_eq] at h
      simp only [Option.some.injEq] at h
      subst h
      simp only [mapSet, if_true, parseMapInt, List.mem_append, makePrefix, hval]
      constructor
      · rintro ((h1 | h1) | h1)
        · exact Or.inl (Or.inl h1)
        · exact Or.inr h1
        · exact Or.inl (Or.inr h1)
      · rintro ((h1 | h1) | h1)
        · exact Or.inl (Or.inl h1)
        · exact Or.inr h1
        · exact Or.inl (Or.inr h1)
    · rw [lookup_cons_ne k key y _ hk] at h
      simp only [mapSet, if_neg hk, parseMapInt, List.mem_append, ih h]
      exact or_assoc.symm

theorem insertLess_sorted_int (x : Int) (l : List Int) (h : l.Pairwise (fun a b => a ≤ b)) :
    (insertLess (fun a b => decide (a < b)) x l).Pairwise (fun a b => a ≤ b) := by
  induction l with
  | nil => simp [insertLess]
  | cons y ys ih =>
    rw [List.pairwise_cons] at h
    unfold insertLess
    split
    · rename_i hlt
      have hxy : x < y := of_decide_eq_true hlt
      rw [List.pairwise_cons]
      refine ⟨?_, List.pairwise_cons.mpr h⟩
      intro z hz
      rcases List.mem_cons.mp hz with rfl | hz
      · omega
      · have := h.1 z hz
        omega
    · rename_i hlt
      have hxy : ¬ x < y := fun hc => hlt (decide_eq_true hc)
      rw [List.pairwise_cons]
      refine ⟨?_, ih h.2⟩
      intro z hz
      have hz2 := (insertLess_perm _ x ys).subset hz
      rcases List.mem_cons.mp hz2 with rfl | hz3
      · omega
      · exact h.1 z hz3

theorem sortInts_foldl_sorted (xs acc : List Int) (h : acc.Pairwise (fun a b => a ≤ b)) :
    (xs.foldl (fun sorted x => insertLess (fun a b => decide (a < b)) x sorted) acc).Pairwise
      (fun a b => a ≤ b) := by
  induction xs generalizing acc with
  | nil => exact h
  | cons x xs ih =>
    rw [List.foldl_cons]
    exact ih _ (insertLess_sorted_int x acc h)

theorem sortInts_perm (xs : List Int) : (sortInts xs).Perm xs := sortSlice_perm _ xs

theorem sortInts_strict (xs : List Int) (hn : xs.Nodup) :
    (sortInts xs).Pairwise (fun a b => a < b) := by
  have hs : (sortInts xs).Pairwise (fun a b => a ≤ b) :=
    sortInts_foldl_sorted xs [] List.Pairwise.nil
  have hnd : (sortInts xs).Pairwise (fun a b => a ≠ b) := (sortInts_perm xs).nodup_iff.mpr hn
  exact (hs.and hnd).imp (fun h => lt_of_le_of_ne h.1 h.2)

theorem strict_nodup (l : List Int) (h : l.Pairwise (fun a b => a < b)) : l.Nodup :=
  h.imp (fun hab => ne_of_lt hab)

theorem Shaped_keys (d : Nat) (m : List (Int × Node)) (h : Shaped d m) :
    (m.map Prod.fst).Nodup := by
  cases d with
  | zero => exact h.1
  | succ d => exact h.1

theorem Shaped_nil (d : Nat) : Shaped d [] := by
  cases d with
  | zero => exact ⟨List.nodup_nil, fun kv hkv => absurd hkv (List.not_mem_nil kv)⟩
  | succ d => exact ⟨List.nodup_nil, fun kv hkv => absurd hkv (List.not_mem_nil kv)⟩

theorem mem_parseMapInt_iff (pre : List Int) (m : List (Int × Node)) (v : Version) :
    v ∈ parseMapInt pre m ↔ ∃ kv ∈ m, v ∈ parseVersions (pre ++ [kv.1]) kv.2 := by
  rw [parseMapInt_eq, List.mem_flatMap]

theorem mem_parse_sliceInt (pre : List Int) (leaves : List Int) (v : Version) :
    v ∈ parseVersions pre (.sliceInt leaves) ↔ ∃ leaf ∈ leaves, v = { Components := pre ++ [leaf] } := by
  rw [parseVersions, parseItemsInt_eq, List.mem_map]
  constructor
  · rintro ⟨leaf, hl, rfl⟩
    exact ⟨leaf, hl, rfl⟩
  · rintro ⟨leaf, hl, rfl⟩
    exact ⟨leaf, hl, rfl⟩

/-- One call of `addToMap` on a tree of the tool's shape, for a version of the
matching length: the shape is kept and the decoded versions are the old ones and
the inserted one. -/
theorem addToMap_spec (d : Nat) :
    ∀ (m : List (Int × Node)) (comps pre : List Int), Shaped d m → comps.length = d + 2 →
      Shaped d (addToMap m comps) ∧
      ∀ v, v ∈ parseMapInt pre (addToMap m comps) ↔
        v ∈ parseMapInt pre m ∨ v = { Components := pre ++ comps } := by
  induction d with
  | zero =>
    intro m comps pre hs hlen
    obtain ⟨head, leaf, rfl⟩ : ∃ head leaf, comps = [head, leaf] := by
      match comps, hlen with
      | [a, b], _ => exact ⟨a, b, rfl⟩
    cases hl : m.lookup head with
    | none =>
      have hres : addToMap m [head, leaf] = mapSet m head (.sliceInt [leaf]) := by
        simp only [addToMap, hl, Option.isNone_none, if_true, lookup_mapSet_self]
        simp [mapSet_mapSet, sortInts, sortSlice, insertLess]
      rw [hres]
      refine ⟨⟨keys_mapSet_nodup m head _ hs.1, ?_⟩, ?_⟩
      · intro kv hkv
        rcases mem_mapSet m head _ kv hkv with e | hm
        · exact ⟨[leaf], by rw [e], List.pairwise_singleton _ _⟩
        · exact hs.2 kv hm
      · intro v
        rw [mem_parse_mapSet_new pre m head _ hl, mem_parse_sliceInt]
        simp
    | some old =>
      obtain ⟨leaves, hold, hsorted⟩ := hs.2 (head, old) (lookup_some_mem m head old hl)
      simp only at hold
      subst hold
      by_cases hc : leaf ∈ leaves
      · have hres : addToMap m [head, leaf] = m := by
          simp [addToMap, hl, hc]
        rw [hres]
        refine ⟨hs, ?_⟩
        intro v
        constructor
        · exact Or.inl
        · rintro (h1 | h1)
          · exact h1
          · rw [h1, mem_parseMapInt_iff]
            refine ⟨(head, .sliceInt leaves), lookup_some_mem m head _ hl, ?_⟩
            rw [mem_parse_sliceInt]
            exact ⟨leaf, hc, by simp⟩
      · have hres : addToMap m [head, leaf]
            = mapSet m head (.sliceInt (sortInts (leaves ++ [leaf]))) := by
          simp [addToMap, hl, hc]
        rw [hres]
        have hnd : (leaves ++ [leaf]).Nodup := by
          rw [List.nodup_append]
          refine ⟨strict_nodup leaves hsorted, List.nodup_singleton leaf, ?_⟩
          intro x hx hx2
          rw [List.mem_singleton] at hx2
          exact hc (hx2 ▸ hx)
        refine ⟨⟨keys_mapSet_nodup m head _ hs.1, ?_⟩, ?_⟩
        · intro kv hkv
          rcases mem_mapSet m head _ kv hkv with e | hm
          · exact ⟨_, by rw [e], sortInts_strict _ hnd⟩
          · exact hs.2 kv hm
        · intro v
          apply mem_parse_mapSet_replace pre m head (.sliceInt leaves) _ _ hl
          intro w
          rw [mem_parse_sliceInt, mem_parse_sliceInt]
          constructor
          · rintro ⟨x, hx, rfl⟩
            have hx2 := (sortInts_perm _).subset hx
            rcases List.mem_append.mp hx2 with h1 | h1
            · exact Or.inl ⟨x, h1, rfl⟩
            · rw [List.mem_singleton] at h1
              subst h1
              exact Or.inr (by simp)
          · rintro (⟨x, hx, rfl⟩ | h1)
            · exact ⟨x, (sortInts_perm _).symm.subset (List.mem_append_left _ hx), rfl⟩
            · exact ⟨leaf, (sortInts_perm _).symm.subset
                (List.mem_append_right _ (List.mem_singleton.mpr rfl)), by rw [h1]; simp⟩
  | succ d ih =>
    intro m comps pre hs hlen
    obtain ⟨head, t1, t2, rest, rfl⟩ : ∃ head t1 t2 rest, comps = head :: t1 :: t2 :: rest := by
      match comps, hlen with
      | a :: b :: c :: r, _ => exact ⟨a, b, c, r, rfl⟩
    have htail : (t1 :: t2 :: rest).length = d + 2 := by
      simp only [List.length_cons] at hlen ⊢
      omega
    cases hl : m.lookup head with
    | none =>
      have hres : addToMap m (head :: t1 :: t2 :: rest)
          = mapSet m head (.mapInt (addToMap [] (t1 :: t2 :: rest))) := by
        simp only [addToMap, hl, Option.isNone_none, if_true, lookup_mapSet_self, mapSet_mapSet]
      rw [hres]
      obtain ⟨hsub, hmem⟩ := ih [] (t1 :: t2 :: rest) (pre ++ [head]) (Shaped_nil d) htail
      refine ⟨⟨keys_mapSet_nodup m head _ hs.1, ?_⟩, ?_⟩
      · intro kv hkv
        rcases mem_mapSet m head _ kv hkv with e | hm
        · exact ⟨_, by rw [e], hsub⟩
        · exact hs.2 kv hm
      · intro v
        rw [mem_parse_mapSet_new pre m head _ hl, parseVersions, hmem]
        simp [parseMapInt]
    | some old =>
      obtain ⟨sub, hold, hshaped⟩ := hs.2 (head, old) (lookup_some_mem m head old hl)
      simp only at hold
      subst hold
      have hres : addToMap m (head :: t1 :: t2 :: rest)
          = mapSet m head (.mapInt (addToMap sub (t1 :: t2 :: rest))) := by
        simp [addToMap, hl]
      rw [hres]
      obtain ⟨hsub, hmem⟩ := ih sub (t1 :: t2 :: rest) (pre ++ [head]) hshaped htail
      refine ⟨⟨keys_mapSet_nodup m head _ hs.1, ?_⟩, ?_⟩
      · intro kv hkv
        rcases mem_mapSet m head _ kv hkv with e | hm
        · exact ⟨_, by rw [e], hsub⟩
        · exact hs.2 kv hm
      · intro v
        apply mem_parse_mapSet_replace pre m head (.mapInt sub) _ _ hl
        intro w
        rw [parseVersions, parseVersions, hmem]
        simp

theorem addAll_spec (d : Nat) (versions : List (List Int)) :
    ∀ (m : List (Int × Node)) (pre : List Int), Shaped d m →
      (∀ comps ∈ versions, comps.length = d + 2) →
      Shaped d (addAll m versions) ∧
      ∀ v, v ∈ parseMapInt pre (addAll m versions) ↔
        v ∈ parseMapInt pre m ∨ ∃ comps ∈ versions, v = { Components := pre ++ comps } := by
  induction versions with
  | nil =>
    intro m pre hs _
    exact ⟨hs, fun v => by simp [addAll]⟩
  | cons c rest ih =>
    intro m pre hs hlen
    obtain ⟨hs1, hmem1⟩ := addToMap_spec d m c pre hs (hlen c (List.mem_cons_self _ _))
    obtain ⟨hs2, hmem2⟩ := ih (addToMap m c) pre hs1
      (fun x hx => hlen x (List.mem_cons_of_mem _ hx))
    refine ⟨hs2, ?_⟩
    intro v
    have hfold : addAll m (c :: rest) = addAll (addToMap m c) rest := rfl
    rw [hfold, hmem2, hmem1]
    constructor
    · rintro ((h1 | h1) | ⟨x, hx, h1⟩)
      · exact Or.inl h1
      · exact Or.inr ⟨c, List.mem_cons_self _ _, h1⟩
      · exact Or.inr ⟨x, List.mem_cons_of_mem _ hx, h1⟩
    · rintro (h1 | ⟨x, hx, h1⟩)
      · exact Or.inl (Or.inl h1)
      · rcases List.mem_cons.mp hx with e | hx2
        · exact Or.inl (Or.inr (e ▸ h1))
        · exact Or.inr ⟨x, hx2, h1⟩

theorem noRepeatsInt_iff (kvs : List (Int × Node)) :
    noRepeatsInt kvs = true ↔ ∀ kv ∈ kvs, kv.2.noRepeats = true := by
  induction kvs with
  | nil => simp [noRepeatsInt]
  | cons kv rest ih =>
    obtain ⟨k, val⟩ := kv
    simp [noRepeatsInt, ih]

theorem Shaped_noRepeats (d : Nat) :
    ∀ m : List (Int × Node), Shaped d m → (Node.mapInt m).noRepeats = true := by
  induction d with
  | zero =>
    intro m hs
    rw [Node.noRepeats, Bool.and_eq_true, decide_eq_true_iff, noRepeatsInt_iff]
    refine ⟨hs.1, ?_⟩
    intro kv hkv
    obtain ⟨leaves, hval, hsorted⟩ := hs.2 kv hkv
    rw [hval, Node.noRepeats, decide_eq_true_iff]
    exact strict_nodup leaves hsorted
  | succ d ih =>
    intro m hs
    rw [Node.noRepeats, Bool.and_eq_true, decide_eq_true_iff, noRepeatsInt_iff]
    refine ⟨hs.1, ?_⟩
    intro kv hkv
    obtain ⟨sub, hval, hsub⟩ := hs.2 kv hkv
    rw [hval]
    exact ih sub hsub

/-- Adding a version that the tree already decodes to changes nothing. -/
theorem addToMap_of_mem (d : Nat) :
    ∀ (m : List (Int × Node)) (comps pre : List Int), Shaped d m → comps.length = d + 2 →
      ({ Components := pre ++ comps } : Version) ∈ parseMapInt pre m → addToMap m comps = m := by
  induction d with
  | zero =>
    intro m comps pre hs hlen hmem
    obtain ⟨head, leaf, rfl⟩ : ∃ head leaf, comps = [head, leaf] := by
      match comps, hlen with
      | [a, b], _ => exact ⟨a, b, rfl⟩
    rw [mem_parseMapInt_iff] at hmem
    obtain ⟨kv, hkv, hv⟩ := hmem
    obtain ⟨leaves, hval, _⟩ := hs.2 kv hkv
    rw [hval, mem_parse_sliceInt] at hv
    obtain ⟨x, hx, he⟩ := hv
    have he2 : pre ++ [head, leaf] = pre ++ [kv.1, x] := by
      have h0 := congrArg Version.Components he
      simpa using h0
    have he3 := List.append_cancel_left he2
    simp only [List.cons.injEq, and_true] at he3
    obtain ⟨hk, hlf⟩ := he3
    have hl : m.lookup head = some (.sliceInt leaves) := by
      apply lookup_of_mem_nodup m head _ hs.1
      rw [hk, ← hval]
      exact hkv
    simp [addToMap, hl, hlf, hx]
  | succ d ih =>
    intro m comps pre hs hlen hmem
    obtain ⟨head, t1, t2, rest, rfl⟩ : ∃ head t1 t2 rest, comps = head :: t1 :: t2 :: rest := by
      match comps, hlen with
      | a :: b :: c :: r, _ => exact ⟨a, b, c, r, rfl⟩
    have htail : (t1 :: t2 :: rest).length = d + 2 := by
      simp only [List.length_cons] at hlen ⊢
      omega
    rw [mem_parseMapInt_iff] at hmem
    obtain ⟨kv, hkv, hv⟩ := hmem
    obtain ⟨sub, hval, hsub⟩ := hs.2 kv hkv
    have hext := parseVersions_extends _ _ _ hv
    have hkey : kv.1 = head := by
      have h1 : pre ++ [head] <+: pre ++ head :: t1 :: t2 :: rest := by
        refine ⟨t1 :: t2 :: rest, ?_⟩
        simp
      exact key_eq_of_extends pre _ kv.1 head hext h1
    have hl : m.lookup head = some (.mapInt sub) := by
      apply lookup_of_mem_nodup m head _ hs.1
      rw [← hkey, ← hval]
      exact hkv
    rw [hval, hkey, parseVersions] at hv
    have hv2 : ({ Components := (pre ++ [head]) ++ (t1 :: t2 :: rest) } : Version)
        ∈ parseMapInt (pre ++ [head]) sub := by
      simpa using hv
    have hi := ih sub (t1 :: t2 :: rest) (pre ++ [head]) hsub htail hv2
    have hres : addToMap m (head :: t1 :: t2 :: rest)
        = mapSet m head (.mapInt (addToMap sub (t1 :: t2 :: rest))) := by
      simp [addToMap, hl]
    rw [hres, hi]
    exact mapSet_lookup_self m head _ hl

theorem addToMap_idempotent (d : Nat) (m : List (Int × Node)) (comps : List Int)
    (hs : Shaped d m) (hlen : comps.length = d + 2) :
    addToMap (addToMap m comps) comps = addToMap m comps := by
  obtain ⟨hs1, hmem⟩ := addToMap_spec d m comps [] hs hlen
  exact addToMap_of_mem d _ comps [] hs1 hlen ((hmem _).mpr (Or.inr rfl))

/-! ## Facts about selection beyond the range of `int` -/

theorem filterVersions_no_bounds (versions : List Version) (opts : generateOptions)
    (hmin : opts.minVersion.Components = []) (hmax : opts.maxVersion.Components = []) :
    filterVersions versions opts = versions := by
  rw [filterVersions_eq_filter, List.filter_eq_self]
  intro v _
  rw [decide_eq_true_iff]
  exact ⟨Or.inl (by rw [hmin]; rfl), Or.inl (by rw [hmax]; rfl)⟩

/-- Once the entry is found and its candidates are not empty, `Generate` passes a
panic of `selectVersion` on. -/
theorem Generate_panic (g : Generator) (global : Rand) (opts : List GenOption)
    (platforms : List (OSName × browserData)) (bd : browserData)
    (hb : g.store.data.lookup (applyOptions opts).browser = some platforms)
    (ho : platforms.lookup (applyOptions opts).os = some bd)
    (hsel : selectVersion intSize g.rng (filterVersions bd.versions (applyOptions opts))
      (applyOptions opts).withWeight = .error .panic) :
    Generate g global opts = (.error .panic, g, global) := by
  rcases Generate_found g global opts platforms bd hb ho with
    ⟨hnil, _⟩ | ⟨_, _, he⟩ | ⟨v, rng1, _, _, _, hsel2, _, _⟩
  · rw [hnil] at hsel
    simp [selectVersion] at hsel
  · exact he
  · rw [hsel] at hsel2
    simp at hsel2

/-! ## Facts about the configuration the options produce -/

theorem foldl_field {α : Type} (proj : generateOptions → α) (f : PackageOption → Option α)
    (hf : ∀ p o, proj (PackageOption.toOption p o) = (f p).getD (proj o))
    (ps : List PackageOption) (o : generateOptions) :
    proj (ps.foldl (fun o p => p.toOption o) o) = lastGiven f (proj o) ps := by
  induction ps generalizing o with
  | nil => simp [lastGiven]
  | cons p ps ih =>
    rw [List.foldl_cons, ih, hf]
    unfold lastGiven
    rw [List.filterMap_cons]
    cases hp : f p with
    | none => simp
    | some a => simp [List.getLast?_cons]

/-- The configuration `Generate` works with has the browser, the operating
system and the bounds that the options passed ask for. -/
theorem applyOptions_configured (ps : List PackageOption) :
    (applyOptions (ps.map PackageOption.toOption)).browser = configuredBrowser ps ∧
    (applyOptions (ps.map PackageOption.toOption)).os = configuredOS ps ∧
    (applyOptions (ps.map PackageOption.toOption)).minVersion = configuredMin ps ∧
    (applyOptions (ps.map PackageOption.toOption)).maxVersion = configuredMax ps := by
  rw [applyOptions_package]
  refine ⟨?_, ?_, ?_, ?_⟩
  · exact foldl_field (fun o => o.browser) givenBrowser
      (by intro p o; cases p <;> rfl) ps defaultOptions
  · exact foldl_field (fun o => o.os) givenOS
      (by intro p o; cases p <;> rfl) ps defaultOptions
  · exact foldl_field (fun o => o.minVersion) givenMin
      (by intro p o; cases p <;> rfl) ps defaultOptions
  · exact foldl_field (fun o => o.maxVersion) givenMax
      (by intro p o; cases p <;> rfl) ps defaultOptions

/-! ## The claims -/

/-- C1: `filterVersions` keeps exactly the versions within the bounds (a bound
without components does not constrain), in their original relative order; hence
a list sorted descending stays sorted descending. -/
theorem C1_filterVersions_keeps_within_bounds (versions : List Version)
    (opts : generateOptions) :
    filterVersions versions opts
        = versions.filter (fun v => decide (withinBounds opts v)) ∧
    (∀ v, v ∈ filterVersions versions opts ↔ v ∈ versions ∧
        (opts.minVersion.Components.length = 0 ∨ v.Compare opts.minVersion ≥ 0) ∧
        (opts.maxVersion.Components.length = 0 ∨ v.Compare opts.maxVersion ≤ 0)) ∧
    (filterVersions versions opts).Sublist versions ∧
    (SortedDesc versions → SortedDesc (filterVersions versions opts)) := by
  refine ⟨filterVersions_eq_filter versions opts, ?_, ?_, ?_⟩
  · intro v
    exact mem_filterVersions versions opts v
  · rw [filterVersions_eq_filter]
    exact List.filter_sublist versions
  · intro h
    rw [filterVersions_eq_filter]
    exact List.Pairwise.sublist (List.filter_sublist versions) h

/-- C1 at a concrete input: a descending list of four versions filtered with
the bounds `133.0` and `134`. -/
theorem C1_filterVersions_witness :
    SortedDesc [⟨[135, 0]⟩, ⟨[134, 0, 1]⟩, ⟨[133, 0, 6943, 98]⟩, ⟨[132]⟩] ∧
    filterVersions [⟨[135, 0]⟩, ⟨[134, 0, 1]⟩, ⟨[133, 0, 6943, 98]⟩, ⟨[132]⟩]
        (WithMaxVersionStruct ⟨[134, 0, 1]⟩ (WithMinVersionStruct ⟨[133, 0]⟩ defaultOptions))
      = [⟨[134, 0, 1]⟩, ⟨[133, 0, 6943, 98]⟩] ∧
    SortedDesc (filterVersions [⟨[135, 0]⟩, ⟨[134, 0, 1]⟩, ⟨[133, 0, 6943, 98]⟩, ⟨[132]⟩]
        (WithMaxVersionStruct ⟨[134, 0, 1]⟩ (WithMinVersionStruct ⟨[133, 0]⟩ defaultOptions))) :=
  ⟨by decide, by decide,
    (C1_filterVersions_keeps_within_bounds _ _).2.2.2 (by decide)⟩

/-- C4: `Compare a b` is `0` exactly when `a` and `b` have the same component
at every position once the shorter is padded with zeros; so a version compares
equal to itself followed by any number of zeros (`[145,2]` and `[145,2,0,0]`),
and `[133,0]` compares below `[133,1]`. -/
theorem C4_compare_zero_iff_same_padded :
    (∀ a b : Version, a.Compare b = 0 ↔
        padTo (max a.Components.length b.Components.length) a.Components
          = padTo (max a.Components.length b.Components.length) b.Components) ∧
    (∀ a b : Version, a.Compare b = 0 ↔
        ∀ i, a.Components.getD i 0 = b.Components.getD i 0) ∧
    (∀ (v : Version) (k : Nat),
        v.Compare { Components := v.Components ++ List.replicate k 0 } = 0) ∧
    Version.Compare ⟨[145, 2]⟩ ⟨[145, 2, 0, 0]⟩ = 0 ∧
    Version.Compare ⟨[133, 0]⟩ ⟨[133, 1]⟩ < 0 := by
  refine ⟨?_, Compare_eq_zero_iff, ?_, by decide, by decide⟩
  · intro a b
    rw [Compare_eq_zero_iff, padTo_eq_iff _ _ _ (le_max_left _ _) (le_max_right _ _)]
  · intro v k
    rw [Compare_eq_zero_iff]
    intro j
    have h := padTo_getD (v.Components.length + k) v.Components j
    simp only [padTo, Nat.add_sub_cancel_left] at h
    exact h.symm

/-- C5: for versions of any lengths, `Compare a b = -Compare b a`, and
`Compare a a = 0`. -/
theorem C5_compare_antisymmetric_reflexive (a b : Version) :
    a.Compare b = -b.Compare a ∧ a.Compare a = 0 := by
  exact ⟨Compare_swap b a, Compare_self a⟩

/-- C6: `Compare` orders the versions totally: its result is one of -1, 0, 1;
any two versions are comparable; and it is transitive across lengths, strictly
so when one of the two steps is strict. -/
theorem C6_compare_total_order :
    (∀ a b : Version, a.Compare b = -1 ∨ a.Compare b = 0 ∨ a.Compare b = 1) ∧
    (∀ a b : Version, a.Compare b ≤ 0 ∨ b.Compare a ≤ 0) ∧
    (∀ a b : Version, a.Compare b ≤ 0 → b.Compare a ≤ 0 → a.Compare b = 0) ∧
    (∀ a b c : Version, a.Compare b ≤ 0 → b.Compare c ≤ 0 → a.Compare c ≤ 0) ∧
    (∀ a b c : Version, a.Compare b ≤ 0 → b.Compare c ≤ 0 →
        (a.Compare b < 0 ∨ b.Compare c < 0) → a.Compare c < 0) := by
  refine ⟨Compare_range, ?_, ?_, ?_, ?_⟩
  · intro a b
    have h := Compare_swap a b
    omega
  · intro a b h1 h2
    have h := Compare_swap a b
    omega
  · intro a b c h1 h2
    exact (Compare_trans a b c h1 h2).1
  · intro a b c h1 h2 h3
    exact (Compare_trans a b c h1 h2).2 h3

/-- C6 at concrete versions of three different lengths:
`[132] < [133,0] = [133,0,0,0] < [133,0,6943,98]`. -/
theorem C6_compare_total_order_witness :
    Version.Compare ⟨[132]⟩ ⟨[133, 0]⟩ ≤ 0 ∧
    Version.Compare ⟨[133, 0]⟩ ⟨[133, 0, 6943, 98]⟩ ≤ 0 ∧
    Version.Compare ⟨[132]⟩ ⟨[133, 0, 6943, 98]⟩ < 0 :=
  ⟨by decide, by decide,
    C6_compare_total_order.2.2.2.2 ⟨[132]⟩ ⟨[133, 0]⟩ ⟨[133, 0, 6943, 98]⟩
      (by decide) (by decide) (Or.inl (by decide))⟩

/-- C7: `parseVersionString` hands every dot-separated token to `strconv.Atoi`,
which accepts a sign, so a token such as `-5` becomes the negative component -5
instead of ending the parse; the three inputs the specification lists parse as
it says. -/
theorem C7_parseVersionString_accepts_signed_tokens :
    parseVersionString "-5".toList = { Components := [-5] } ∧
    parseVersionString "133.-1.7".toList = { Components := [133, -1, 7] } ∧
    (¬ ∀ s : List Char, ∀ c ∈ (parseVersionString s).Components, 0 ≤ c) ∧
    parseVersionString "133".toList = { Components := [133] } ∧
    parseVersionString "133.0.6943.98".toList = { Components := [133, 0, 6943, 98] } ∧
    parseVersionString "abc".toList = { Components := [] } := by
  refine ⟨by decide, by decide, ?_, by decide, by decide, by decide⟩
  intro h
  have h5 := h "-5".toList (-5) (by decide)
  omega

/-- C8: what `parseVersions` emits, shape by shape: a leaf list gives the prefix
extended by each (numeric) leaf; a null node gives the prefix itself when it is
non-empty and nothing otherwise; a keyed tree gives, pair by pair, what the child
emits for the prefix extended by the key, whatever the order of the pairs. Trees
of mixed depth are decoded, and `{133: {0: {6943: [53, 98]}}}` decodes to exactly
133.0.6943.53 and 133.0.6943.98. -/
theorem C8_parseVersions_emits :
    (∀ (pre : List Int) (leaves : List Int),
        parseVersions pre (.sliceInt leaves)
          = leaves.map (fun leaf => { Components := pre ++ [leaf] })) ∧
    (∀ (pre : List Int) (leaves : List Scalar),
        parseVersions pre (.sliceAny leaves)
          = (leaves.filterMap toInt).map (fun leaf => { Components := pre ++ [leaf] })) ∧
    (∀ pre : List Int,
        parseVersions pre .null = if pre = [] then [] else [{ Components := pre }]) ∧
    (∀ (pre : List Int) (kvs : List (Int × Node)),
        parseVersions pre (.mapInt kvs)
          = kvs.flatMap (fun kv => parseVersions (pre ++ [kv.1]) kv.2)) ∧
    (∀ (pre : List Int) (kvs : List (Scalar × Node)),
        parseVersions pre (.mapAny kvs)
          = kvs.flatMap (fun kv =>
              match toInt kv.1 with
              | some keyInt => parseVersions (pre ++ [keyInt]) kv.2
              | none => [])) ∧
    (∀ (pre : List Int) (kvs kvs2 : List (Int × Node)), kvs.Perm kvs2 →
        (parseVersions pre (.mapInt kvs)).Perm (parseVersions pre (.mapInt kvs2))) ∧
    (∀ (pre : List Int) (kvs kvs2 : List (Scalar × Node)), kvs.Perm kvs2 →
        (parseVersions pre (.mapAny kvs)).Perm (parseVersions pre (.mapAny kvs2))) ∧
    parseVersions [] (.mapInt exampleTree)
      = [{ Components := [133, 0, 6943, 53] }, { Components := [133, 0, 6943, 98] }] ∧
    parseVersions [] mixedDepthTree
      = [{ Components := [145, 2] }, { Components := [145, 3, 1] },
         { Components := [145, 3, 2] }, { Components := [146] }] := by
  refine ⟨?_, ?_, ?_, ?_, ?_, ?_, ?_, by decide, by decide⟩
  · intro pre leaves
    rw [parseVersions, parseItemsInt_eq]
  · intro pre leaves
    rw [parseVersions, parseItemsAny_eq]
  · intro pre
    rw [parseVersions]
    cases pre <;> simp
  · intro pre kvs
    rw [parseVersions, parseMapInt_eq]
  · intro pre kvs
    rw [parseVersions, parseMapAny_eq]
  · intro pre kvs kvs2 h
    rw [parseVersions, parseVersions, parseMapInt_eq, parseMapInt_eq]
    exact List.Perm.flatMap_right _ h
  · intro pre kvs kvs2 h
    rw [parseVersions, parseVersions, parseMapAny_eq, parseMapAny_eq]
    exact List.Perm.flatMap_right _ h

/-- C8 at a concrete input: the two orders in which the pairs of
`{145: {...}, 146: null}` can be visited give the same versions. -/
theorem C8_parseVersions_emits_witness :
    (parseVersions [] (.mapInt [(145, .mapInt [(2, .null), (3, .sliceInt [1, 2])]), (146, .null)])).Perm
      (parseVersions [] (.mapInt [(146, .null), (145, .mapInt [(2, .null), (3, .sliceInt [1, 2])])])) :=
  C8_parseVersions_emits.2.2.2.2.2.1 [] _ _ (List.Perm.swap _ _ [])

/-- C9: every entry of the store `loadData` builds comes from an entry of the
decoded file; its version list is a permutation of what the decoder emits for
that entry's tree and is sorted descending by `Compare` (for all positions
`i < j`, `Compare versions[i] versions[j] >= 0`), so that the first version
compares at least as high as every version of the list. -/
theorem C9_loadData_versions_sorted_descending (config : Config) (store : dataStore)
    (h : loadData (.ok config) = .ok store)
    (browser : BrowserName) (platforms : List (OSName × browserData))
    (hb : (browser, platforms) ∈ store.data)
    (os : OSName) (bd : browserData) (ho : (os, bd) ∈ platforms) :
    ∃ cfgPlatforms pConfig,
      (browser, cfgPlatforms) ∈ config.Browsers ∧ (os, pConfig) ∈ cfgPlatforms ∧
      bd = loadEntry pConfig ∧
      bd.versions.Perm (parseVersions [] (.mapInt pConfig.Versions)) ∧
      (∀ (i j : Nat) (hi : i < bd.versions.length) (hj : j < bd.versions.length), i < j →
          (bd.versions.get ⟨i, hi⟩).Compare (bd.versions.get ⟨j, hj⟩) ≥ 0) ∧
      (∀ newest ∈ bd.versions.head?, ∀ v ∈ bd.versions, newest.Compare v ≥ 0) := by
  simp only [loadData, Except.ok.injEq] at h
  subst h
  simp only [List.mem_map, Prod.mk.injEq, Prod.exists] at hb
  obtain ⟨b, cfgPlatforms, hmem, rfl, rfl⟩ := hb
  simp only [List.mem_map, Prod.mk.injEq, Prod.exists] at ho
  obtain ⟨o, pConfig, hmem2, rfl, rfl⟩ := ho
  have hs : SortedDesc (loadEntry pConfig).versions := sortSlice_sortedDesc _
  refine ⟨cfgPlatforms, pConfig, hmem, hmem2, rfl, sortSlice_perm _ _, ?_, ?_⟩
  · intro i j hi hj hij
    exact (List.pairwise_iff_getElem.mp hs) i j hi hj hij
  · intro newest hn v hv
    cases hl : (loadEntry pConfig).versions with
    | nil => rw [hl] at hv; simp at hv
    | cons a rest =>
      rw [hl] at hn hv hs
      simp only [List.head?_cons, Option.mem_def, Option.some.injEq] at hn
      subst hn
      rcases List.mem_cons.mp hv with rfl | hv2
      · rw [Compare_self]
      · exact (List.pairwise_cons.mp hs).1 v hv2

/-- C9 at a concrete input: the store built from the catalog whose only entry
holds `{133: {0: {6943: [53, 98]}}}` lists 133.0.6943.98 before 133.0.6943.53. -/
theorem C9_loadData_versions_sorted_descending_witness :
    loadData (.ok exampleConfig)
      = .ok { data := [("chrome", [("windows", loadEntry examplePlatform)])] } ∧
    (loadEntry examplePlatform).versions
      = [{ Components := [133, 0, 6943, 98] }, { Components := [133, 0, 6943, 53] }] ∧
    ∃ cfgPlatforms pConfig,
      ("chrome", cfgPlatforms) ∈ exampleConfig.Browsers ∧ ("windows", pConfig) ∈ cfgPlatforms ∧
      loadEntry examplePlatform = loadEntry pConfig ∧
      (loadEntry examplePlatform).versions.Perm (parseVersions [] (.mapInt pConfig.Versions)) ∧
      (∀ (i j : Nat) (hi : i < (loadEntry examplePlatform).versions.length)
          (hj : j < (loadEntry examplePlatform).versions.length), i < j →
          ((loadEntry examplePlatform).versions.get ⟨i, hi⟩).Compare
            ((loadEntry examplePlatform).versions.get ⟨j, hj⟩) ≥ 0) ∧
      (∀ newest ∈ (loadEntry examplePlatform).versions.head?,
          ∀ v ∈ (loadEntry examplePlatform).versions, newest.Compare v ≥ 0) :=
  ⟨rfl, by decide,
    C9_loadData_versions_sorted_descending exampleConfig
      { data := [("chrome", [("windows", loadEntry examplePlatform)])] }
      rfl "chrome" _ (List.mem_singleton.mpr rfl) "windows" _ (List.mem_singleton.mpr rfl)⟩

/-- C10, as the code has it: `loadData` sorts what the decoder emits and
removes nothing, so the version list of an entry is free of duplicates when the
raw tree is: no leaf list repeats a number and no map has two keys denoting the
same integer. -/
theorem C10_versions_nodup_of_tree_without_repeats (pConfig : PlatformConfig)
    (h : (Node.mapInt pConfig.Versions).noRepeats = true) :
    (loadEntry pConfig).versions.Nodup := by
  have hp : (loadEntry pConfig).versions.Perm (parseVersions [] (.mapInt pConfig.Versions)) :=
    sortSlice_perm _ _
  exact hp.nodup_iff.mpr (parseVersions_nodup [] _ h)

/-- C10 at a concrete input: the tree `{133: {0: {6943: [53, 98]}}}` has no
repeats and its entry lists two distinct versions. -/
theorem C10_versions_nodup_witness :
    (Node.mapInt examplePlatform.Versions).noRepeats = true ∧
    (loadEntry examplePlatform).versions.Nodup :=
  ⟨by decide, C10_versions_nodup_of_tree_without_repeats examplePlatform (by decide)⟩

/-- C10 as stated fails: the leaf list `[53, 53]` of
`{133: {0: {6943: [53, 53]}}}` puts 133.0.6943.53 into the entry twice. -/
theorem C10_repeated_leaf_gives_duplicate :
    (loadEntry { UATemplate := exampleTemplate, Versions := repeatedLeafTree }).versions
      = [{ Components := [133, 0, 6943, 53] }, { Components := [133, 0, 6943, 53] }] ∧
    ¬ (loadEntry { UATemplate := exampleTemplate, Versions := repeatedLeafTree }).versions.Nodup := by
  refine ⟨by decide, by decide⟩

/-- C2: whenever `Generate` succeeds, whatever the catalog, the options and the
random draws, there is a version `v` of the configured (browser, os) entry
within the configured bounds such that the user agent is the entry's template
with the marker replaced by `String v`: a template without the marker comes back
unchanged, and a template whose first marker follows `pre` comes back as `pre`,
then `String v`, then the rest treated the same way. The configuration is the
one the options passed ask for: for a call with the package options `ps` the
entry is that of the last browser and operating system named (chrome and windows
by default), and `v` respects the last lower and the last upper bound named. -/
theorem C2_generate_userAgent_is_template_with_version (g : Generator) (global : Rand)
    (opts : List GenOption) (res : Result) (g2 : Generator) (global2 : Rand)
    (h : Generate g global opts = (.ok res, g2, global2)) :
    (∃ platforms bd v,
      g.store.data.lookup (applyOptions opts).browser = some platforms ∧
      platforms.lookup (applyOptions opts).os = some bd ∧
      v ∈ bd.versions ∧
      ((applyOptions opts).minVersion.Components ≠ [] →
        v.Compare (applyOptions opts).minVersion ≥ 0) ∧
      ((applyOptions opts).maxVersion.Components ≠ [] →
        v.Compare (applyOptions opts).maxVersion ≤ 0) ∧
      res.UserAgent = ReplaceAll bd.uaTemplate versionMarker v.String ∧
      (¬ versionMarker <:+: bd.uaTemplate → res.UserAgent = bd.uaTemplate) ∧
      (∀ pre post, bd.uaTemplate = pre ++ versionMarker ++ post →
        ¬ versionMarker <:+: pre ++ versionMarker.dropLast →
        res.UserAgent = pre ++ v.String ++ ReplaceAll post versionMarker v.String)) ∧
    (∀ ps : List PackageOption, opts = ps.map PackageOption.toOption →
      ∃ platforms bd v,
        g.store.data.lookup (configuredBrowser ps) = some platforms ∧
        platforms.lookup (configuredOS ps) = some bd ∧
        v ∈ bd.versions ∧
        ((configuredMin ps).Components ≠ [] → v.Compare (configuredMin ps) ≥ 0) ∧
        ((configuredMax ps).Components ≠ [] → v.Compare (configuredMax ps) ≤ 0) ∧
        res.UserAgent = ReplaceAll bd.uaTemplate versionMarker v.String ∧
        (¬ versionMarker <:+: bd.uaTemplate → res.UserAgent = bd.uaTemplate)) := by
  have main : ∃ platforms bd v,
      g.store.data.lookup (applyOptions opts).browser = some platforms ∧
      platforms.lookup (applyOptions opts).os = some bd ∧
      v ∈ bd.versions ∧
      ((applyOptions opts).minVersion.Components ≠ [] →
        v.Compare (applyOptions opts).minVersion ≥ 0) ∧
      ((applyOptions opts).maxVersion.Components ≠ [] →
        v.Compare (applyOptions opts).maxVersion ≤ 0) ∧
      res.UserAgent = ReplaceAll bd.uaTemplate versionMarker v.String ∧
      (¬ versionMarker <:+: bd.uaTemplate → res.UserAgent = bd.uaTemplate) ∧
      (∀ pre post, bd.uaTemplate = pre ++ versionMarker ++ post →
        ¬ versionMarker <:+: pre ++ versionMarker.dropLast →
        res.UserAgent = pre ++ v.String ++ ReplaceAll post versionMarker v.String) := by
    obtain ⟨platforms, bd, v, rng1, hb, ho, hv, _, hua, _, _, _⟩ :=
      Generate_ok_inv g global opts res g2 global2 h
    obtain ⟨hmem, hmin, hmax⟩ := (mem_filterVersions _ _ _).mp hv
    refine ⟨platforms, bd, v, hb, ho, hmem, ?_, ?_, hua, ?_, ?_⟩
    · intro hne
      rcases hmin with h0 | h0
      · exact absurd (List.length_eq_zero.mp h0) hne
      · exact h0
    · intro hne
      rcases hmax with h0 | h0
      · exact absurd (List.length_eq_zero.mp h0) hne
      · exact h0
    · intro hno
      rw [hua]
      exact replaceFrom_of_not_infix _ _ _ hno
    · intro pre post hsplit hfirst
      rw [hua, hsplit]
      exact replaceFrom_first versionMarker v.String pre post (by decide) hfirst
  refine ⟨main, ?_⟩
  intro ps hps
  obtain ⟨platforms, bd, v, hb, ho, hmem, hmin, hmax, hua, hno, _⟩ := main
  obtain ⟨e1, e2, e3, e4⟩ := applyOptions_configured ps
  rw [hps] at hb ho hmin hmax
  rw [e1] at hb
  rw [e2] at ho
  rw [e3] at hmin
  rw [e4] at hmax
  exact ⟨platforms, bd, v, hb, ho, hmem, hmin, hmax, hua, hno⟩

/-- C2 at a concrete input: on the example catalog (133.0.6943.98 and
133.0.6943.53), all draws 0, a call without options returns the template with
133.0.6943.98 in place of the marker, and a call with
`WithMaxVersion("133.0.6943.60")` returns it with 133.0.6943.53, the one version
of the entry that is not above the bound. -/
theorem C2_generate_userAgent_witness :
    Generate exampleGenerator zeroRand []
      = (.ok { UserAgent :=
                 "Mozilla/5.0 (Windows NT 10.0; Win64; x64) Chrome/133.0.6943.98 Safari/537.36".toList
               Headers := [("User-Agent".toList,
                 "Mozilla/5.0 (Windows NT 10.0; Win64; x64) Chrome/133.0.6943.98 Safari/537.36".toList)] },
         { exampleGenerator with rng := { zeroRand with pos := 1 } }, zeroRand) ∧
    Generate exampleGenerator zeroRand [WithMaxVersion "133.0.6943.60".toList]
      = (.ok { UserAgent :=
                 "Mozilla/5.0 (Windows NT 10.0; Win64; x64) Chrome/133.0.6943.53 Safari/537.36".toList
               Headers := [("User-Agent".toList,
                 "Mozilla/5.0 (Windows NT 10.0; Win64; x64) Chrome/133.0.6943.53 Safari/537.36".toList)] },
         { exampleGenerator with rng := { zeroRand with pos := 1 } }, zeroRand) ∧
    configuredBrowser [PackageOption.withMaxVersion "133.0.6943.60".toList] = "chrome" ∧
    configuredOS [PackageOption.withMaxVersion "133.0.6943.60".toList] = "windows" ∧
    configuredMin [PackageOption.withMaxVersion "133.0.6943.60".toList] = { Components := [] } ∧
    configuredMax [PackageOption.withMaxVersion "133.0.6943.60".toList]
      = { Components := [133, 0, 6943, 60] } ∧
    (∃ platforms bd v,
      exampleGenerator.store.data.lookup
        (configuredBrowser [PackageOption.withMaxVersion "133.0.6943.60".toList])
          = some platforms ∧
      platforms.lookup (configuredOS [PackageOption.withMaxVersion "133.0.6943.60".toList])
        = some bd ∧
      v ∈ bd.versions ∧
      ((configuredMin [PackageOption.withMaxVersion "133.0.6943.60".toList]).Components ≠ [] →
        v.Compare (configuredMin [PackageOption.withMaxVersion "133.0.6943.60".toList]) ≥ 0) ∧
      ((configuredMax [PackageOption.withMaxVersion "133.0.6943.60".toList]).Components ≠ [] →
        v.Compare (configuredMax [PackageOption.withMaxVersion "133.0.6943.60".toList]) ≤ 0) ∧
      "Mozilla/5.0 (Windows NT 10.0; Win64; x64) Chrome/133.0.6943.53 Safari/537.36".toList
        = ReplaceAll bd.uaTemplate versionMarker v.String ∧
      (¬ versionMarker <:+: bd.uaTemplate →
        "Mozilla/5.0 (Windows NT 10.0; Win64; x64) Chrome/133.0.6943.53 Safari/537.36".toList
          = bd.uaTemplate)) :=
  ⟨rfl, rfl, by decide, by decide, by decide, by decide,
    (C2_generate_userAgent_is_template_with_version exampleGenerator zeroRand
      [WithMaxVersion "133.0.6943.60".toList] _ _ _ rfl).2
      [PackageOption.withMaxVersion "133.0.6943.60".toList] rfl⟩

/-- C3: when the (browser, os) entry exists, `Generate` fails with the no-match
error exactly when no version of the entry is within the min/max bounds (and then
nothing else happens: no result, no draw); in particular it does so when a
`minVersion` is set that every version of the entry compares below. -/
theorem C3_generate_noMatch_iff_no_version_within_bounds (g : Generator) (global : Rand)
    (opts : List GenOption) (platforms : List (OSName × browserData)) (bd : browserData)
    (hb : g.store.data.lookup (applyOptions opts).browser = some platforms)
    (ho : platforms.lookup (applyOptions opts).os = some bd) :
    ((Generate g global opts).1 = .error .noMatch ↔
      ∀ v ∈ bd.versions, ¬ withinBounds (applyOptions opts) v) ∧
    ((∀ v ∈ bd.versions, ¬ withinBounds (applyOptions opts) v) →
      Generate g global opts = (.error .noMatch, g, global)) ∧
    ((applyOptions opts).minVersion.Components ≠ [] →
      (∀ v ∈ bd.versions, v.Compare (applyOptions opts).minVersion < 0) →
      Generate g global opts = (.error .noMatch, g, global)) := by
  have hempty : filterVersions bd.versions (applyOptions opts) = [] ↔
      ∀ v ∈ bd.versions, ¬ withinBounds (applyOptions opts) v := by
    rw [List.eq_nil_iff_forall_not_mem]
    constructor
    · intro h v hv hw
      exact h v ((mem_filterVersions _ _ _).mpr ⟨hv, hw⟩)
    · intro h v hv
      obtain ⟨h1, h2⟩ := (mem_filterVersions _ _ _).mp hv
      exact h v h1 h2
  have hfail : (∀ v ∈ bd.versions, ¬ withinBounds (applyOptions opts) v) →
      Generate g global opts = (.error .noMatch, g, global) := by
    intro hall
    rcases Generate_found g global opts platforms bd hb ho with
      ⟨_, he⟩ | ⟨hne, _, _⟩ | ⟨v, _, _, _, hv, _⟩
    · exact he
    · exact absurd (hempty.mpr hall) hne
    · rw [hempty.mpr hall] at hv
      simp at hv
  refine ⟨⟨?_, fun hall => by rw [hfail hall]⟩, hfail, ?_⟩
  · intro herr
    rcases Generate_found g global opts platforms bd hb ho with
      ⟨hnil, _⟩ | ⟨_, _, he⟩ | ⟨v, _, _, _, _, _, _, he⟩
    · exact hempty.mp hnil
    · rw [he] at herr
      simp at herr
    · rw [he] at herr
      simp at herr
  · intro hne hlow
    apply hfail
    intro v hv hw
    have hlt := hlow v hv
    rcases hw.1 with h0 | h0
    · exact hne (List.length_eq_zero.mp h0)
    · omega

/-- C3 at a concrete input: the example catalog's newest version is
133.0.6943.98, and `Generate` with `WithMinVersion("133.0.6943.10000")` returns
the no-match error. -/
theorem C3_generate_noMatch_witness :
    exampleGenerator.store.data.lookup
      (applyOptions [WithMinVersion "133.0.6943.10000".toList]).browser
        = some [("windows", loadEntry examplePlatform)] ∧
    (loadEntry examplePlatform).versions
      = [{ Components := [133, 0, 6943, 98] }, { Components := [133, 0, 6943, 53] }] ∧
    (applyOptions [WithMinVersion "133.0.6943.10000".toList]).minVersion
      = { Components := [133, 0, 6943, 10000] } ∧
    Generate exampleGenerator zeroRand [WithMinVersion "133.0.6943.10000".toList]
      = (.error .noMatch, exampleGenerator, zeroRand) :=
  ⟨rfl, by decide, by decide,
    (C3_generate_noMatch_iff_no_version_within_bounds exampleGenerator zeroRand
      [WithMinVersion "133.0.6943.10000".toList] [("windows", loadEntry examplePlatform)]
      (loadEntry examplePlatform) rfl rfl).2.2 (by decide) (by decide)⟩

/-- C16: `Generate` returns an error and no result (and draws nothing) when the
configured browser is absent from the store, and when the browser is present but
the configured os is absent for it, whatever the bounds, the weighting flag and
the header flags; the error is a returned value, not a panic. When both are
present the outcome is never a not-found error. -/
theorem C16_generate_notFound (g : Generator) (global : Rand) (opts : List GenOption) :
    (g.store.data.lookup (applyOptions opts).browser = none →
      Generate g global opts
        = (.error (.browserNotFound (applyOptions opts).browser), g, global)) ∧
    (∀ platforms, g.store.data.lookup (applyOptions opts).browser = some platforms →
      platforms.lookup (applyOptions opts).os = none →
      Generate g global opts
        = (.error (.osNotFound (applyOptions opts).os (applyOptions opts).browser), g, global)) ∧
    (∀ platforms bd, g.store.data.lookup (applyOptions opts).browser = some platforms →
      platforms.lookup (applyOptions opts).os = some bd →
      ∀ b o, (Generate g global opts).1 ≠ .error (.browserNotFound b) ∧
        (Generate g global opts).1 ≠ .error (.osNotFound o b)) := by
  refine ⟨?_, ?_, ?_⟩
  · intro hb
    unfold Generate
    simp only [hb]
  · intro platforms hb ho
    unfold Generate
    simp only [hb, ho]
  · intro platforms bd hb ho b o
    rcases Generate_found g global opts platforms bd hb ho with
      ⟨_, he⟩ | ⟨_, _, he⟩ | ⟨v, _, _, _, _, _, _, he⟩
    · rw [he]
      simp
    · rw [he]
      simp
    · rw [he]
      simp

/-- C16 at concrete inputs: on the example catalog (chrome on windows only),
asking for firefox gives the browser-not-found error, asking for chrome on linux
gives the os-not-found error, with every header flag set and a bound given. -/
theorem C16_generate_notFound_witness :
    Generate exampleGenerator zeroRand
        [WithBrowser Firefox, WithAllClientHints, WithMinVersion "133".toList]
      = (.error (.browserNotFound "firefox"), exampleGenerator, zeroRand) ∧
    Generate exampleGenerator zeroRand
        [WithOS Linux, WithAllClientHints, WithWeightedSelection false]
      = (.error (.osNotFound "linux" "chrome"), exampleGenerator, zeroRand) ∧
    (∀ b o, (Generate exampleGenerator zeroRand [WithAllClientHints]).1
        ≠ .error (.browserNotFound b) ∧
      (Generate exampleGenerator zeroRand [WithAllClientHints]).1
        ≠ .error (.osNotFound o b)) :=
  ⟨(C16_generate_notFound exampleGenerator zeroRand
      [WithBrowser Firefox, WithAllClientHints, WithMinVersion "133".toList]).1 rfl,
    (C16_generate_notFound exampleGenerator zeroRand
      [WithOS Linux, WithAllClientHints, WithWeightedSelection false]).2.1
        [("windows", loadEntry examplePlatform)] rfl rfl,
    (C16_generate_notFound exampleGenerator zeroRand [WithAllClientHints]).2.2
      [("windows", loadEntry examplePlatform)] (loadEntry examplePlatform) rfl rfl⟩

/-- C17: a bound without components imposes no constraint: with both bounds
empty `filterVersions` returns the list unchanged. An empty `maxVersion` is not
version 0, although the empty version and `[0]` compare equal: with
`maxVersion = [0]` the version 133.0 is dropped, with `maxVersion` empty it is
kept. -/
theorem C17_empty_bound_is_no_constraint :
    (∀ (versions : List Version) (opts : generateOptions),
      opts.minVersion.Components = [] → opts.maxVersion.Components = [] →
      filterVersions versions opts = versions) ∧
    Version.Compare { Components := [] } { Components := [0] } = 0 ∧
    filterVersions [{ Components := [133, 0] }]
        (WithMaxVersionStruct { Components := [0] } defaultOptions) = [] ∧
    filterVersions [{ Components := [133, 0] }]
        (WithMaxVersionStruct { Components := [] } defaultOptions)
      = [{ Components := [133, 0] }] := by
  refine ⟨?_, by decide, by decide, by decide⟩
  intro versions opts hmin hmax
  rw [filterVersions_eq_filter, List.filter_eq_self]
  intro v _
  rw [decide_eq_true_iff]
  exact ⟨Or.inl (by rw [hmin]; rfl), Or.inl (by rw [hmax]; rfl)⟩

/-- C17 at a concrete input: three versions, one with a negative component,
pass through `filterVersions` unchanged under the default options. -/
theorem C17_empty_bound_witness :
    filterVersions [{ Components := [133, 0] }, { Components := [0] }, { Components := [-1, 5] }]
        defaultOptions
      = [{ Components := [133, 0] }, { Components := [0] }, { Components := [-1, 5] }] :=
  C17_empty_bound_is_no_constraint.1 _ defaultOptions rfl rfl

/-- C12: for every selected version and every configuration `generateHeaders`
returns a map that holds each of the ten Client-Hint names exactly when its
configuration flag is set (as a key of the map and as a successful lookup), and
holds no other name. -/
theorem C12_generateHeaders_key_iff_flag (global : Rand) (v : Version)
    (opts : generateOptions) :
    ∃ headers global1, generateHeaders global v opts = .ok (headers, global1) ∧
      (∀ kf ∈ hintFlags opts, (kf.1 ∈ headers.keys ↔ kf.2 = true)) ∧
      (∀ kf ∈ hintFlags opts, ((headers.get? kf.1).isSome = true ↔ kf.2 = true)) ∧
      (∀ key ∈ headers.keys, key ∈ clientHintKeys) ∧
      headers.keys.Nodup := by
  refine ⟨_, _, generateHeaders_eq global v opts, ?_, ?_, ?_, hintHeaders_keys_nodup _ _ _ _⟩
  · intro kf hkf
    rw [mem_keys_hintHeaders]
    exact hintFlags_flag_iff opts kf hkf
  · intro kf hkf
    rw [get?_isSome_iff, mem_keys_hintHeaders]
    exact hintFlags_flag_iff opts kf hkf
  · intro key hkey
    rw [mem_keys_hintHeaders] at hkey
    rw [← hintFlags_keys opts]
    exact List.mem_map.mpr ⟨(key, true), hkey, rfl⟩

/-- C12 at a concrete input: with the three flags of `WithClientHints` set, the
map holds exactly `Sec-CH-UA`, `Sec-CH-UA-Mobile` and `Sec-CH-UA-Platform`. -/
theorem C12_generateHeaders_witness :
    generateHeaders zeroRand { Components := [133, 0, 6943, 98] }
        (WithClientHints defaultOptions)
      = .ok ([("Sec-CH-UA".toList,
                "\"Not(A:Brand\";v=\"99\", \"Not(A:Brand\";v=\"99\", \"Google Chrome\";v=\"133\", \"Chromium\";v=\"133\"".toList),
              ("Sec-CH-UA-Mobile".toList, "?0".toList),
              ("Sec-CH-UA-Platform".toList, "\"Windows\"".toList)],
             { zeroRand with pos := 1 }) ∧
    ∃ headers global1,
      generateHeaders zeroRand { Components := [133, 0, 6943, 98] }
        (WithClientHints defaultOptions) = .ok (headers, global1) ∧
      (∀ kf ∈ hintFlags (WithClientHints defaultOptions),
        (kf.1 ∈ headers.keys ↔ kf.2 = true)) ∧
      (∀ kf ∈ hintFlags (WithClientHints defaultOptions),
        ((headers.get? kf.1).isSome = true ↔ kf.2 = true)) ∧
      (∀ key ∈ headers.keys, key ∈ clientHintKeys) ∧
      headers.keys.Nodup :=
  ⟨rfl, C12_generateHeaders_key_iff_flag zeroRand { Components := [133, 0, 6943, 98] }
    (WithClientHints defaultOptions)⟩

/-- C13: for every successful `Generate` call made with options of the package:
when `WithAllClientHints()` is among them the names of the returned header map are
exactly the ten Client-Hint names and `User-Agent`, eleven in all; when neither
`WithClientHints()` nor `WithAllClientHints()` is among them the only name is
`User-Agent`. -/
theorem C13_generate_header_names (g : Generator) (global : Rand) (ps : List PackageOption)
    (res : Result) (g2 : Generator) (global2 : Rand)
    (h : Generate g global (ps.map PackageOption.toOption) = (.ok res, g2, global2)) :
    (PackageOption.withAllClientHints ∈ ps →
      res.Headers.keys.Perm (clientHintKeys ++ ["User-Agent".toList]) ∧
      res.Headers.keys.length = 11) ∧
    (PackageOption.withClientHints ∉ ps → PackageOption.withAllClientHints ∉ ps →
      res.Headers.keys = ["User-Agent".toList]) := by
  obtain ⟨platforms, bd, v, rng1, _, _, _, _, _, hhd, _, _⟩ :=
    Generate_ok_inv g global _ res g2 global2 h
  rw [hhd]
  constructor
  · intro hall
    have hf := foldl_allHints_of_mem ps defaultOptions hall
    rw [← applyOptions_package] at hf
    have hflags : hintFlags (applyOptions (ps.map PackageOption.toOption))
        = clientHintKeys.map (fun k => (k, true)) := by
      rw [allHints_iff] at hf
      obtain ⟨h1, h2, h3, h4, h5, h6, h7, h8, h9, h10⟩ := hf
      simp [hintFlags, clientHintKeys, h1, h2, h3, h4, h5, h6, h7, h8, h9, h10]
    have hperm : (Headers.keys ((hintHeaders (drawnBrand global)
        (drawnBrand (afterSecCHUA global (applyOptions (ps.map PackageOption.toOption)))) v
        (applyOptions (ps.map PackageOption.toOption))).set "User-Agent".toList
          res.UserAgent)).Perm (clientHintKeys ++ ["User-Agent".toList]) := by
      rw [List.perm_ext_iff_of_nodup
        (nodup_keys_set _ _ _ (hintHeaders_keys_nodup _ _ _ _)) (by decide)]
      intro key
      rw [mem_keys_set, mem_keys_hintHeaders, hflags, List.mem_append, List.mem_singleton]
      simp
    exact ⟨hperm, by rw [hperm.length_eq]; rfl⟩
  · intro hn1 hn2
    have hf := foldl_noHints ps defaultOptions hn1 hn2 rfl
    rw [← applyOptions_package] at hf
    have hnone : ∀ key, key ∉ Headers.keys (hintHeaders (drawnBrand global)
        (drawnBrand (afterSecCHUA global (applyOptions (ps.map PackageOption.toOption)))) v
        (applyOptions (ps.map PackageOption.toOption))) := by
      intro key hkey
      rw [mem_keys_hintHeaders] at hkey
      have hsnd : true ∈ (hintFlags (applyOptions (ps.map PackageOption.toOption))).map
          Prod.snd := List.mem_map.mpr ⟨(key, true), hkey, rfl⟩
      rw [hf] at hsnd
      simp [List.replicate] at hsnd
    rw [keys_set, if_neg (hnone _), List.eq_nil_iff_forall_not_mem.mpr hnone]
    rfl

/-- C13 at concrete inputs: on the example catalog, `WithAllClientHints()` gives
a map with the eleven names and no option at all gives the single name
`User-Agent`. -/
theorem C13_generate_header_names_witness :
    (∃ res g2 global2,
      Generate exampleGenerator zeroRand
        ([PackageOption.withAllClientHints].map PackageOption.toOption)
          = (.ok res, g2, global2) ∧
      res.Headers.keys = clientHintKeys ++ ["User-Agent".toList] ∧
      res.Headers.keys.Perm (clientHintKeys ++ ["User-Agent".toList]) ∧
      res.Headers.keys.length = 11) ∧
    (∃ res g2 global2,
      Generate exampleGenerator zeroRand (([] : List PackageOption).map PackageOption.toOption)
          = (.ok res, g2, global2) ∧
      res.Headers.keys = ["User-Agent".toList]) :=
  ⟨⟨_, _, _, rfl, by decide,
      ((C13_generate_header_names exampleGenerator zeroRand [PackageOption.withAllClientHints]
        _ _ _ rfl).1 (List.mem_singleton.mpr rfl)).1,
      ((C13_generate_header_names exampleGenerator zeroRand [PackageOption.withAllClientHints]
        _ _ _ rfl).1 (List.mem_singleton.mpr rfl)).2⟩,
    ⟨_, _, _, rfl,
      (C13_generate_header_names exampleGenerator zeroRand [] _ _ _ rfl).2
        (List.not_mem_nil _) (List.not_mem_nil _)⟩⟩

/-- C14: for every successful `Generate` call, whatever options are given, the
returned header map has the name `User-Agent` and its value is the returned
user agent string. -/
theorem C14_generate_userAgent_header (g : Generator) (global : Rand) (opts : List GenOption)
    (res : Result) (g2 : Generator) (global2 : Rand)
    (h : Generate g global opts = (.ok res, g2, global2)) :
    "User-Agent".toList ∈ res.Headers.keys ∧
    res.Headers.get? "User-Agent".toList = some res.UserAgent := by
  obtain ⟨platforms, bd, v, rng1, _, _, _, _, _, hhd, _, _⟩ :=
    Generate_ok_inv g global opts res g2 global2 h
  rw [hhd]
  exact ⟨(mem_keys_set _ _ _ _).mpr (Or.inr rfl), get?_set_self _ _ _⟩

/-- C14 at a concrete input: `Generate` with `WithClientHints()` on the example
catalog returns a map whose `User-Agent` entry is the user agent. -/
theorem C14_generate_userAgent_header_witness :
    ∃ res g2 global2,
      Generate exampleGenerator zeroRand [WithClientHints] = (.ok res, g2, global2) ∧
      res.UserAgent
        = "Mozilla/5.0 (Windows NT 10.0; Win64; x64) Chrome/133.0.6943.98 Safari/537.36".toList ∧
      "User-Agent".toList ∈ res.Headers.keys ∧
      res.Headers.get? "User-Agent".toList = some res.UserAgent :=
  ⟨_, _, _, rfl, by decide,
    C14_generate_userAgent_header exampleGenerator zeroRand [WithClientHints] _ _ _ rfl⟩

/-- C15: for every version `v` the `Sec-CH-UA` value is exactly
`"g";v="99", "Not(A:Brand";v="99", "Google Chrome";v="M", "Chromium";v="M"` for a
grease brand `g` of the fixed set (the one the draw selects, and every brand of
the set is selected by some draw), where `M` is the decimal rendering of the first
component of `v` and `0` when `v` has no components; two versions with the same
first component give the same value, and this is the value stored under
`Sec-CH-UA` by `generateHeaders`. -/
theorem C15_secCHUA_value (v : Version) :
    (∀ global : Rand, ∃ g ∈ greaseBrands,
      formatSecCHUA global v = .ok
        ("\"".toList ++ g
          ++ "\";v=\"99\", \"Not(A:Brand\";v=\"99\", \"Google Chrome\";v=\"".toList
          ++ (match v.Components with
              | [] => "0".toList
              | c :: _ => formatInt c)
          ++ "\", \"Chromium\";v=\"".toList
          ++ (match v.Components with
              | [] => "0".toList
              | c :: _ => formatInt c)
          ++ "\"".toList,
         global.next)) ∧
    (∀ g ∈ greaseBrands, ∃ global : Rand,
      formatSecCHUA global v = .ok (secCHUAValue g (formatInt (majorOf v)), global.next)) ∧
    (∀ (global : Rand) (v2 : Version), v2.Components.head? = v.Components.head? →
      formatSecCHUA global v2 = formatSecCHUA global v) ∧
    (∀ (global : Rand) (opts : generateOptions), opts.withSecCHUA = true →
      ∃ headers global1 g, g ∈ greaseBrands ∧
        generateHeaders global v opts = .ok (headers, global1) ∧
        headers.get? "Sec-CH-UA".toList = some (secCHUAValue g (formatInt (majorOf v)))) := by
  have hmajor : (match v.Components with
      | [] => "0".toList
      | c :: _ => formatInt c) = formatInt (majorOf v) := by
    unfold majorOf
    cases v.Components <;> rfl
  refine ⟨?_, ?_, ?_, ?_⟩
  · intro global
    refine ⟨drawnBrand global, drawnBrand_mem global, ?_⟩
    rw [formatSecCHUA_eq, hmajor]
    rfl
  · intro g hg
    obtain ⟨i, hi, hgi⟩ := List.getElem_of_mem hg
    have hlen : greaseBrands.length = 3 := rfl
    refine ⟨{ src := fun _ => i, pos := 0 }, ?_⟩
    rw [formatSecCHUA_eq]
    have hd : drawnBrand { src := fun _ => i, pos := 0 } = g := by
      unfold drawnBrand
      simp only
      rw [Nat.mod_eq_of_lt (by omega), List.getD_eq_getElem _ _ hi, hgi]
    rw [hd]
  · intro global v2 hhead
    rw [formatSecCHUA_eq, formatSecCHUA_eq]
    have hm : majorOf v2 = majorOf v := by
      unfold majorOf
      cases h2 : v2.Components <;> cases h1 : v.Components <;> rw [h1, h2] at hhead <;>
        simp at hhead ⊢
      exact hhead
    rw [hm]
  · intro global opts hflag
    exact ⟨_, _, drawnBrand global, drawnBrand_mem global, generateHeaders_eq global v opts,
      get?_hintHeaders_secCHUA _ _ v opts hflag⟩

/-- C15 at concrete inputs: the values for 133.0.6943.98 with the first brand,
for a version without components, and the equality of the values of 133 and
133.0.6943.98. -/
theorem C15_secCHUA_value_witness :
    formatSecCHUA zeroRand { Components := [133, 0, 6943, 98] }
      = .ok ("\"Not(A:Brand\";v=\"99\", \"Not(A:Brand\";v=\"99\", \"Google Chrome\";v=\"133\", \"Chromium\";v=\"133\"".toList,
             { zeroRand with pos := 1 }) ∧
    formatSecCHUA { src := fun _ => 1, pos := 0 } { Components := [] }
      = .ok ("\"Not?A_Brand\";v=\"99\", \"Not(A:Brand\";v=\"99\", \"Google Chrome\";v=\"0\", \"Chromium\";v=\"0\"".toList,
             { src := fun _ => 1, pos := 1 }) ∧
    formatSecCHUA zeroRand { Components := [133] }
      = formatSecCHUA zeroRand { Components := [133, 0, 6943, 98] } ∧
    ∃ headers global1 g, g ∈ greaseBrands ∧
      generateHeaders zeroRand { Components := [133, 0, 6943, 98] }
        (WithClientHints defaultOptions) = .ok (headers, global1) ∧
      headers.get? "Sec-CH-UA".toList
        = some (secCHUAValue g (formatInt (majorOf { Components := [133, 0, 6943, 98] }))) :=
  ⟨rfl, rfl,
    (C15_secCHUA_value { Components := [133, 0, 6943, 98] }).2.2.1 zeroRand
      { Components := [133] } rfl,
    (C15_secCHUA_value { Components := [133, 0, 6943, 98] }).2.2.2 zeroRand
      (WithClientHints defaultOptions) rfl⟩

/-- C18: the decoder skips malformed parts without failing. A node of
unrecognized shape emits no version for any prefix. In a keyed tree and in a leaf
list every entry contributes exactly what it would contribute alone, and an entry
with a non-numeric key, a non-numeric leaf or a child of unrecognized shape
contributes nothing. A tree all of whose entries are malformed decodes to the
empty list. -/
theorem C18_decoder_skips_malformed :
    (∀ pre : List Int, parseVersions pre .other = []) ∧
    toInt .other = none ∧
    (∀ (pre : List Int) (before after : List (Scalar × Node)) (key : Scalar) (val : Node),
      parseVersions pre (.mapAny (before ++ (key, val) :: after))
        = parseVersions pre (.mapAny before) ++ parseVersions pre (.mapAny [(key, val)])
            ++ parseVersions pre (.mapAny after)) ∧
    (∀ (pre : List Int) (key : Scalar) (val : Node), toInt key = none →
      parseVersions pre (.mapAny [(key, val)]) = []) ∧
    (∀ (pre : List Int) (before after : List (Int × Node)) (key : Int) (val : Node),
      parseVersions pre (.mapInt (before ++ (key, val) :: after))
        = parseVersions pre (.mapInt before) ++ parseVersions pre (.mapInt [(key, val)])
            ++ parseVersions pre (.mapInt after)) ∧
    (∀ (pre : List Int) (key : Int), parseVersions pre (.mapInt [(key, .other)]) = []) ∧
    (∀ (pre : List Int) (key : Scalar), parseVersions pre (.mapAny [(key, .other)]) = []) ∧
    (∀ (pre : List Int) (before after : List Scalar) (item : Scalar),
      parseVersions pre (.sliceAny (before ++ item :: after))
        = parseVersions pre (.sliceAny before) ++ parseVersions pre (.sliceAny [item])
            ++ parseVersions pre (.sliceAny after)) ∧
    (∀ (pre : List Int) (item : Scalar), toInt item = none →
      parseVersions pre (.sliceAny [item]) = []) ∧
    (∀ (pre : List Int) (kvs : List (Scalar × Node)),
      (∀ kv ∈ kvs, toInt kv.1 = none ∨ kv.2 = .other) →
      parseVersions pre (.mapAny kvs) = []) ∧
    (∀ (pre : List Int) (kvs : List (Int × Node)), (∀ kv ∈ kvs, kv.2 = .other) →
      parseVersions pre (.mapInt kvs) = []) ∧
    (∀ (pre : List Int) (items : List Scalar), (∀ item ∈ items, toInt item = none) →
      parseVersions pre (.sliceAny items) = []) := by
  refine ⟨?_, rfl, ?_, ?_, ?_, ?_, ?_, ?_, ?_, ?_, ?_, ?_⟩
  · intro pre
    rw [parseVersions]
  · intro pre before after key val
    simp only [parseVersions, parseMapAny_eq, List.flatMap_append, List.flatMap_cons,
      List.flatMap_nil, List.append_nil, List.append_assoc]
  · intro pre key val hk
    simp only [parseVersions, parseMapAny_eq, List.flatMap_cons, List.flatMap_nil, hk,
      List.append_nil]
  · intro pre before after key val
    simp only [parseVersions, parseMapInt_eq, List.flatMap_append, List.flatMap_cons,
      List.flatMap_nil, List.append_nil, List.append_assoc]
  · intro pre key
    simp only [parseVersions, parseMapInt_eq, List.flatMap_cons, List.flatMap_nil,
      List.append_nil]
  · intro pre key
    simp only [parseVersions, parseMapAny_eq, List.flatMap_cons, List.flatMap_nil,
      List.append_nil]
    cases toInt key with
    | none => rfl
    | some keyInt => simp [parseVersions]
  · intro pre before after item
    simp only [parseVersions, parseItemsAny_eq, List.filterMap_append, List.map_append,
      List.filterMap_cons, List.filterMap_nil]
    cases toInt item <;> simp
  · intro pre item hi
    simp only [parseVersions, parseItemsAny_eq, List.filterMap_cons, List.filterMap_nil, hi,
      List.map_nil]
  · intro pre kvs hall
    rw [parseVersions, parseMapAny_eq, List.flatMap_eq_nil_iff]
    intro kv hkv
    rcases hall kv hkv with h | h
    · rw [h]
    · cases toInt kv.1 with
      | none => rfl
      | some keyInt =>
        simp only [h]
        rw [parseVersions]
  · intro pre kvs hall
    rw [parseVersions, parseMapInt_eq, List.flatMap_eq_nil_iff]
    intro kv hkv
    rw [hall kv hkv, parseVersions]
  · intro pre items hall
    rw [parseVersions, parseItemsAny_eq]
    have hnil : items.filterMap toInt = [] := by
      rw [List.filterMap_eq_nil_iff]
      exact hall
    rw [hnil]
    rfl

/-- C18 at concrete inputs: in `{133: {"x": [1], 0: {6943: [53, "a", 98], 7: "s"}}}`
the string key, the string leaf and the string node are skipped and the two
well-formed leaves are decoded; a tree with only string keys decodes to nothing. -/
theorem C18_decoder_skips_malformed_witness :
    parseVersions [] (.mapInt [(133, .mapAny [(.other, .sliceInt [1]),
        (.int 0, .mapAny [(.int 6943, .sliceAny [.int 53, .other, .int 98]),
                          (.int 7, .other)])])])
      = [{ Components := [133, 0, 6943, 53] }, { Components := [133, 0, 6943, 98] }] ∧
    parseVersions [] (.mapAny [(.other, .sliceInt [1]), (.other, .null)]) = [] :=
  ⟨by decide,
    C18_decoder_skips_malformed.2.2.2.2.2.2.2.2.2.1 []
      [(.other, .sliceInt [1]), (.other, .null)]
      (fun kv hkv => by
        rcases List.mem_cons.mp hkv with rfl | hkv
        · exact Or.inl rfl
        · rw [List.mem_singleton.mp hkv]
          exact Or.inl rfl)⟩

/-- C19: `String v` is the decimal renderings of the components of `v` joined
by a dot: the renderings are non-empty and contain no dot, the string has one dot
fewer than `v` has components (no padding), it neither starts nor ends with a
dot, and a version without components renders as the empty string. `[145, 2]`
renders as `145.2`, not as `145.2.0.0`. -/
theorem C19_String_joins_components (v : Version) :
    v.String = List.intercalate ".".toList (v.Components.map formatInt) ∧
    (∀ c ∈ v.Components, formatInt c ≠ [] ∧ '.' ∉ formatInt c) ∧
    v.String.count '.' = v.Components.length - 1 ∧
    (v.Components ≠ [] → v.String.head? ≠ some '.' ∧ v.String.getLast? ≠ some '.') ∧
    (v.Components = [] → v.String = []) ∧
    Version.String { Components := [145, 2] } = "145.2".toList ∧
    Version.String { Components := [145, 2] } ≠ "145.2.0.0".toList ∧
    Version.String { Components := [] } = "".toList := by
  have hnodot : ∀ p ∈ v.Components.map formatInt, '.' ∉ p := by
    intro p hp
    obtain ⟨c, _, rfl⟩ := List.mem_map.mp hp
    exact formatInt_no_dot c
  have hnonempty : ∀ p ∈ v.Components.map formatInt, p ≠ [] := by
    intro p hp
    obtain ⟨c, _, rfl⟩ := List.mem_map.mp hp
    exact formatInt_ne_nil c
  refine ⟨Join_eq_intercalate _ _, fun c _ => ⟨formatInt_ne_nil c, formatInt_no_dot c⟩, ?_,
    ?_, ?_, by decide, by decide, by decide⟩
  · have h := Join_dot_count (v.Components.map formatInt) hnodot
    rw [List.length_map] at h
    exact h
  · intro hne
    constructor
    · obtain ⟨c, rest, hc⟩ := List.exists_cons_of_ne_nil hne
      have hh := Join_head (v.Components.map formatInt) (formatInt c) (rest.map formatInt)
        (by rw [hc]; rfl) (formatInt_ne_nil c)
      intro hdot
      have hmem : '.' ∈ formatInt c := by
        have h2 : (formatInt c).head? = some '.' := hh.symm.trans hdot
        exact List.mem_of_mem_head? h2
      exact formatInt_no_dot c hmem
    · obtain ⟨p, hp, hlast⟩ := Join_getLast (v.Components.map formatInt) hnonempty
        (by intro hc; exact hne (List.map_eq_nil_iff.mp hc))
      intro hdot
      have h2 : p.getLast? = some '.' := hlast.symm.trans hdot
      exact hnodot p hp (List.mem_of_mem_getLast? h2)
  · intro hnil
    unfold Version.String
    rw [hnil]
    rfl

/-- C19 at a concrete input: 133.0.6943.98 renders with three dots, none of
them leading or trailing. -/
theorem C19_String_joins_components_witness :
    Version.String { Components := [133, 0, 6943, 98] } = "133.0.6943.98".toList ∧
    (Version.String { Components := [133, 0, 6943, 98] }).head? ≠ some '.' ∧
    (Version.String { Components := [133, 0, 6943, 98] }).getLast? ≠ some '.' :=
  ⟨by decide,
    (C19_String_joins_components { Components := [133, 0, 6943, 98] }).2.2.2.1 (by decide)⟩

/-- C20: `Generate` is not determined by the configuration, the catalog and the
generator's own random source: the grease brand is drawn from the package-level
source. Two calls with `WithClientHints()` on the example catalog, the
generator's source in the same state, return the same user agent but different
`Sec-CH-UA` values when the package-level source delivers 0 and then 1. What does
hold: the user agent never depends on the package-level source, and neither does
the whole result when neither brand-list flag is set. -/
theorem C20_grease_brand_ignores_generator_source :
    (∃ res1 res2 g1 g2 gl1 gl2,
      Generate exampleGenerator zeroRand [WithClientHints] = (.ok res1, g1, gl1) ∧
      Generate exampleGenerator oneRand [WithClientHints] = (.ok res2, g2, gl2) ∧
      res1.UserAgent = res2.UserAgent ∧
      res1.Headers.get? "Sec-CH-UA".toList = some
        "\"Not(A:Brand\";v=\"99\", \"Not(A:Brand\";v=\"99\", \"Google Chrome\";v=\"133\", \"Chromium\";v=\"133\"".toList ∧
      res2.Headers.get? "Sec-CH-UA".toList = some
        "\"Not?A_Brand\";v=\"99\", \"Not(A:Brand\";v=\"99\", \"Google Chrome\";v=\"133\", \"Chromium\";v=\"133\"".toList ∧
      res1.Headers ≠ res2.Headers) ∧
    (∀ (g : Generator) (global global2 : Rand) (opts : List GenOption),
      (Generate g global opts).1.map (fun res => res.UserAgent)
        = (Generate g global2 opts).1.map (fun res => res.UserAgent)) ∧
    (∀ (g : Generator) (global global2 : Rand) (opts : List GenOption),
      (applyOptions opts).withSecCHUA = false →
      (applyOptions opts).withSecCHUAFullVersion = false →
      (Generate g global opts).1 = (Generate g global2 opts).1) := by
  refine ⟨⟨_, _, _, _, _, _, rfl, rfl, by decide, by decide, by decide, by decide⟩, ?_, ?_⟩
  · intro g global global2 opts
    exact (Generate_userAgent_indep g global global2 opts).1
  · intro g global global2 opts h1 h2
    exact Generate_result_indep g global global2 opts h1 h2

/-- C21: round trip. For every version whose components are values of Go's
64-bit `int` (the non-negative ones in particular, and the version without
components), `parseVersionString (String v)` has exactly the components of `v`;
so the version string printed in a user agent, given to `WithMinVersion` or
`WithMaxVersion`, sets the bound to `v` itself. -/
theorem C21_parse_String_round_trip (v : Version)
    (h : ∀ c ∈ v.Components, -((2 : Int) ^ 63) ≤ c ∧ c < (2 : Int) ^ 63) :
    parseVersionString v.String = v ∧
    (parseVersionString v.String).Components = v.Components ∧
    (∀ o : generateOptions, (WithMinVersion v.String o).minVersion = v) ∧
    (∀ o : generateOptions, (WithMaxVersion v.String o).maxVersion = v) := by
  have hrt := parseVersionString_String v h
  refine ⟨hrt, by rw [hrt], ?_, ?_⟩
  · intro o
    exact hrt
  · intro o
    exact hrt

/-- C21 at concrete inputs: 133.0.6943.98 and the version without components
survive the round trip. -/
theorem C21_parse_String_round_trip_witness :
    Version.String { Components := [133, 0, 6943, 98] } = "133.0.6943.98".toList ∧
    parseVersionString (Version.String { Components := [133, 0, 6943, 98] })
      = { Components := [133, 0, 6943, 98] } ∧
    parseVersionString (Version.String { Components := [] }) = { Components := [] } ∧
    (WithMinVersion (Version.String { Components := [133, 0, 6943, 98] })
        defaultOptions).minVersion = { Components := [133, 0, 6943, 98] } :=
  ⟨by decide,
    (C21_parse_String_round_trip { Components := [133, 0, 6943, 98] } (by decide)).1,
    (C21_parse_String_round_trip { Components := [] } (by decide)).1,
    (C21_parse_String_round_trip { Components := [133, 0, 6943, 98] } (by decide)).2.2.1
      defaultOptions⟩

/-- C23: the update tool and the decoder agree. For every list of versions of
exactly 4 components (in any order, repeats allowed), the tree obtained from the
empty tree by one `addToMap` per version decodes, from the empty prefix, to
exactly the inserted versions, each exactly once; the order of insertion does
not matter; the tree has the tool's shape, with every leaf list strictly
ascending; adding an inserted version again leaves the tree unchanged. -/
theorem C23_update_tool_and_decoder_agree (versions : List (List Int))
    (h : ∀ comps ∈ versions, comps.length = 4) :
    (parseVersions [] (.mapInt (addAll [] versions))).Nodup ∧
    (∀ v : Version, v ∈ parseVersions [] (.mapInt (addAll [] versions)) ↔
      v.Components ∈ versions) ∧
    (parseVersions [] (.mapInt (addAll [] versions))).Perm
      ((versions.map (fun comps => ({ Components := comps } : Version))).dedup) ∧
    (∀ versions2 : List (List Int), versions2.Perm versions →
      (parseVersions [] (.mapInt (addAll [] versions2))).Perm
        (parseVersions [] (.mapInt (addAll [] versions)))) ∧
    Shaped 2 (addAll [] versions) ∧
    (∀ comps ∈ versions, addToMap (addAll [] versions) comps = addAll [] versions) ∧
    (∀ (m : List (Int × Node)) (comps : List Int), Shaped 2 m → comps.length = 4 →
      addToMap (addToMap m comps) comps = addToMap m comps) := by
  have hmemOf : ∀ vs : List (List Int), (∀ comps ∈ vs, comps.length = 4) →
      Shaped 2 (addAll [] vs) ∧
      (parseVersions [] (.mapInt (addAll [] vs))).Nodup ∧
      ∀ v : Version, v ∈ parseVersions [] (.mapInt (addAll [] vs)) ↔ v.Components ∈ vs := by
    intro vs hvs
    obtain ⟨hs, hmem⟩ := addAll_spec 2 vs [] [] (Shaped_nil 2) hvs
    refine ⟨hs, parseVersions_nodup [] _ (Shaped_noRepeats 2 _ hs), ?_⟩
    intro v
    rw [parseVersions, hmem]
    simp only [parseMapInt, List.not_mem_nil, false_or, List.nil_append]
    constructor
    · rintro ⟨comps, hc, rfl⟩
      exact hc
    · intro hv
      exact ⟨v.Components, hv, rfl⟩
  obtain ⟨hs, hnd, hmem⟩ := hmemOf versions h
  refine ⟨hnd, hmem, ?_, ?_, hs, ?_, ?_⟩
  · rw [List.perm_ext_iff_of_nodup hnd (List.nodup_dedup _)]
    intro v
    rw [hmem, List.mem_dedup, List.mem_map]
    constructor
    · intro hv
      exact ⟨v.Components, hv, rfl⟩
    · rintro ⟨comps, hc, rfl⟩
      exact hc
  · intro versions2 hperm
    obtain ⟨_, hnd2, hmem2⟩ := hmemOf versions2 (fun comps hc => h comps (hperm.subset hc))
    rw [List.perm_ext_iff_of_nodup hnd2 hnd]
    intro v
    rw [hmem2, hmem]
    exact hperm.mem_iff
  · intro comps hc
    apply addToMap_of_mem 2 _ comps [] hs (h comps hc)
    have hv := (hmem { Components := comps }).mpr hc
    rw [parseVersions] at hv
    exact hv
  · intro m comps hsm hlen
    exact addToMap_idempotent 2 m comps hsm hlen

/-- C23 at a concrete input: four insertions with one repeat, out of order,
give the tree `{133: {0: {6943: [53, 98]}}, 134: {0: {1: [2]}}}`, which decodes
to the three distinct versions. -/
theorem C23_update_tool_witness :
    addAll [] [[133, 0, 6943, 98], [134, 0, 1, 2], [133, 0, 6943, 53], [133, 0, 6943, 98]]
      = [(133, .mapInt [(0, .mapInt [(6943, .sliceInt [53, 98])])]),
         (134, .mapInt [(0, .mapInt [(1, .sliceInt [2])])])] ∧
    parseVersions [] (.mapInt (addAll []
        [[133, 0, 6943, 98], [134, 0, 1, 2], [133, 0, 6943, 53], [133, 0, 6943, 98]]))
      = [{ Components := [133, 0, 6943, 53] }, { Components := [133, 0, 6943, 98] },
         { Components := [134, 0, 1, 2] }] ∧
    (parseVersions [] (.mapInt (addAll []
        [[133, 0, 6943, 98], [134, 0, 1, 2], [133, 0, 6943, 53], [133, 0, 6943, 98]]))).Nodup ∧
    Shaped 2 (addAll []
        [[133, 0, 6943, 98], [134, 0, 1, 2], [133, 0, 6943, 53], [133, 0, 6943, 98]]) :=
  ⟨rfl, by decide,
    (C23_update_tool_and_decoder_agree
      [[133, 0, 6943, 98], [134, 0, 1, 2], [133, 0, 6943, 53], [133, 0, 6943, 98]]
      (by decide)).1,
    (C23_update_tool_and_decoder_agree
      [[133, 0, 6943, 98], [134, 0, 1, 2], [133, 0, 6943, 53], [133, 0, 6943, 98]]
      (by decide)).2.2.2.2.1⟩

/-- C11: weighted selection in the arithmetic of an `int` of `bits` bits. While
the sum `n(n+1)/2` is within the range of the `int`, the loop returns, for a draw
`r` below it, the element at the least index `i` whose cumulative weight
`n + (n-1) + ... + (n-i)` exceeds `r`; while `n * (n + 1)` is within the range,
so does `selectVersion` with the weighting flag set, for the draw its source
delivers. Exactly `n - i` of the `n(n+1)/2` draws have least index `i`: `n` for
the newest element and one for the oldest; for a list without duplicates these
are the draws that return that very element. Beyond the range the code departs
from this: `n * (n + 1)` wraps around, and with 46341 candidates on a 32-bit
platform (3037000500 on a 64-bit one) the bound is negative and the call panics,
while with 65536 candidates (4294967296 on 64 bits) the bound is `n / 2`, every
draw is below the weight of index 0 and the first candidate is returned whatever
the source delivers. -/
theorem C11_weighted_selection_least_index :
    (∀ (bits : Nat) (versions : List Version) (r : Nat), 0 < versions.length →
      (versions.length * (versions.length + 1)) / 2 < 2 ^ (bits - 1) →
      r < (versions.length * (versions.length + 1)) / 2 →
      ∃ i, ∃ hi : i < versions.length, LeastExceeding versions.length r i ∧
        weightedLoop bits (versions.length : Int) (r : Int) versions 0 0
          = some (versions.get ⟨i, hi⟩)) ∧
    (∀ (bits : Nat) (rng : Rand) (versions : List Version), 0 < versions.length →
      versions.length * (versions.length + 1) < 2 ^ (bits - 1) →
      ∃ i, ∃ hi : i < versions.length,
        LeastExceeding versions.length
          (rng.src rng.pos % ((versions.length * (versions.length + 1)) / 2)) i ∧
        selectVersion bits rng versions true = .ok (versions.get ⟨i, hi⟩, rng.next)) ∧
    (∀ n i : Nat, i < n →
      ((Finset.range ((n * (n + 1)) / 2)).filter (fun r => LeastExceeding n r i)).card
        = n - i) ∧
    (∀ n : Nat, 0 < n →
      ((Finset.range ((n * (n + 1)) / 2)).filter (fun r => LeastExceeding n r 0)).card = n ∧
      ((Finset.range ((n * (n + 1)) / 2)).filter
        (fun r => LeastExceeding n r (n - 1))).card = 1) ∧
    (∀ (bits : Nat) (versions : List Version) (i : Nat) (hi : i < versions.length),
      (versions.length * (versions.length + 1)) / 2 < 2 ^ (bits - 1) → versions.Nodup →
      ((Finset.range ((versions.length * (versions.length + 1)) / 2)).filter
        (fun r : Nat => weightedLoop bits (versions.length : Int) (r : Int) versions 0 0
          = some (versions.get ⟨i, hi⟩))).card = versions.length - i) ∧
    (∀ (rng : Rand) (versions : List Version), versions.length = 46341 →
      selectVersion 32 rng versions true = .error .panic) ∧
    (∀ (rng : Rand) (versions : List Version), versions.length = 3037000500 →
      selectVersion intSize rng versions true = .error .panic) ∧
    (∀ (rng : Rand) (versions : List Version), versions.length = 65536 →
      ∃ v, versions.head? = some v ∧
        selectVersion 32 rng versions true = .ok (v, rng.next)) ∧
    (∀ (rng : Rand) (versions : List Version), versions.length = 4294967296 →
      ∃ v, versions.head? = some v ∧
        selectVersion intSize rng versions true = .ok (v, rng.next)) := by
  refine ⟨fun bits versions r _ hfit hr => weightedLoop_least bits versions r hfit hr,
    fun bits rng versions hlen hfit => selectVersion_weighted bits rng versions hlen hfit,
    count_leastExceeding, ?_, ?_, ?_, ?_, ?_, ?_⟩
  · intro n hn
    refine ⟨count_leastExceeding n 0 hn, ?_⟩
    rw [count_leastExceeding n (n - 1) (by omega)]
    omega
  · intro bits versions i hi hfit hnd
    rw [← count_leastExceeding versions.length i hi]
    congr 1
    apply Finset.filter_congr
    intro r hr
    rw [Finset.mem_range] at hr
    obtain ⟨j, hj, hleast, hloop⟩ := weightedLoop_least bits versions r hfit hr
    rw [hloop]
    constructor
    · intro h
      have hget : versions.get ⟨j, hj⟩ = versions.get ⟨i, hi⟩ := Option.some.inj h
      have hij : (⟨j, hj⟩ : Fin versions.length) = ⟨i, hi⟩ :=
        (List.nodup_iff_injective_get.mp hnd) hget
      have hji : j = i := congrArg Fin.val hij
      rw [← hji]
      exact hleast
    · intro h
      have hji : j = i := leastExceeding_unique _ _ _ _ hleast h
      subst hji
      rfl
  · intro rng versions hlen
    apply selectVersion_panic 32 rng versions (by omega)
    rw [hlen]
    decide
  · intro rng versions hlen
    apply selectVersion_panic intSize rng versions (by omega)
    rw [hlen]
    decide
  · intro rng versions hlen
    cases versions with
    | nil => simp at hlen
    | cons v rest =>
      refine ⟨v, rfl, selectVersion_first 32 rng v rest ?_ ?_ ?_⟩
      · rw [List.length_cons] at hlen
        omega
      · rw [hlen]
        decide
      · rw [hlen]
        decide
  · intro rng versions hlen
    cases versions with
    | nil => simp at hlen
    | cons v rest =>
      refine ⟨v, rfl, selectVersion_first intSize rng v rest ?_ ?_ ?_⟩
      · rw [List.length_cons] at hlen
        omega
      · rw [hlen]
        decide
      · rw [hlen]
        decide

/-- C11 at concrete inputs: three candidates, six draws on a 64-bit platform:
draws 0, 1, 2 return the newest, 3 and 4 the middle one, 5 the oldest; a list of
46341 candidates makes the 32-bit call panic, and of a list of 65536 candidates
the 32-bit call returns the first one although the source delivers 40000. -/
theorem C11_weighted_selection_witness :
    (List.range 6).map (fun r : Nat => weightedLoop intSize 3 (r : Int)
        [{ Components := [135] }, { Components := [134] }, { Components := [133] }] 0 0)
      = [some { Components := [135] }, some { Components := [135] }, some { Components := [135] },
         some { Components := [134] }, some { Components := [134] },
         some { Components := [133] }] ∧
    ((Finset.range ((3 * (3 + 1)) / 2)).filter (fun r => LeastExceeding 3 r 0)).card = 3 ∧
    ((Finset.range ((3 * (3 + 1)) / 2)).filter (fun r => LeastExceeding 3 r (3 - 1))).card = 1 ∧
    ((Finset.range ((3 * (3 + 1)) / 2)).filter
      (fun r : Nat => weightedLoop intSize
        (([{ Components := [135] }, { Components := [134] }, { Components := [133] }] :
          List Version).length : Int) (r : Int)
        [{ Components := [135] }, { Components := [134] }, { Components := [133] }] 0 0
          = some { Components := [134] })).card = 3 - 1 ∧
    selectVersion 32 zeroRand (List.replicate 46341 { Components := [133] }) true
      = .error .panic ∧
    (∃ v, (List.replicate 65536 ({ Components := [133] } : Version)).head? = some v ∧
      selectVersion 32 { src := fun _ => 40000, pos := 0 }
        (List.replicate 65536 { Components := [133] }) true
        = .ok (v, Rand.next { src := fun _ => 40000, pos := 0 })) :=
  ⟨by decide,
    (C11_weighted_selection_least_index.2.2.2.1 3 (by decide)).1,
    (C11_weighted_selection_least_index.2.2.2.1 3 (by decide)).2,
    C11_weighted_selection_least_index.2.2.2.2.1 intSize
      [{ Components := [135] }, { Components := [134] }, { Components := [133] }] 1
      (by decide) (by decide) (by decide),
    C11_weighted_selection_least_index.2.2.2.2.2.1 zeroRand _ (List.length_replicate _ _),
    C11_weighted_selection_least_index.2.2.2.2.2.2.2.1 _ _ (List.length_replicate _ _)⟩

/-- C22: safety of `selectVersion` in the arithmetic of an `int` of `bits` bits.
While `n * (n + 1)` is within the range of the `int`, the bound of the weighted
draw is the positive sum `n(n+1)/2`; an unweighted draw below `n` is an index of
the list, and unweighted selection returns a candidate whatever the width; for a
weighted draw below `n(n+1)/2` the loop returns an element and never falls
through to `versions[0]`; the call returns normally, and what it returns is one
of the candidates. `Generate` calls it only on a non-empty list: with no
candidate it returns the no-match error without drawing. Beyond the range the
code is not safe: `n * (n + 1)` wraps around, the bound is negative and `Intn`
panics, with 46341 candidates on a 32-bit platform and with 3037000500 on a
64-bit one, where `Generate` with the weighting flag set panics too. -/
theorem C22_selectVersion_safe :
    (∀ (bits n : Nat), 1 ≤ n → n * (n + 1) < 2 ^ (bits - 1) →
      totalWeight bits (n : Int) = (((n * (n + 1)) / 2 : Nat) : Int) ∧
      0 < totalWeight bits (n : Int)) ∧
    (∀ (versions : List Version) (r : Nat), r < versions.length →
      ∃ v, versions[r]? = some v ∧ v ∈ versions) ∧
    (∀ (bits : Nat) (rng : Rand) (versions : List Version), 1 ≤ versions.length →
      ∃ v, selectVersion bits rng versions false = .ok (v, rng.next) ∧ v ∈ versions) ∧
    (∀ (bits : Nat) (versions : List Version) (r : Nat), 1 ≤ versions.length →
      (versions.length * (versions.length + 1)) / 2 < 2 ^ (bits - 1) →
      r < (versions.length * (versions.length + 1)) / 2 →
      ∃ v, weightedLoop bits (versions.length : Int) (r : Int) versions 0 0 = some v ∧
        v ∈ versions) ∧
    (∀ (bits : Nat) (rng : Rand) (versions : List Version) (weighted : Bool),
      1 ≤ versions.length → versions.length * (versions.length + 1) < 2 ^ (bits - 1) →
      ∃ v, selectVersion bits rng versions weighted = .ok (v, rng.next) ∧ v ∈ versions) ∧
    (∀ (g : Generator) (global : Rand) (opts : List GenOption)
        (platforms : List (OSName × browserData)) (bd : browserData),
      g.store.data.lookup (applyOptions opts).browser = some platforms →
      platforms.lookup (applyOptions opts).os = some bd →
      (filterVersions bd.versions (applyOptions opts) = [] ∧
        Generate g global opts = (.error .noMatch, g, global)) ∨
      (filterVersions bd.versions (applyOptions opts) ≠ [] ∧
        ((filterVersions bd.versions (applyOptions opts)).length
            * ((filterVersions bd.versions (applyOptions opts)).length + 1)
          < 2 ^ (intSize - 1) →
          ∃ v, v ∈ filterVersions bd.versions (applyOptions opts) ∧
            selectVersion intSize g.rng (filterVersions bd.versions (applyOptions opts))
              (applyOptions opts).withWeight = .ok (v, g.rng.next) ∧
            (Generate g global opts).2.1 = { g with rng := g.rng.next }))) ∧
    (∀ (rng : Rand) (versions : List Version), versions.length = 46341 →
      totalWeight 32 (versions.length : Int) = -1073716337 ∧
      selectVersion 32 rng versions true = .error .panic) ∧
    (∀ (rng : Rand) (versions : List Version), versions.length = 3037000500 →
      totalWeight intSize (versions.length : Int) = -4611686016836150558 ∧
      selectVersion intSize rng versions true = .error .panic) ∧
    (∀ (g : Generator) (global : Rand) (opts : List GenOption)
        (platforms : List (OSName × browserData)) (bd : browserData),
      g.store.data.lookup (applyOptions opts).browser = some platforms →
      platforms.lookup (applyOptions opts).os = some bd →
      (filterVersions bd.versions (applyOptions opts)).length = 3037000500 →
      (applyOptions opts).withWeight = true →
      Generate g global opts = (.error .panic, g, global)) := by
  refine ⟨?_, ?_, ?_, ?_, ?_, ?_, ?_, ?_, ?_⟩
  · intro bits n hn hfit
    rw [totalWeight_exact bits n hn hfit]
    exact ⟨rfl, by exact_mod_cast triangular_pos n hn⟩
  · intro versions r hr
    exact ⟨versions[r], List.getElem?_eq_getElem hr, List.getElem_mem _⟩
  · intro bits rng versions hlen
    obtain ⟨hlt, h⟩ := selectVersion_unweighted bits rng versions hlen
    exact ⟨_, h, List.get_mem _ _ _⟩
  · intro bits versions r _ hfit hr
    obtain ⟨i, hi, _, hloop⟩ := weightedLoop_least bits versions r hfit hr
    exact ⟨_, hloop, List.get_mem _ _ _⟩
  · intro bits rng versions weighted hlen hfit
    exact selectVersion_ok bits rng versions weighted hlen (fun _ => hfit)
  · intro g global opts platforms bd hb ho
    rcases Generate_found g global opts platforms bd hb ho with
      ⟨hnil, he⟩ | ⟨hne, hpanic, _⟩ | ⟨v, rng1, hd, gl, hv, hsel, _, he⟩
    · exact Or.inl ⟨hnil, he⟩
    · refine Or.inr ⟨hne, fun hfit => ?_⟩
      obtain ⟨v, hsel, _⟩ := selectVersion_ok intSize g.rng _ (applyOptions opts).withWeight
        (List.length_pos.mpr hne) (fun _ => hfit)
      rw [hsel] at hpanic
      simp at hpanic
    · refine Or.inr ⟨List.ne_nil_of_mem hv, fun hfit => ?_⟩
      obtain ⟨v2, hsel2, hv2⟩ := selectVersion_ok intSize g.rng _
        (applyOptions opts).withWeight (List.length_pos.mpr (List.ne_nil_of_mem hv))
        (fun _ => hfit)
      refine ⟨v2, hv2, hsel2, ?_⟩
      rw [hsel] at hsel2
      simp only [Except.ok.injEq, Prod.mk.injEq] at hsel2
      rw [he, hsel2.2]
  · intro rng versions hlen
    have ht : totalWeight 32 (versions.length : Int) = -1073716337 := by
      rw [hlen]
      decide
    refine ⟨ht, selectVersion_panic 32 rng versions (by omega) ?_⟩
    rw [ht]
    decide
  · intro rng versions hlen
    have ht : totalWeight intSize (versions.length : Int) = -4611686016836150558 := by
      rw [hlen]
      decide
    refine ⟨ht, selectVersion_panic intSize rng versions (by omega) ?_⟩
    rw [ht]
    decide
  · intro g global opts platforms bd hb ho hlen hw
    apply Generate_panic g global opts platforms bd hb ho
    rw [hw]
    apply selectVersion_panic intSize g.rng _ (by omega)
    rw [hlen]
    decide

/-- C22 at concrete inputs: on three candidates every one of the six weighted
draws returns a candidate, `selectVersion` returns normally with either flag, and
`Generate` with a bound above every version stops at the no-match error; on
46341 candidates the 32-bit call panics, and `Generate` without options panics
on a catalog entry of 3037000500 versions. -/
theorem C22_selectVersion_safe_witness :
    (∀ r ∈ List.range 6, ∃ v,
      weightedLoop intSize
        (([{ Components := [135] }, { Components := [134] }, { Components := [133] }] :
          List Version).length : Int) (r : Int)
        [{ Components := [135] }, { Components := [134] }, { Components := [133] }]
        0 0 = some v ∧
      v ∈ [({ Components := [135] } : Version), { Components := [134] }, { Components := [133] }]) ∧
    (∃ v, selectVersion intSize oneRand
        [{ Components := [135] }, { Components := [134] }, { Components := [133] }] true
          = .ok (v, oneRand.next) ∧
      v ∈ [({ Components := [135] } : Version), { Components := [134] }, { Components := [133] }]) ∧
    ((filterVersions (loadEntry examplePlatform).versions
        (applyOptions [WithMinVersion "134".toList]) = [] ∧
      Generate exampleGenerator zeroRand [WithMinVersion "134".toList]
        = (.error .noMatch, exampleGenerator, zeroRand)) ∨
     (filterVersions (loadEntry examplePlatform).versions
        (applyOptions [WithMinVersion "134".toList]) ≠ [] ∧
      ((filterVersions (loadEntry examplePlatform).versions
            (applyOptions [WithMinVersion "134".toList])).length
          * ((filterVersions (loadEntry examplePlatform).versions
            (applyOptions [WithMinVersion "134".toList])).length + 1)
        < 2 ^ (intSize - 1) →
        ∃ v, v ∈ filterVersions (loadEntry examplePlatform).versions
            (applyOptions [WithMinVersion "134".toList]) ∧
          selectVersion intSize exampleGenerator.rng
            (filterVersions (loadEntry examplePlatform).versions
              (applyOptions [WithMinVersion "134".toList]))
            (applyOptions [WithMinVersion "134".toList]).withWeight
              = .ok (v, exampleGenerator.rng.next) ∧
          (Generate exampleGenerator zeroRand [WithMinVersion "134".toList]).2.1
            = { exampleGenerator with rng := exampleGenerator.rng.next }))) ∧
    (totalWeight 32 ((List.replicate 46341 ({ Components := [133] } : Version)).length : Int)
        = -1073716337 ∧
      selectVersion 32 zeroRand (List.replicate 46341 { Components := [133] }) true
        = .error .panic) ∧
    Generate hugeGenerator zeroRand [] = (.error .panic, hugeGenerator, zeroRand) :=
  ⟨fun r hr => C22_selectVersion_safe.2.2.2.1 intSize
      [{ Components := [135] }, { Components := [134] }, { Components := [133] }] r
      (by decide) (by decide) (by simpa using hr),
    C22_selectVersion_safe.2.2.2.2.1 intSize oneRand
      [{ Components := [135] }, { Components := [134] }, { Components := [133] }] true
      (by decide) (by decide),
    C22_selectVersion_safe.2.2.2.2.2.1 exampleGenerator zeroRand [WithMinVersion "134".toList]
      [("windows", loadEntry examplePlatform)] (loadEntry examplePlatform) rfl rfl,
    C22_selectVersion_safe.2.2.2.2.2.2.1 zeroRand _ (List.length_replicate _ _),
    C22_selectVersion_safe.2.2.2.2.2.2.2.2 hugeGenerator zeroRand []
      [("windows", { versions := List.replicate 3037000500 { Components := [133] }
                     uaTemplate := exampleTemplate })]
      { versions := List.replicate 3037000500 { Components := [133] }
        uaTemplate := exampleTemplate } rfl rfl
      (by rw [filterVersions_no_bounds _ _ rfl rfl]; exact List.length_replicate _ _) rfl⟩

end UserAgent
